import Mathlib

/-! # mingwgit: the node allocator, the log presentation layer, the walk flags, the tar
writer, the options of commit and the revision walker

A shallow embedding of `alloc.c`, `revision.h`, `log-tree.c`, of `shortlog` in
`builtin-fmt-merge-msg.c`, of the block writer of `archive-tar.c` and of the option checks of
`builtin-commit.c`, with the properties the specification states about them. The revision
walker that `revision.h` declares is modelled from the specification.

Conventions of the embedding:
* C `int` values are `Int`, brought back into range by `wrap_int`; `unsigned int` values are
  `Nat` taken modulo `2^32`.
* Static variables become fields of an explicit state that every function takes and returns.
* A function that can dereference NULL or call `die` returns an `Option`, or an `Except` that
  holds the message of `die`; so does a loop that is given fuel.
-/

namespace Alloc

/-! ## alloc.c -/

/-- The five instantiations of `DEFINE_ALLOCATOR` (alloc.c:48-52). -/
inductive Kind where
  | blob
  | tree
  | raw_commit
  | tag
  | object
deriving DecidableEq

/-- The constant of `#define BLOCKING 1024` (alloc.c:19). -/
def BLOCKING : Nat := 1024

/-- A pointer into memory obtained from `xmalloc`: the block it points into and the byte offset
inside that block. -/
structure Ptr where
  blk : Nat
  off : Nat
deriving DecidableEq

/-- What the headers that are not part of the sources fix: `sizeof` of the node type of every
allocator, `offsetof(struct commit, index)` (an `unsigned int`, four bytes), and the width of
`size_t` in bits. -/
structure Layout where
  sizeof : Kind → Nat
  index_off : Nat
  size_bits : Nat

/-- The heap as the allocator sees it: the sizes of the blocks `xmalloc` has handed out so far (the
position in the list is the block's identity) and the byte stored at every offset of every block.
A block that has not been written holds whatever `mem` says: `xmalloc` does not initialise. -/
structure Heap where
  blocks : List Nat
  mem : Nat → Nat → Nat

/-- The call `xmalloc(n)`: a block that is different from every block handed out before. Running out of
memory ends the program and is not modelled. -/
def xmalloc (h : Heap) (n : Nat) : Ptr × Heap :=
  (⟨h.blocks.length, 0⟩, { h with blocks := h.blocks ++ [n] })

/-- The call `memset(p, c, n)`. -/
def memset (mem : Nat → Nat → Nat) (p : Ptr) (c : Nat) (n : Nat) : Nat → Nat → Nat :=
  fun b o => if b = p.blk ∧ p.off ≤ o ∧ o < p.off + n then c % 256 else mem b o

/-- A store of an `unsigned int` at `p` (four bytes, least significant first, as on the x86
targets of MinGW). -/
def store_u32 (mem : Nat → Nat → Nat) (p : Ptr) (v : Nat) : Nat → Nat → Nat :=
  fun b o => if b = p.blk ∧ p.off ≤ o ∧ o < p.off + 4 then v / 256 ^ (o - p.off) % 256 else mem b o

/-- A load of an `unsigned int` from `p`. -/
def load_u32 (mem : Nat → Nat → Nat) (p : Ptr) : Nat :=
  mem p.blk p.off + 256 * mem p.blk (p.off + 1) + 256 ^ 2 * mem p.blk (p.off + 2)
    + 256 ^ 3 * mem p.blk (p.off + 3)

/-- A C `int` after an arithmetic step: the value brought back into `[-2^31, 2^31)`. -/
def wrap_int (x : Int) : Int := (x + 2 ^ 31) % 2 ^ 32 - 2 ^ 31

/-- The statics of one `DEFINE_ALLOCATOR` instance: `name##_allocs`, and `nr` and `block` of
`alloc_##name##_node` (alloc.c:22-26). -/
structure Statics where
  allocs : Nat
  nr : Int
  block : Option Ptr

/-- The whole state alloc.c works on: the statics of the five allocators, `commit_count` of
`alloc_commit_node`, the heap, and what has been written to stderr. -/
structure State where
  st : Kind → Statics
  commit_count : Int
  heap : Heap
  err : String

/-- The state at program start: all statics zero, nothing printed, any heap. -/
def init (h : Heap) : State :=
  { st := fun _ => ⟨0, 0, none⟩, commit_count := 0, heap := h, err := "" }

/-- The body of `alloc_##name##_node` (alloc.c:23-38) for the allocator `k`. The result is `none`
when `block` is NULL at `ret = block++` (the `memset` would fault). -/
def alloc_node (L : Layout) (k : Kind) (s : State) : Option (Ptr × State) :=
  let a := s.st k
  -- if (!nr) { nr = BLOCKING; block = xmalloc(BLOCKING * sizeof(type)); }
  let (nr, block, heap) :=
    if a.nr = 0 then
      let r := xmalloc s.heap (BLOCKING * L.sizeof k)
      (((BLOCKING : Nat) : Int), some r.1, r.2)
    else (a.nr, a.block, s.heap)
  -- nr--; name##_allocs++;
  let nr := wrap_int (nr - 1)
  let allocs := (a.allocs + 1) % 2 ^ 32
  -- ret = block++; memset(ret, 0, sizeof(type)); return ret;
  match block with
  | none => none
  | some ret =>
    let block := some (⟨ret.blk, ret.off + L.sizeof k⟩ : Ptr)
    let mem := memset heap.mem ret 0 (L.sizeof k)
    some (ret, { s with st := Function.update s.st k ⟨allocs, nr, block⟩,
                        heap := { heap with mem := mem } })

/-- The function `alloc_blob_node` (alloc.c:48). -/
def alloc_blob_node (L : Layout) : State → Option (Ptr × State) := alloc_node L Kind.blob

/-- The function `alloc_tree_node` (alloc.c:49). -/
def alloc_tree_node (L : Layout) : State → Option (Ptr × State) := alloc_node L Kind.tree

/-- The function `alloc_raw_commit_node` (alloc.c:50). -/
def alloc_raw_commit_node (L : Layout) : State → Option (Ptr × State) :=
  alloc_node L Kind.raw_commit

/-- The function `alloc_tag_node` (alloc.c:51). -/
def alloc_tag_node (L : Layout) : State → Option (Ptr × State) := alloc_node L Kind.tag

/-- The function `alloc_object_node` (alloc.c:52). -/
def alloc_object_node (L : Layout) : State → Option (Ptr × State) := alloc_node L Kind.object

/-- The function `alloc_commit_node` (alloc.c:54-60): `c->index = commit_count++`. The `int` is converted to
the `unsigned int` field modulo `2^32`. -/
def alloc_commit_node (L : Layout) (s : State) : Option (Ptr × State) :=
  match alloc_raw_commit_node L s with
  | none => none
  | some (c, s1) =>
    let v := s1.commit_count
    some (c, { s1 with
      commit_count := wrap_int (v + 1),
      heap := { s1.heap with
        mem := store_u32 s1.heap.mem ⟨c.blk, c.off + L.index_off⟩ (v % 2 ^ 32).toNat } })

/-- The conversion `%10s` / `%8u` of `fprintf`: right-justified in a field of `w` characters. -/
def pad_left (w : Nat) (t : String) : String :=
  String.mk (List.replicate (w - t.length) ' ') ++ t

/-- The function `report` (alloc.c:62-66): `fprintf(stderr, "%10s: %8u (%ju kB)\n", name, count, size)`. -/
def report (name : String) (count : Nat) (size : Nat) (s : State) : State :=
  { s with err := s.err ++ pad_left 10 name ++ ": " ++ pad_left 8 (toString count)
                    ++ " (" ++ toString size ++ " kB)\n" }

/-- The name `#name` stringifies to in `REPORT`. -/
def Kind.name : Kind → String
  | Kind.blob => "blob"
  | Kind.tree => "tree"
  | Kind.raw_commit => "raw_commit"
  | Kind.tag => "tag"
  | Kind.object => "object"

/-- The macro `REPORT(name, type)` (alloc.c:68-69): `name##_allocs * sizeof(type) >> 10`, the product taken
in `size_t`. -/
def REPORT (L : Layout) (k : Kind) (s : State) : State :=
  report k.name (s.st k).allocs ((((s.st k).allocs * L.sizeof k) % 2 ^ L.size_bits) >>> 10) s

/-- The function `alloc_report` (alloc.c:71-78). -/
def alloc_report (L : Layout) (s : State) : State :=
  REPORT L Kind.object (REPORT L Kind.tag (REPORT L Kind.raw_commit
    (REPORT L Kind.tree (REPORT L Kind.blob s))))

/-- The public entry points of alloc.c. -/
inductive Op where
  | node (k : Kind)
  | commit
  | report
deriving DecidableEq

/-- The allocator an entry point takes its node from. -/
def Op.kind : Op → Option Kind
  | Op.node k => some k
  | Op.commit => some Kind.raw_commit
  | Op.report => none

/-- One call as seen from outside: the entry point, the pointer it returned, and whether the heap
got a new block during the call. -/
structure Entry where
  op : Op
  ret : Ptr
  fresh : Bool
deriving DecidableEq

/-- The function behind an allocating entry point. -/
def Op.call (L : Layout) : Op → State → Option (Ptr × State)
  | Op.node Kind.blob => alloc_blob_node L
  | Op.node Kind.tree => alloc_tree_node L
  | Op.node Kind.raw_commit => alloc_raw_commit_node L
  | Op.node Kind.tag => alloc_tag_node L
  | Op.node Kind.object => alloc_object_node L
  | Op.commit => alloc_commit_node L
  | Op.report => fun _ => none

/-- One call of an entry point. -/
def step (L : Layout) (s : State) (op : Op) : Option (Option Entry × State) :=
  match op with
  | Op.report => some (none, alloc_report L s)
  | op =>
    (op.call L s).map fun r =>
      (some ⟨op, r.1, decide (r.2.heap.blocks.length ≠ s.heap.blocks.length)⟩, r.2)

/-- A sequence of calls from state `s`: the calls that returned a node, in order, and the state
reached. -/
def run (L : Layout) (s : State) (ops : List Op) : Option (List Entry × State) :=
  ops.foldl
    (fun acc op => acc.bind fun p => (step L p.2 op).map fun r => (p.1 ++ r.1.toList, r.2))
    (some ([], s))

/-- The calls of a log that took their node from allocator `k`. -/
def klog (k : Kind) (log : List Entry) : List Entry :=
  log.filter fun e => decide (e.op.kind = some k)

/-- The calls of a log that went through `alloc_commit_node`. -/
def clog (log : List Entry) : List Entry :=
  log.filter fun e => decide (e.op = Op.commit)

/-- The blocks allocator `k` has obtained, in the order it obtained them. -/
def kblocks (k : Kind) (log : List Entry) : List Nat :=
  ((klog k log).filter fun e => e.fresh).map fun e => e.ret.blk

/-- The number of nodes a sequence of calls takes from allocator `k`. -/
def count (k : Kind) (ops : List Op) : Nat :=
  (ops.filter fun o => decide (o.kind = some k)).length

/-- The number of calls of `alloc_commit_node` in a sequence of calls. -/
def commits (ops : List Op) : Nat :=
  (ops.filter fun o => decide (o = Op.commit)).length

/-- The line `report` prints for allocator `k` when it holds `n` nodes of `size` bytes each. -/
def report_line (k : Kind) (n : Nat) (size : Nat) : String :=
  pad_left 10 k.name ++ ": " ++ pad_left 8 (toString n) ++ " (" ++ toString (n * size / 1024)
    ++ " kB)\n"

/-- What holds between the log of a run and the state it reaches, as far as the block allocators
are concerned. -/
structure InvA (L : Layout) (log : List Entry) (s : State) : Prop where
  kind_some : ∀ e ∈ log, ∃ k, e.op.kind = some k
  blk_lt : ∀ e ∈ log, e.ret.blk < s.heap.blocks.length
  allocs : ∀ k, (s.st k).allocs = (klog k log).length % 2 ^ 32
  nr : ∀ k, (s.st k).nr = (((1024 - (klog k log).length % 1024) % 1024 : Nat) : Int)
  block : ∀ k, (klog k log).length % 1024 ≠ 0 →
    ∃ e0, (klog k log)[(klog k log).length - (klog k log).length % 1024]? = some e0 ∧
      (s.st k).block = some ⟨e0.ret.blk, (klog k log).length % 1024 * L.sizeof k⟩
  slots : ∀ (k : Kind) (n : Nat) (e : Entry), (klog k log)[n]? = some e →
    ∃ e0, (klog k log)[n - n % 1024]? = some e0 ∧
      e.ret = ⟨e0.ret.blk, n % 1024 * L.sizeof k⟩ ∧ (e.fresh = true ↔ n % 1024 = 0)
  owner : ∀ e1 ∈ log, ∀ e2 ∈ log, e1.ret.blk = e2.ret.blk → e1.op.kind = e2.op.kind
  fresh_inj : ∀ (k : Kind) (m n : Nat) (e1 e2 : Entry), (klog k log)[m]? = some e1 → (klog k log)[n]? = some e2 →
    e1.fresh = true → e2.fresh = true → e1.ret.blk = e2.ret.blk → m = n
  fresh_size : ∀ k, ∀ e ∈ klog k log, e.fresh = true →
    s.heap.blocks[e.ret.blk]? = some (BLOCKING * L.sizeof k)
  nodup : (log.map fun e => e.ret).Nodup
  kblocks_len : ∀ k, (kblocks k log).length = ((klog k log).length + 1023) / 1024
  kslots : ∀ (k : Kind) (n : Nat) (e : Entry), (klog k log)[n]? = some e →
    ∃ b, (kblocks k log)[n / 1024]? = some b ∧ e.ret = ⟨b, n % 1024 * L.sizeof k⟩

/-- What holds between the log of a run and the state it reaches, as far as the commit index is
concerned. -/
structure InvC (L : Layout) (log : List Entry) (s : State) : Prop where
  count : s.commit_count = wrap_int ((clog log).length : Int)
  index : ∀ (j : Nat) (e : Entry), (clog log)[j]? = some e →
    load_u32 s.heap.mem ⟨e.ret.blk, e.ret.off + L.index_off⟩ = j % 2 ^ 32

/-- A node of allocator `k` that a call has just returned and that holds only zero bytes. -/
def Zeroed (L : Layout) (k : Kind) (r : Option (Ptr × State)) : Prop :=
  ∃ p s', r = some (p, s') ∧ ∀ i, i < L.sizeof k → s'.heap.mem p.blk (p.off + i) = 0

/-- A layout for examples: the sizes of a 64-bit build. -/
def layout64 : Layout :=
  { sizeof := fun k =>
      match k with
      | Kind.blob => 24
      | Kind.tree => 40
      | Kind.raw_commit => 72
      | Kind.tag => 48
      | Kind.object => 72
    index_off := 32
    size_bits := 64 }

/-- A heap for examples: no block handed out yet, every byte non-zero. -/
def dirty_heap : Heap := { blocks := [], mem := fun b o => 1 + (b + o) % 255 }

end Alloc

namespace Revision

/-! ## revision.h -/

/-- The flag `SEEN` (revision.h:4). -/
def SEEN : Nat := 1 <<< 0

/-- The flag `UNINTERESTING` (revision.h:5). -/
def UNINTERESTING : Nat := 1 <<< 1

/-- The flag `TREESAME` (revision.h:6). -/
def TREESAME : Nat := 1 <<< 2

/-- The flag `SHOWN` (revision.h:7). -/
def SHOWN : Nat := 1 <<< 3

/-- The flag `TMP_MARK` (revision.h:8). -/
def TMP_MARK : Nat := 1 <<< 4

/-- The flag `BOUNDARY` (revision.h:9). -/
def BOUNDARY : Nat := 1 <<< 5

/-- The flag `CHILD_SHOWN` (revision.h:10). -/
def CHILD_SHOWN : Nat := 1 <<< 6

/-- The flag `ADDED` (revision.h:11). -/
def ADDED : Nat := 1 <<< 7

/-- The flag `SYMMETRIC_LEFT` (revision.h:12). -/
def SYMMETRIC_LEFT : Nat := 1 <<< 8

/-- The flag `TOPOSORT` (revision.h:13). -/
def TOPOSORT : Nat := 1 <<< 9

/-- The ten walk flags of revision.h:4-13, in the order of their definition. -/
def walk_flags : List Nat :=
  [SEEN, UNINTERESTING, TREESAME, SHOWN, TMP_MARK, BOUNDARY, CHILD_SHOWN, ADDED, SYMMETRIC_LEFT,
    TOPOSORT]

/-- The C expression `~m` on an `unsigned int`. -/
def bnot (m : Nat) : Nat := (2 ^ 32 - 1) ^^^ (m % 2 ^ 32)

/-- Setting a flag: `flags |= m`. -/
def set_flag (flags m : Nat) : Nat := flags ||| m

/-- Clearing a flag: `flags &= ~m`. -/
def clear_flag (flags m : Nat) : Nat := flags &&& bnot m

/-- Testing a flag: `flags & m` as a C truth value. -/
def has_flag (flags m : Nat) : Bool := flags &&& m != 0

end Revision

namespace LogTree
open Revision

/-! ## log-tree.c -/

/-- An object name (`unsigned char sha1[20]`), kept abstract. -/
abbrev Sha := Nat

/-- The formats of `enum cmit_fmt` (commit.h). -/
inductive CmitFmt where
  | RAW
  | MEDIUM
  | SHORT
  | FULL
  | FULLER
  | ONELINE
  | EMAIL
  | USERFORMAT
  | UNSPECIFIED
deriving DecidableEq

/-- The fields of `struct commit` that log-tree.c reads. A parent is named by its place in the
object store. -/
structure Commit where
  sha1 : Sha
  flags : Nat
  parents : List Nat
  buffer : Option String

/-- The record `struct log_info` (log-tree.h). -/
structure LogInfo where
  commit : Nat
  parent : Option Nat

/-- The fields of `struct diff_options` that log-tree.c uses (`abbrev_len` is the field
`abbrev`). -/
structure DiffOpt where
  output_format : Nat
  line_termination : Char
  msg_sep : String
  abbrev_len : Int
  stat_sep : Option String

/-- The fields of `struct rev_info` (revision.h:18-102) that log-tree.c reads and never writes
(`abbrev_len` is the field `abbrev`). The three it writes, `loginfo`, `shown_one` and `diffopt`,
are fields of `World`. -/
structure RevInfo where
  left_right : Bool
  parents : Bool
  diff : Bool
  show_root_diff : Bool
  no_commit_id : Bool
  verbose_header : Bool
  ignore_merges : Bool
  combine_merges : Bool
  dense_combined_merges : Bool
  always_show_header : Bool
  abbrev_commit : Bool
  use_terminator : Bool
  date_mode : Nat
  abbrev_len : Nat
  commit_format : CmitFmt
  nr : Int
  total : Int
  mime_boundary : Option String
  message_id : Option String
  ref_message_id : Option String
  add_signoff : Option String
  extra_headers : Option String
  subject_prefix : Option String
  no_inline : Int
  show_log_size : Int
  reflog_info : Option Nat

/-- A call that log-tree.c makes, as recorded in `World.trace`: the calls into the diff engine
with their arguments, and every entry into `show_log` with `log->commit` and `log->parent`. -/
inductive Event where
  | diff_tree_sha1 (old new : Sha)
  | diff_root_tree_sha1 (new : Sha)
  | diff_tree_combined_merge (sha1 : Sha) (dense : Bool)
  | diff_flush
  | show_log (commit : Nat) (parent : Option Nat)
deriving DecidableEq

/-- Everything log-tree.c reads or writes: the `rev_info`, of which `opt` holds the fields that
are only read, `loginfo` the pointer `opt->loginfo` (NULL, `false`, or the address of the one
`struct log_info` in play, `true`), `shown_one` the bit `opt->shown_one` and `diffopt` the
member `opt->diffopt`; the `struct log_info` that `opt->loginfo` points to when it is not NULL;
the object store; the queue of the diff engine (`diff_queued_diff`, one entry per changed path);
stdout; and the record of the calls made. The record is written and never read: it is there to
state properties. -/
structure World where
  opt : RevInfo
  loginfo : Bool
  shown_one : Bool
  diffopt : DiffOpt
  log : LogInfo
  commits : Nat → Commit
  queue : List String
  out : String
  trace : List Event

/-- What log-tree.c takes from the rest of git, none of it part of the sources at hand. -/
structure Env where
  /-- The function `diff_unique_abbrev(sha1, len)`. -/
  diff_unique_abbrev : Sha → Int → String
  /-- The function `sha1_to_hex(sha1)`. -/
  sha1_to_hex : Sha → String
  /-- The names `lookup_decoration(&name_decoration, &commit->object)` finds, in list order. -/
  lookup_decoration : Nat → List String
  /-- The function `diff_get_color_opt(&opt->diffopt, slot)`, for `DIFF_COMMIT` (`true`) and
  `DIFF_RESET` (`false`). -/
  diff_get_color_opt : DiffOpt → Bool → String
  /-- What `show_reflog_message(info, oneline, date_mode)` prints. -/
  show_reflog_message : Nat → Bool → Nat → String
  /-- What `pretty_print_commit` appends to the buffer. -/
  pretty_print_commit : CmitFmt → Nat → Commit → Int → Option String → Option String → Nat →
    Int → String
  /-- The macro `non_ascii(ch)`. -/
  non_ascii : Char → Bool
  /-- The macro `isspace(ch)` of git-compat-util.h. -/
  isspace : Char → Bool
  /-- The string `mime_boundary_leader`. -/
  mime_boundary_leader : String
  /-- The paths `diff_tree_sha1(old, new, "", opt)` queues. -/
  diff_tree : Sha → Sha → DiffOpt → List String
  /-- The paths `diff_root_tree_sha1(new, "", opt)` queues. -/
  diff_root_tree : Sha → DiffOpt → List String
  /-- The paths the N-way comparison of a merge with all of its parents finds. -/
  diff_combined : Sha → Bool → DiffOpt → List String
  /-- What `diffcore_std(opt)` makes of the queue. -/
  diffcore_std : DiffOpt → List String → List String
  /-- What `diff_flush(opt)` prints for a queue. -/
  diff_output : DiffOpt → List String → String
  /-- What the combined diff prints for its paths. -/
  combined_output : DiffOpt → List String → String
  /-- Whether `diff_tree_combined_merge`, entered in the world given and with the change set it
  has found, shows the log message: `some sep` when it calls `show_log(rev, sep)`, `none` when it
  does not. The specification does not say when it does. -/
  combined_show_log : World → List String → Option String
  /-- The constant `DIFF_FORMAT_DIFFSTAT` of diff.h. -/
  DIFF_FORMAT_DIFFSTAT : Nat
  /-- The constant `DIFF_FORMAT_PATCH` of diff.h. -/
  DIFF_FORMAT_PATCH : Nat
  /-- The constant `DIFF_FORMAT_NO_OUTPUT` of diff.h. -/
  DIFF_FORMAT_NO_OUTPUT : Nat

/-- Writing `t` to stdout (`printf`, `fputs`, `fwrite`). -/
def World.print (w : World) (t : String) : World := { w with out := w.out ++ t }

/-- The call `putchar(c)`. -/
def World.putchar (w : World) (c : Char) : World := w.print (String.singleton c)

/-- Adding a call to the record. -/
def World.note (w : World) (e : Event) : World := { w with trace := w.trace ++ [e] }

/-- The function `show_parents` (log-tree.c:9-16): the text it prints. -/
def show_parents (E : Env) (commits : Nat → Commit) (commit : Nat) (abbrev_len : Int) :
    String :=
  (commits commit).parents.foldl
    (fun t p => t ++ (" " ++ E.diff_unique_abbrev (commits p).sha1 abbrev_len)) ""

/-- The function `show_decorations` (log-tree.c:18-33): the text it prints. The accumulator of
the loop is the text so far and the variable `prefix`. -/
def show_decorations (E : Env) (commit : Nat) : String :=
  match E.lookup_decoration commit with
  | [] => ""
  | d =>
    let r := d.foldl (fun (acc : String × String) name => (acc.1 ++ (acc.2 ++ name), ", "))
      ("", " (")
    r.1 ++ ")"

/-- The second loop of `detect_any_signoff` (log-tree.c:51-78), reading the buffer backwards: the
list holds the characters from `*cp` down to `letter[0]`. The result is the return value. -/
def detect_any_signoff_scan :
    List Char → (seen_colon seen_at seen_name seen_head : Bool) → Bool
  | [], _, _, seen_name, seen_head => seen_head && seen_name
  | ch :: rest, seen_colon, seen_at, seen_name, seen_head =>
    if ch = '\n' then seen_head && seen_name
    else if !seen_at then
      detect_any_signoff_scan rest seen_colon (if ch = '@' then true else seen_at) seen_name
        seen_head
    else if !seen_colon then
      if ch = '@' then false
      else if ch = ':' then detect_any_signoff_scan rest true seen_at seen_name seen_head
      else detect_any_signoff_scan rest seen_colon seen_at true seen_head
    else if ('A' ≤ ch ∧ ch ≤ 'Z') ∨ ('a' ≤ ch ∧ ch ≤ 'z') ∨ ch = '-' then
      detect_any_signoff_scan rest seen_colon seen_at seen_name true
    else false

/-- The function `detect_any_signoff(letter, size)` (log-tree.c:39-80): the first loop steps back
over the newlines at the end, the second reads the last line backwards. -/
def detect_any_signoff (letter : List Char) : Bool :=
  detect_any_signoff_scan (letter.reverse.dropWhile fun ch => ch = '\n') false false false false

/-- The C call `strstr(buf + cp, pat)` on a buffer without NUL: the offset of the first
occurrence of `pat` at or after `cp`. -/
def strstr_from (buf pat : List Char) (cp : Nat) : Option Nat :=
  ((List.range (buf.length + 1 - cp)).map fun i => cp + i).find?
    fun i => pat.isPrefixOf (buf.drop i)

/-- The character `buf[i]`; the byte after the end of a `strbuf` is NUL. -/
def char_at (buf : List Char) (i : Nat) : Char := buf.getD i (Char.ofNat 0)

/-- The loop of `append_signoff` (log-tree.c:92-105). The result is `none` for the early
`return` ("we already have him") and `has_signoff` otherwise. Every round moves `cp` forward,
so `fuel` rounds are enough when `fuel` exceeds the length of the buffer. -/
def append_signoff_loop (E : Env) (buf signoff : List Char) :
    (fuel : Nat) → (cp : Nat) → (has_signoff : Bool) → Option Bool
  | 0, _, has_signoff => some has_signoff
  | fuel + 1, cp, has_signoff =>
    match strstr_from buf "Signed-off-by: ".toList cp with
    | none => some has_signoff
    | some i =>
      let cp := i + "Signed-off-by: ".length
      if cp + signoff.length ≥ buf.length then some true
      else if (List.range signoff.length).any fun j => char_at buf (cp + j) != char_at signoff j
      then append_signoff_loop E buf signoff fuel cp true
      else if !E.isspace (char_at buf (cp + signoff.length)) then
        append_signoff_loop E buf signoff fuel cp true
      else none

/-- The function `append_signoff(sb, signoff)` (log-tree.c:82-116), on the content of the
`strbuf`. -/
def append_signoff (E : Env) (sb : String) (signoff : String) : String :=
  match append_signoff_loop E sb.toList signoff.toList (sb.length + 1) 0 false with
  | none => sb
  | some has_signoff =>
    let has_signoff := if !has_signoff then detect_any_signoff sb.toList else has_signoff
    let sb := if !has_signoff then sb.push '\n' else sb
    (sb ++ "Signed-off-by: " ++ signoff).push '\n'

/-- The loop of `digits_in_number` (log-tree.c:121-124) on `unsigned int`. The result is `none`
when `fuel` rounds do not leave the loop. -/
def digits_in_number_loop (number : Nat) : (fuel : Nat) → (i result : Nat) → Option Nat
  | 0, _, _ => none
  | fuel + 1, i, result =>
    if i ≤ number then
      digits_in_number_loop number fuel (i * 10 % 2 ^ 32) ((result + 1) % 2 ^ 32)
    else some result

/-- The function `digits_in_number` (log-tree.c:118-126). After 32 multiplications `i` is 0 and
stays 0, so a loop that has not ended within 33 rounds never ends: `none`. -/
def digits_in_number (number : Nat) : Option Nat := digits_in_number_loop number 33 10 1

/-- The function `has_non_ascii` (log-tree.c:128-138). -/
def has_non_ascii (E : Env) (s : Option String) : Int :=
  match s with
  | none => 0
  | some t => if t.toList.any E.non_ascii then 1 else 0

/-- The C call `snprintf(buf, size, ...)`: at most `size - 1` characters of the text are kept. -/
def snprintf (size : Nat) (t : String) : String := t.take (size - 1)

/-- The conversion `%0*d`: a decimal number padded with zeros to `width` characters. -/
def fmt_0d (width : Nat) (i : Int) : String :=
  let digits := toString i.natAbs
  if i < 0 then
    "-" ++ String.mk (List.replicate (width - 1 - digits.length) '0') ++ digits
  else String.mk (List.replicate (width - digits.length) '0') ++ digits

/-- The conversion `%s`: a NULL argument is printed as `(null)`. -/
def fmt_s (s : Option String) : String := s.getD "(null)"

/-- The function `log_write_email_headers` (log-tree.c:140-209). The result holds the world
and what is stored through `subject_p`, `extra_headers_p` and `need_8bit_cte_p`. -/
def log_write_email_headers (E : Env) (w : World) (name : String) :
    Option (World × Option String × Option String × Int) :=
  let opt := w.opt
  let extra_headers := opt.extra_headers
  let subject : Option String :=
    if opt.total > 0 then
      (digits_in_number opt.total.toNat).map fun d =>
        snprintf 64 ("Subject: [" ++ fmt_s opt.subject_prefix ++ " " ++ fmt_0d d opt.nr ++ "/"
          ++ toString opt.total ++ "] ")
    else if opt.total = 0 ∧ opt.subject_prefix ≠ none ∧ opt.subject_prefix ≠ some "" then
      some (snprintf 256 ("Subject: [" ++ fmt_s opt.subject_prefix ++ "] "))
    else some "Subject: "
  match subject with
  | none => none
  | some subject =>
    let w := w.print ("From " ++ name ++ " Mon Sep 17 00:00:00 2001\n"
      ++ (match opt.message_id with
          | some id => "Message-Id: <" ++ id ++ ">\n"
          | none => "")
      ++ (match opt.ref_message_id with
          | some id => "In-Reply-To: <" ++ id ++ ">\nReferences: <" ++ id ++ ">\n"
          | none => ""))
    match opt.mime_boundary with
    | some boundary =>
      let subject_buffer := snprintf (1024 - 1)
        (extra_headers.getD "" ++ "MIME-Version: 1.0\n"
          ++ "Content-Type: multipart/mixed;" ++ " boundary=\"" ++ E.mime_boundary_leader
          ++ boundary ++ "\"\n" ++ "\n" ++ "This is a multi-part message in MIME "
          ++ "format.\n" ++ "--" ++ E.mime_boundary_leader ++ boundary ++ "\n"
          ++ "Content-Type: text/plain; " ++ "charset=UTF-8; format=fixed\n"
          ++ "Content-Transfer-Encoding: 8bit\n\n")
      let buffer := snprintf (1024 - 1)
        ("--" ++ E.mime_boundary_leader ++ boundary ++ "\n" ++ "Content-Type: text/x-patch;"
          ++ " name=\"" ++ name ++ ".diff\"\n" ++ "Content-Transfer-Encoding: 8bit\n"
          ++ "Content-Disposition: " ++ (if opt.no_inline ≠ 0 then "attachment" else "inline")
          ++ ";" ++ " filename=\"" ++ name ++ ".diff\"\n\n")
      let w := { w with diffopt := { w.diffopt with stat_sep := some buffer } }
      some (w, some subject, some subject_buffer, -1)
    | none => some (w, some subject, extra_headers, 0)

/-- The end of `show_log` (log-tree.c:302-324), which prints the message: the text it prints.
A statement that prints under a condition contributes a text that is empty when the condition
fails. -/
def show_log_message (E : Env) (w : World) (commit : Nat) (sep extra : String)
    (subject extra_headers : Option String) (need_8bit_cte : Int) : String :=
  let c := w.commits commit
  match c.buffer with
  | none => ""
  | some _ =>
    let need_8bit_cte :=
      if need_8bit_cte ≥ 0 then has_non_ascii E w.opt.add_signoff else need_8bit_cte
    let msgbuf := E.pretty_print_commit w.opt.commit_format commit c w.diffopt.abbrev_len
      subject extra_headers w.opt.date_mode need_8bit_cte
    let msgbuf :=
      match w.opt.add_signoff with
      | some signoff => append_signoff E msgbuf signoff
      | none => msgbuf
    (if w.opt.show_log_size ≠ 0 then "log size " ++ toString msgbuf.length ++ "\n" else "")
      ++ (if msgbuf.length ≠ 0 then msgbuf ++ (extra ++ sep) else "")

/-- The function `show_log` (log-tree.c:211-325). The result is `none` when `opt->loginfo` is
NULL (it is dereferenced in the first lines) and when `digits_in_number` does not return. A
statement that prints under a condition is a `print` of a text that is empty when the condition
fails. -/
def show_log (E : Env) (w : World) (sep : String) : Option World :=
  if !w.loginfo then none
  else
    let w := w.note (Event.show_log w.log.commit w.log.parent)
    let commit := w.log.commit
    let parent := w.log.parent
    let c := w.commits commit
    let abbrev_commit : Int := if w.opt.abbrev_commit then (w.opt.abbrev_len : Int) else 40
    let extra_headers := w.opt.extra_headers
    let w := { w with loginfo := false }
    if !w.opt.verbose_header then
      let w := w.print
        (if has_flag c.flags BOUNDARY then "-"
          else if has_flag c.flags UNINTERESTING then "^"
          else if w.opt.left_right then
            if has_flag c.flags SYMMETRIC_LEFT then "<" else ">"
          else "")
      let w := w.print (E.diff_unique_abbrev c.sha1 abbrev_commit)
      let w := w.print (if w.opt.parents then show_parents E w.commits commit abbrev_commit else "")
      let w := w.print (show_decorations E commit)
      some (w.putchar w.diffopt.line_termination)
    else
      let extra := if sep.toList.head? ≠ some '\n' ∧ w.opt.use_terminator then "\n" else ""
      let w := w.print
        (if w.shown_one ∧ !w.opt.use_terminator then String.singleton w.diffopt.line_termination
          else "")
      let w := { w with shown_one := true }
      if w.opt.commit_format = CmitFmt.EMAIL then
        match log_write_email_headers E w (E.sha1_to_hex c.sha1) with
        | none => none
        | some (w, subject, extra_headers, need_8bit_cte) =>
          some (w.print
            (show_log_message E w commit sep extra subject extra_headers need_8bit_cte))
      else if w.opt.commit_format ≠ CmitFmt.USERFORMAT then
        let w := w.print (E.diff_get_color_opt w.diffopt true)
        let w := w.print (if w.opt.commit_format ≠ CmitFmt.ONELINE then "commit " else "")
        let w := w.print
          (if has_flag c.flags BOUNDARY then "-"
            else if has_flag c.flags UNINTERESTING then "^"
            else if w.opt.left_right then
              if has_flag c.flags SYMMETRIC_LEFT then "<" else ">"
            else "")
        let w := w.print (E.diff_unique_abbrev c.sha1 abbrev_commit)
        let w := w.print (if w.opt.parents then show_parents E w.commits commit abbrev_commit else "")
        let w := w.print
          (match parent with
            | some p => " (from " ++ E.diff_unique_abbrev (w.commits p).sha1 abbrev_commit ++ ")"
            | none => "")
        let w := w.print (show_decorations E commit)
        let w := w.print (E.diff_get_color_opt w.diffopt false)
        let w := w.putchar (if w.opt.commit_format = CmitFmt.ONELINE then ' ' else '\n')
        match w.opt.reflog_info with
        | some info =>
          let w := w.print (E.show_reflog_message info
            (decide (w.opt.commit_format = CmitFmt.ONELINE)) w.opt.date_mode)
          if w.opt.commit_format = CmitFmt.ONELINE then some (w.print sep)
          else some (w.print (show_log_message E w commit sep extra none extra_headers 0))
        | none => some (w.print (show_log_message E w commit sep extra none extra_headers 0))
      else some (w.print (show_log_message E w commit sep extra none extra_headers 0))

/-- The call `diff_tree_sha1(old, new, "", &opt->diffopt)`: the changed paths join the queue. -/
def diff_tree_sha1 (E : Env) (w : World) (old new : Sha) : World :=
  { w.note (Event.diff_tree_sha1 old new) with
    queue := w.queue ++ E.diff_tree old new w.diffopt }

/-- The call `diff_root_tree_sha1(new, "", &opt->diffopt)`. -/
def diff_root_tree_sha1 (E : Env) (w : World) (new : Sha) : World :=
  { w.note (Event.diff_root_tree_sha1 new) with
    queue := w.queue ++ E.diff_root_tree new w.diffopt }

/-- The call `diff_flush(&opt->diffopt)`: the queue is printed and emptied. -/
def diff_flush (E : Env) (w : World) : World :=
  { (w.note Event.diff_flush).print
      (E.diff_output w.diffopt w.queue) with queue := [] }

/-- The function `log_tree_diff_flush` (log-tree.c:327-357). -/
def log_tree_diff_flush (E : Env) (w : World) : Option (Bool × World) :=
  let w := { w with queue := E.diffcore_std w.diffopt w.queue }
  if w.queue.isEmpty then
    let saved_fmt := w.diffopt.output_format
    let w := { w with diffopt := { w.diffopt with output_format := E.DIFF_FORMAT_NO_OUTPUT } }
    let w := diff_flush E w
    let w := { w with diffopt := { w.diffopt with output_format := saved_fmt } }
    some (false, w)
  else
    let shown : Option World :=
      if w.loginfo ∧ !w.opt.no_commit_id then
        (show_log E w w.diffopt.msg_sep).map fun w =>
          if (w.diffopt.output_format &&& bnot E.DIFF_FORMAT_NO_OUTPUT) ≠ 0 ∧
              w.opt.verbose_header ∧ w.opt.commit_format ≠ CmitFmt.ONELINE then
            let pch := E.DIFF_FORMAT_DIFFSTAT ||| E.DIFF_FORMAT_PATCH
            let w := w.print (if pch &&& w.diffopt.output_format = pch then "---" else "")
            w.putchar '\n'
          else w
      else some w
    shown.map fun w => (true, diff_flush E w)

/-- Modelled from the spec: `diff_tree_combined_merge` of combine-diff.c, which is not part of
the sources at hand. It is the N-way comparison `diff_combined(tree_ids[], path_filter) ->
change_set` of a merge with all of its parents, and it prints the change set. `do_diff_combined`
tests afterwards whether it has shown the log message through `opt->loginfo`; the specification
does not say when it does, so that is the choice `combined_show_log` of the environment, made
on the world at entry and the change set. The result is `none` when `show_log` is entered with
`opt->loginfo` NULL. -/
def diff_tree_combined_merge (E : Env) (w : World) (sha1 : Sha) (dense : Bool) : Option World :=
  let paths := E.diff_combined sha1 dense w.diffopt
  let choice := E.combined_show_log w paths
  let w := w.note (Event.diff_tree_combined_merge sha1 dense)
  let shown : Option World :=
    match choice with
    | some sep => show_log E w sep
    | none => some w
  shown.map fun w => w.print (E.combined_output w.diffopt paths)

/-- The function `do_diff_combined` (log-tree.c:359-365). -/
def do_diff_combined (E : Env) (w : World) (commit : Nat) : Option (Bool × World) :=
  let sha1 := (w.commits commit).sha1
  (diff_tree_combined_merge E w sha1 w.opt.dense_combined_merges).map fun w =>
    (!w.loginfo, w)

/-- The loop of `log_tree_diff` (log-tree.c:403-417) over the parents that are left. -/
def log_tree_diff_loop (E : Env) (sha1 : Sha) :
    (parents : List Nat) → World → (showed_log : Bool) → Option (Bool × World)
  | [], _, _ => none
  | parent :: rest, w, showed_log =>
    let w := diff_tree_sha1 E w (w.commits parent).sha1 sha1
    match log_tree_diff_flush E w with
    | none => none
    | some (_, w) =>
      let showed_log := showed_log || !w.loginfo
      match rest with
      | [] => some (showed_log, w)
      | next :: _ =>
        let w := { w with log := { w.log with parent := some next }, loginfo := true }
        log_tree_diff_loop E sha1 rest w showed_log

/-- The function `log_tree_diff` (log-tree.c:372-419); `log` is the `struct log_info` of the
world. -/
def log_tree_diff (E : Env) (w : World) (commit : Nat) : Option (Bool × World) :=
  let sha1 := (w.commits commit).sha1
  if !w.opt.diff then some (false, w)
  else
    match (w.commits commit).parents with
    | [] =>
      if w.opt.show_root_diff then
        let w := diff_root_tree_sha1 E w sha1
        (log_tree_diff_flush E w).map fun r => (!r.2.loginfo, r.2)
      else some (!w.loginfo, w)
    | [parent] => log_tree_diff_loop E sha1 [parent] w false
    | parent :: next :: rest =>
      if w.opt.ignore_merges then some (false, w)
      else if w.opt.combine_merges then do_diff_combined E w commit
      else
        let w := { w with log := { w.log with parent := some parent } }
        log_tree_diff_loop E sha1 (parent :: next :: rest) w false

/-- The function `log_tree_commit` (log-tree.c:421-439). The call `maybe_flush_or_die` only
flushes stdout. -/
def log_tree_commit (E : Env) (w : World) (commit : Nat) : Option (Bool × World) :=
  let w := { w with log := { commit := commit, parent := none }, loginfo := true }
  match log_tree_diff E w commit with
  | none => none
  | some (shown, w) =>
    let r : Option (Bool × World) :=
      if !shown ∧ w.loginfo ∧ w.opt.always_show_header then
        let w := { w with log := { w.log with parent := none } }
        (show_log E w "").map fun w => (true, w)
      else some (shown, w)
    r.map fun r => (r.1, { r.2 with loginfo := false })

/-- The world `w'` is `w` after one run of `show_log`: `opt->loginfo` is NULL, the entry is
recorded, and besides stdout only `shown_one` and `diffopt.stat_sep` may differ. -/
def Shown (w w' : World) : Prop :=
  ∃ so ss t, w' =
    { w with
      loginfo := false, shown_one := so, diffopt := { w.diffopt with stat_sep := ss },
      out := w.out ++ t, trace := w.trace ++ [Event.show_log w.log.commit w.log.parent] }

/-- The calls one one-sided diff of the commit named `sha1` against the parent `p` makes: the
comparison, the log header under the display parent `dp` when `shown`, and the flush. -/
def one_sided (w : World) (sha1 : Sha) (dp : Option Nat) (p : Nat) (shown : Bool) : List Event :=
  Event.diff_tree_sha1 (w.commits p).sha1 sha1 ::
    ((if shown then [Event.show_log w.log.commit dp] else []) ++ [Event.diff_flush])

/-- The calls of the loop of `log_tree_diff` over the parents `ps`: one one-sided diff for each,
the first under the display parent `dp`, every later one under its own parent. -/
def loop_events (w : World) (sha1 : Sha) : Option Nat → List Nat → List Bool → List Event
  | dp, p :: ps, b :: bs => one_sided w sha1 dp p b ++ loop_events w sha1 ps.head? ps bs
  | _, _, _ => []

/-- The world `w'` is `w` after `log_tree_diff` made the calls `evs`: the queue is empty, and
besides stdout and the record of calls only `loginfo`, `shown_one`, `diffopt.stat_sep` and
`log.parent` may differ. -/
def Walked (w w' : World) (evs : List Event) : Prop :=
  ∃ li so ss lp t, w' =
    { w with
      loginfo := li, shown_one := so, diffopt := { w.diffopt with stat_sep := ss },
      log := { w.log with parent := lp }, queue := [], out := w.out ++ t,
      trace := w.trace ++ evs }

/-- The world `w'` is `w` after one run of `log_tree_diff_flush` that showed no log header. -/
def Flushed (w w' : World) : Prop :=
  ∃ t, w' = { w with queue := [], out := w.out ++ t, trace := w.trace ++ [Event.diff_flush] }

/-- The world `w'` is `w` after one run of `log_tree_diff_flush` that showed the log header. -/
def FlushedShown (w w' : World) : Prop :=
  ∃ so ss t, w' =
    { w with
      loginfo := false, shown_one := so, diffopt := { w.diffopt with stat_sep := ss },
      queue := [], out := w.out ++ t,
      trace := w.trace ++ [Event.show_log w.log.commit w.log.parent, Event.diff_flush] }

/-- The world `w'` agrees with `w` on everything `log_tree_diff` never writes: the read-only
part of the `rev_info`, the object store, `log.commit`, and `diffopt` but for `stat_sep`; the
record of calls has grown by `evs`. -/
def Stepped (w w' : World) (evs : List Event) : Prop :=
  ∃ li so ss lp q t, w' =
    { w with
      loginfo := li, shown_one := so, diffopt := { w.diffopt with stat_sep := ss },
      log := { w.log with parent := lp }, queue := q, out := w.out ++ t,
      trace := w.trace ++ evs }

/-- The calls `log_tree_diff` makes for a commit without parents. -/
def root_events (w : World) (sha1 : Sha) (shown : Bool) : List Event :=
  Event.diff_root_tree_sha1 sha1 ::
    ((if shown then [Event.show_log w.log.commit w.log.parent] else []) ++ [Event.diff_flush])

/-- The calls `do_diff_combined` makes. -/
def combined_events (w : World) (sha1 : Sha) (shown : Bool) : List Event :=
  Event.diff_tree_combined_merge sha1 w.opt.dense_combined_merges ::
    (if shown then [Event.show_log w.log.commit w.log.parent] else [])

/-- The marker of a commit's range status, in the specification's words: `-` for a boundary
commit (also when it is uninteresting), `^` for an uninteresting commit that is not a boundary,
and otherwise, when `left_right` is on, `<` for a commit of the left side and `>` for one that
is not. -/
def range_marker (flags : Nat) (left_right : Bool) : String :=
  if has_flag flags BOUNDARY then "-"
  else if has_flag flags UNINTERESTING then "^"
  else if left_right then
    if has_flag flags SYMMETRIC_LEFT then "<" else ">"
  else ""

/-- An environment for examples: an object is abbreviated to one letter, two trees differ when
their names differ, nothing is decorated or coloured; the combined diff shows the log message
when `opt->loginfo` is set, `no_commit_id` is not, and it has found a change. -/
def example_env : Env :=
  { diff_unique_abbrev := fun sha _ => String.singleton (Char.ofNat (97 + sha))
    sha1_to_hex := fun sha => String.singleton (Char.ofNat (97 + sha))
    lookup_decoration := fun _ => []
    diff_get_color_opt := fun _ _ => ""
    show_reflog_message := fun _ _ _ => ""
    pretty_print_commit := fun _ _ c _ _ _ _ _ => c.buffer.getD ""
    non_ascii := fun ch => decide (128 ≤ ch.toNat ∨ ch.toNat = 27)
    isspace := fun ch => decide (ch = ' ' ∨ ch = '\t' ∨ ch = '\n' ∨ ch = '\r')
    mime_boundary_leader := "------------"
    diff_tree := fun old new _ => if old = new then [] else ["file"]
    diff_root_tree := fun _ _ => ["file"]
    diff_combined := fun _ _ _ => ["file"]
    diffcore_std := fun _ q => q
    diff_output := fun _ q => String.join q
    combined_output := fun _ q => String.join q
    combined_show_log := fun w q =>
      if w.loginfo ∧ !w.opt.no_commit_id ∧ !q.isEmpty then some w.diffopt.msg_sep else none
    DIFF_FORMAT_DIFFSTAT := 2
    DIFF_FORMAT_PATCH := 16
    DIFF_FORMAT_NO_OUTPUT := 2048 }

/-- The environment of the examples when no comparison finds a change. -/
def example_env_unchanged : Env :=
  { example_env with
    diff_tree := fun _ _ _ => []
    diff_root_tree := fun _ _ => []
    diff_combined := fun _ _ _ => [] }

/-- An object store for examples: commit 0 is a root, 1 and 2 are its children, 3 merges 1 and
2; commit 2 is a boundary commit. -/
def example_commits (i : Nat) : Commit :=
  match i with
  | 0 => { sha1 := 0, flags := 0, parents := [], buffer := some "root\n" }
  | 1 => { sha1 := 1, flags := 0, parents := [0], buffer := some "one\n" }
  | 2 => { sha1 := 2, flags := BOUNDARY ||| UNINTERESTING, parents := [0], buffer := some "two\n" }
  | _ => { sha1 := 3, flags := 0, parents := [1, 2], buffer := some "merge\n" }

/-- The options of the examples: diff output on, short headers. -/
def example_opt : RevInfo :=
  { left_right := false, parents := false, diff := true, show_root_diff := false,
    no_commit_id := false, verbose_header := false, ignore_merges := false,
    combine_merges := false, dense_combined_merges := false, always_show_header := false,
    abbrev_commit := false, use_terminator := false, date_mode := 0, abbrev_len := 7,
    commit_format := CmitFmt.MEDIUM, nr := 0, total := 0, mime_boundary := none,
    message_id := none, ref_message_id := none, add_signoff := none, extra_headers := none,
    subject_prefix := none, no_inline := 0, show_log_size := 0, reflog_info := none }

/-- A world for examples: nothing printed, nothing queued, the log info set for commit 2. -/
def example_world : World :=
  { opt := example_opt, loginfo := true, shown_one := false,
    diffopt := { output_format := 16, line_termination := '\n', msg_sep := "\n", abbrev_len := 7,
                 stat_sep := none },
    log := { commit := 2, parent := none }, commits := example_commits, queue := [], out := "",
    trace := [] }

/-- The example world when both `combine_merges` and `ignore_merges` are set. -/
def example_world_ignoring : World :=
  { example_world with
    opt := { example_opt with combine_merges := true, ignore_merges := true } }

/-- The example world when `combine_merges` is set and diff output (`opt->diff`) is off. -/
def example_world_nodiff : World :=
  { example_world with opt := { example_opt with combine_merges := true, diff := false } }

/-- The example world when `combine_merges` is set and `ignore_merges` is not. -/
def example_world_combining : World :=
  { example_world with opt := { example_opt with combine_merges := true } }

end LogTree

namespace FmtMergeMsg
open Revision

/-! ## builtin-fmt-merge-msg.c: shortlog -/

/-- The commit graph as the object store holds it: the parents and the message buffer of every
commit and its object name. It does not change during a run. -/
structure Graph where
  parents : Nat → List Nat
  buffer : Nat → String
  sha1 : Nat → Nat

/-- The fields of `struct rev_info` that `shortlog` itself touches: the list `commits`, the
array `pending` (its `nr` is the length of the list) and `ignore_merges`; `walker` stands for
everything else the revision walker keeps in the structure. -/
structure Rev where
  commits : List Nat
  pending : List (Nat × String)
  ignore_merges : Bool
  walker : Nat

/-- What a revision walk reads and writes: the flags of the objects and the `rev_info`. -/
structure Walk where
  flags : Nat → Nat
  rev : Rev

/-- The state `shortlog` works on: the walk and stdout. -/
structure State where
  walk : Walk
  out : String

/-- What `shortlog` takes from the rest of git, none of it part of the sources at hand. -/
structure Env where
  /-- The object `deref_tag(parse_object(sha1), ...)` yields, if any, and whether its type is
  `OBJ_COMMIT`. -/
  deref_tag : Nat → Option (Nat × Bool)
  /-- The function `setup_revisions(0, NULL, rev, NULL)`. -/
  setup_revisions : Walk → Walk
  /-- The function `prepare_revision_walk(rev)` and its return value. -/
  prepare_revision_walk : Walk → Int × Walk
  /-- The function `get_revision(rev)`: the next commit, or NULL. -/
  get_revision : Walk → Option Nat × Walk
  /-- The function `sha1_to_hex`. -/
  sha1_to_hex : Nat → String
  /-- The macro `isspace` of git-compat-util.h. -/
  isspace : Char → Bool
  /-- The commits that `clear_commit_marks(commit, mark)` of commit.c visits when the flags are
  as given: the `nodes` of the operation `clear_marks(nodes, flag_set)`. -/
  clear_nodes : (Nat → Nat) → Nat → Nat → Nat → Bool

/-- The commit `b` is reached from `a` over parent edges. -/
def Reach (G : Graph) (a b : Nat) : Prop :=
  Relation.ReflTransGen (fun x y => y ∈ G.parents x) a b

/-- A state for the examples: no flag set, nothing queued, nothing printed. -/
def example_state : State where
  walk := { flags := fun _ => 0, rev := { commits := [], pending := [], ignore_merges := false,
                                           walker := 0 } }
  out := ""

end FmtMergeMsg

namespace LogTree
open Revision

/-- The last line of a buffer, the newlines at its end not counted. -/
def last_line (letter : List Char) : List Char :=
  ((letter.reverse.dropWhile fun ch => ch = '\n').takeWhile fun ch => ch ≠ '\n').reverse

/-- The pattern `^[-A-Za-z]+: [^@]+@` that the comment above `detect_any_signoff` names
(log-tree.c:35-38), as a test of a line: a word of letters and dashes, a colon and a space, one
or more characters other than `@`, and `@`. -/
def signoff_pattern (line : List Char) : Bool :=
  let head := line.takeWhile fun ch => ('A' ≤ ch ∧ ch ≤ 'Z') ∨ ('a' ≤ ch ∧ ch ≤ 'z') ∨ ch = '-'
  let rest := line.drop head.length
  let name := (rest.drop 2).takeWhile fun ch => ch ≠ '@'
  head ≠ [] ∧ rest.take 2 = [':', ' '] ∧ name ≠ [] ∧
    ((rest.drop 2).drop name.length).head? = some '@'

end LogTree

namespace ArchiveTar

/-! ## archive-tar.c -/

/-- The constant `RECORDSIZE` (archive-tar.c:10). -/
def RECORDSIZE : Nat := 512

/-- The constant `BLOCKSIZE` (archive-tar.c:11). -/
def BLOCKSIZE : Nat := RECORDSIZE * 20

/-- The statics `block` and `offset` (archive-tar.c:13-14) and the calls of `write(2)` on file
descriptor 1 made so far, each with the bytes it wrote. A byte is a `Nat`. -/
structure Tar where
  block : List Nat
  offset : Nat
  written : List (List Nat)

/-- The call `memcpy(dst + off, src, n)` with `n` the length of `src`. -/
def memcpy (dst : List Nat) (off : Nat) (src : List Nat) : List Nat :=
  dst.take off ++ src ++ dst.drop (off + src.length)

/-- The call `memset(dst + off, c, n)`. -/
def memset (dst : List Nat) (off : Nat) (c : Nat) (n : Nat) : List Nat :=
  dst.take off ++ List.replicate n c ++ dst.drop (off + n)

/-- The call `write_or_die(1, buf, n)` with `n` the length of `buf`. -/
def write_or_die (t : Tar) (buf : List Nat) : Tar :=
  { t with written := t.written ++ [buf] }

/-- The function `write_if_needed` (archive-tar.c:22-29). -/
def write_if_needed (t : Tar) : Tar :=
  if t.offset = BLOCKSIZE then
    { write_or_die t (t.block.take BLOCKSIZE) with offset := 0 }
  else t

/-- The loop `while (size >= BLOCKSIZE)` of `write_blocked` (archive-tar.c:50-54); `pos` is
`buf - data`. The result is `none` when `fuel` rounds do not leave the loop. -/
def write_blocked_loop (data : List Nat) :
    (fuel : Nat) → Tar → (size pos : Nat) → Option (Tar × Nat × Nat)
  | 0, _, _, _ => none
  | fuel + 1, t, size, pos =>
    if size ≥ BLOCKSIZE then
      write_blocked_loop data fuel (write_or_die t ((data.drop pos).take BLOCKSIZE))
        (size - BLOCKSIZE) (pos + BLOCKSIZE)
    else some (t, size, pos)

/-- The function `write_blocked` (archive-tar.c:31-65) on the `size` bytes of `data`. The loop
gets `size / BLOCKSIZE + 1` rounds; the result is `none` if it has not ended by then. The
subtractions are those of `unsigned long`; none of them wraps while `offset` is at most
`BLOCKSIZE`. -/
def write_blocked (t : Tar) (data : List Nat) (size : Nat) : Option Tar :=
  let r : Tar × Nat × Nat :=
    if t.offset ≠ 0 then
      let chunk := BLOCKSIZE - t.offset
      let chunk := if size < chunk then size else chunk
      let t := { t with block := memcpy t.block t.offset (data.take chunk) }
      let size := size - chunk
      let t := { t with offset := t.offset + chunk }
      (write_if_needed t, size, chunk)
    else (t, size, 0)
  match write_blocked_loop data (size / BLOCKSIZE + 1) r.1 r.2.1 r.2.2 with
  | none => none
  | some (t, size, pos) =>
    let t :=
      if size ≠ 0 then
        { t with block := memcpy t.block t.offset ((data.drop pos).take size),
                 offset := t.offset + size }
      else t
    let tail := t.offset % RECORDSIZE
    let t :=
      if tail ≠ 0 then
        { t with block := memset t.block t.offset 0 (RECORDSIZE - tail),
                 offset := t.offset + (RECORDSIZE - tail) }
      else t
    some (write_if_needed t)

/-- The function `write_trailer` (archive-tar.c:67-80). The `int tail` takes the value of the
`unsigned long` difference; as a length of `memset` it is converted back to `size_t`. -/
def write_trailer (t : Tar) : Tar :=
  let tail : Int := Alloc.wrap_int ((BLOCKSIZE : Int) - (t.offset : Int))
  let t := { t with block := memset t.block t.offset 0 tail.toNat }
  let t := write_or_die t (t.block.take BLOCKSIZE)
  if tail < 2 * (RECORDSIZE : Int) then
    let t := { t with block := memset t.block 0 0 t.offset }
    write_or_die t (t.block.take BLOCKSIZE)
  else t

/-- The loop `for (tmp = len; tmp > 9; tmp /= 10) len++` of `strbuf_append_ext_header`
(archive-tar.c:94-95). The result is `none` when `fuel` rounds do not leave the loop. -/
def ext_header_len_loop : (fuel : Nat) → (tmp len : Int) → Option Int
  | 0, _, _ => none
  | fuel + 1, tmp, len =>
    if tmp > 9 then ext_header_len_loop fuel (tmp / 10) (Alloc.wrap_int (len + 1))
    else some len

/-- The function `strbuf_append_ext_header` (archive-tar.c:82-102) on the content of the
`strbuf`; a character stands for a byte, `keyword.length` is `strlen(keyword)`. An `int` has at
most ten digits, so eleven rounds of the loop are enough. The `int len` is printed by `%u`. -/
def strbuf_append_ext_header (sb keyword value : List Char) (valuelen : Nat) :
    Option (List Char) :=
  let len := Alloc.wrap_int (((1 + 1 + keyword.length + 1 + valuelen + 1 : Nat) : Int))
  (ext_header_len_loop 11 len len).map fun len =>
    -- strbuf_addf(sb, "%u %s=", len, keyword); strbuf_add(sb, value, valuelen);
    -- strbuf_addch(sb, '\n');
    sb ++ ((toString (len % 2 ^ 32).toNat).toList ++ [' '] ++ keyword ++ ['=']) ++
      value.take valuelen ++ ['\n']

/-- The output stream of the archive: the bytes written so far followed by the bytes waiting in
`block[0..offset)`. -/
def stream (t : Tar) : List Nat := t.written.flatten ++ t.block.take t.offset

/-- A state for examples: an empty block buffer, nothing written. -/
def example_tar : Tar := { block := List.replicate 10240 7, offset := 0, written := [] }

/-- A state for examples: one record of 512 bytes is left in the block buffer. -/
def example_tar_tail : Tar := { block := List.replicate 10240 7, offset := 9728, written := [] }

end ArchiveTar

namespace BuiltinCommit

/-! ## builtin-commit.c -/

/-- The anonymous `enum` of `cleanup_mode` (builtin-commit.c:59-63). -/
inductive CleanupMode where
  | CLEANUP_SPACE
  | CLEANUP_NONE
  | CLEANUP_ALL
deriving DecidableEq

/-- The statics of builtin-commit.c that `parse_and_validate_options` and `message_is_empty`
read or write (builtin-commit.c:37-68), and the environment variable `GIT_EDITOR`. The `int`
flags hold what `parse_options` stored. -/
structure Statics where
  head_sha1 : Nat
  merge_head_sha1 : Nat
  use_message_buffer : Option String
  logfile : Option String
  template_file : Option String
  edit_message : Option String
  use_message : Option String
  all : Int
  edit_flag : Int
  also : Int
  interactive : Int
  only : Int
  amend : Int
  cleanup_mode : CleanupMode
  cleanup_arg : Option String
  use_editor : Int
  initial_commit : Int
  in_merge : Int
  only_include_assumed : Option String
  message : String
  git_editor : Option String

/-- What builtin-commit.c takes from the rest of git, none of it part of the sources at hand. -/
structure Env where
  /-- The object name `get_sha1(name, sha1)` stores; `none` when it returns non-zero. -/
  get_sha1 : String → Option Nat
  /-- The commit `lookup_commit_reference(sha1)` returns, or NULL. -/
  lookup_commit_reference : Nat → Option Nat
  /-- The return value of `parse_commit(commit)`. -/
  parse_commit : Nat → Int
  /-- The field `commit->buffer` of a parsed commit. -/
  buffer : Nat → String
  /-- The variable `git_commit_encoding`. -/
  git_commit_encoding : Option String
  /-- The function `reencode_string(in, out_encoding, in_encoding)`. -/
  reencode_string : String → String → String → Option String
  /-- The macro `isspace` of git-compat-util.h. -/
  isspace : Char → Bool
  /-- What `strbuf_read_file(&sb, path, 0)` reads into an empty `strbuf`; `none` when it
  returns a negative value. Its return value is otherwise the number of bytes read. -/
  strbuf_read_file : String → Option (List Char)
  /-- The function `stripspace(&sb, skip_comments)`. -/
  stripspace : List Char → Bool → List Char

/-- The function `opt_parse_m` (builtin-commit.c:70-81) on the content of the `strbuf`. -/
def opt_parse_m (buf : String) (arg : String) (unset : Bool) : String :=
  if unset then "" else (buf ++ arg).push '\n' |>.push '\n'

/-- The C expression `!!x`. -/
def not_not (x : Int) : Int := if x ≠ 0 then 1 else 0

/-- The block `if (use_message) { ... }` of `parse_and_validate_options`
(builtin-commit.c:708-740), entered with `use_message` not NULL: it loads the message of the
commit to reuse and yields the new value of `use_message_buffer`. The result is an error where
the code calls `die`. The end of the `encoding` header is the next newline. -/
def load_use_message (E : Env) (use_message_buffer : Option String) (use_message : String) :
    Except String (Option String) :=
  match E.get_sha1 use_message with
  | none => Except.error ("could not lookup commit " ++ use_message)
  | some sha1 =>
    match E.lookup_commit_reference sha1 with
    | none => Except.error ("could not parse commit " ++ use_message)
    | some commit =>
      if E.parse_commit commit ≠ 0 then Except.error ("could not parse commit " ++ use_message)
      else
        let buffer := E.buffer commit
        let enc : String :=
          match LogTree.strstr_from buffer.toList "\nencoding".toList 0 with
          | some i => String.mk ((buffer.toList.drop (i + 10)).takeWhile fun c => c ≠ '\n')
          | none => "UTF-8"
        let out_enc := E.git_commit_encoding.getD "UTF-8"
        let use_message_buffer :=
          if out_enc ≠ enc then E.reencode_string buffer out_enc enc else use_message_buffer
        let use_message_buffer :=
          if use_message_buffer = none then some buffer else use_message_buffer
        Except.ok use_message_buffer

/-- The choice of `cleanup_mode` in `parse_and_validate_options` (builtin-commit.c:750-759).
The result is an error where the code calls `die`. -/
def select_cleanup_mode (cleanup_arg : Option String) (use_editor : Int) :
    Except String CleanupMode :=
  if cleanup_arg = none ∨ cleanup_arg = some "default" then
    Except.ok (if use_editor ≠ 0 then CleanupMode.CLEANUP_ALL else CleanupMode.CLEANUP_SPACE)
  else if cleanup_arg = some "verbatim" then Except.ok CleanupMode.CLEANUP_NONE
  else if cleanup_arg = some "whitespace" then Except.ok CleanupMode.CLEANUP_SPACE
  else if cleanup_arg = some "strip" then Except.ok CleanupMode.CLEANUP_ALL
  else Except.error ("Invalid cleanup mode " ++ cleanup_arg.getD "")

/-- The function `parse_and_validate_options` (builtin-commit.c:663-767) from the point where
`parse_options` has returned `argc` and has stored the options in the statics `s`. Every static
the function writes is followed as a value of its own, and the statics are put together again
at the `return`. The result is an error, with the message, where the code calls `die`. -/
def parse_and_validate_options (E : Env) (s : Statics) (argc : Int) :
    Except String (Int × Statics) :=
  let use_editor : Int :=
    if s.logfile ≠ none ∨ s.message.length ≠ 0 ∨ s.use_message ≠ none then 0 else s.use_editor
  let use_editor : Int := if s.edit_flag ≠ 0 then 1 else use_editor
  let git_editor : Option String := if use_editor = 0 then some ":" else s.git_editor
  let head := E.get_sha1 "HEAD"
  let head_sha1 : Nat := head.getD s.head_sha1
  let initial_commit : Int := if head = none then 1 else s.initial_commit
  let merge_head := E.get_sha1 "MERGE_HEAD"
  let merge_head_sha1 : Nat := merge_head.getD s.merge_head_sha1
  let in_merge : Int := if merge_head ≠ none then 1 else s.in_merge
  -- Sanity check options
  if s.amend ≠ 0 ∧ initial_commit ≠ 0 then Except.error "You have nothing to amend."
  else if s.amend ≠ 0 ∧ in_merge ≠ 0 then
    Except.error "You are in the middle of a merge -- cannot amend."
  else
    let f : Int := 0
    let f : Int := if s.use_message ≠ none then f + 1 else f
    let f : Int := if s.edit_message ≠ none then f + 1 else f
    let f : Int := if s.logfile ≠ none then f + 1 else f
    if f > 1 then Except.error "Only one of -c/-C/-F can be used."
    else if s.message.length ≠ 0 ∧ f > 0 then
      Except.error "Option -m cannot be combined with -c/-C/-F."
    else
      let use_message : Option String :=
        if s.edit_message ≠ none then s.edit_message else s.use_message
      let use_message : Option String :=
        if s.amend ≠ 0 ∧ use_message = none then some "HEAD" else use_message
      let loaded : Except String (Option String) :=
        match use_message with
        | some m => load_use_message E s.use_message_buffer m
        | none => Except.ok s.use_message_buffer
      match loaded with
      | Except.error e => Except.error e
      | Except.ok use_message_buffer =>
        if not_not s.also + not_not s.only + not_not s.all + not_not s.interactive > 1 then
          Except.error "Only one of --include/--only/--all/--interactive can be used."
        else if argc = 0 ∧ (s.also ≠ 0 ∨ (s.only ≠ 0 ∧ s.amend = 0)) then
          Except.error "No paths with --include/--only does not make sense."
        else
          let only_include_assumed : Option String :=
            if argc = 0 ∧ s.only ≠ 0 ∧ s.amend ≠ 0 then
              some "Clever... amending the last one with dirty index."
            else s.only_include_assumed
          let only_include_assumed : Option String :=
            if argc > 0 ∧ s.also = 0 ∧ s.only = 0 then
              some "Explicit paths specified without -i nor -o; assuming --only paths..."
            else only_include_assumed
          match select_cleanup_mode s.cleanup_arg use_editor with
          | Except.error e => Except.error e
          | Except.ok cleanup_mode =>
            if s.all ≠ 0 ∧ argc > 0 then Except.error "Paths with -a does not make sense."
            else if s.interactive ≠ 0 ∧ argc > 0 then
              Except.error "Paths with --interactive does not make sense."
            else
              Except.ok (argc,
                { s with
                  use_editor := use_editor, git_editor := git_editor, head_sha1 := head_sha1,
                  initial_commit := initial_commit, merge_head_sha1 := merge_head_sha1,
                  in_merge := in_merge, use_message := use_message,
                  use_message_buffer := use_message_buffer,
                  only_include_assumed := only_include_assumed, cleanup_mode := cleanup_mode })

/-- The number `f` of message sources that `parse_and_validate_options` counts
(builtin-commit.c:690-695): how many of `-C`, `-c` and `-F` were given. -/
def sources (s : Statics) : Int :=
  (if s.use_message ≠ none then 1 else 0) + (if s.edit_message ≠ none then 1 else 0)
    + (if s.logfile ≠ none then 1 else 0)

/-- The string `sign_off_header` (builtin-commit.c:396). -/
def sign_off_header : List Char := "Signed-off-by: ".toList

/-- The C call `memchr(s, c, n)` on the `n` bytes of `s`: the offset of the first `c`. -/
def memchr : List Char → Char → Option Nat
  | [], _ => none
  | x :: xs, c => if x = c then some 0 else (memchr xs c).map fun k => k + 1

/-- The loop `while (i < eol) if (!isspace(sb->buf[i++])) return 0;` of `message_is_empty`
(builtin-commit.c:617-619) with `n` the number `eol - i` of bytes left: `false` for the
`return 0`. -/
def only_space (E : Env) (buf : List Char) : (n : Nat) → (i : Nat) → Bool
  | 0, _ => true
  | n + 1, i => if !E.isspace (buf.getD i (Char.ofNat 0)) then false else only_space E buf n (i + 1)

/-- The loop `for (i = start; i < sb->len; i++)` of `message_is_empty`
(builtin-commit.c:604-620). Every round moves `i` forward; the result is `none` when `fuel`
rounds do not leave the loop. -/
def message_is_empty_loop (E : Env) (buf : List Char) : (fuel : Nat) → (i : Nat) → Option Int
  | 0, _ => none
  | fuel + 1, i =>
    if i < buf.length then
      let eol :=
        match memchr (buf.drop i) '\n' with
        | some k => i + k
        | none => buf.length
      if sign_off_header.length ≤ eol - i ∧ sign_off_header.isPrefixOf (buf.drop i) then
        -- i = eol; continue;
        message_is_empty_loop E buf fuel (eol + 1)
      else if only_space E buf (eol - i) i then message_is_empty_loop E buf fuel (eol + 1)
      else some 0
    else some 1

/-- The function `message_is_empty` (builtin-commit.c:581-623) on the content of the `strbuf`.
The positions are those of a buffer shorter than 2^31 bytes, so the `int` variables hold them.
The loop gets one round more than there are bytes in the buffer. -/
def message_is_empty (E : Env) (s : Statics) (sb : List Char) (start : Nat) : Option Int :=
  if s.cleanup_mode = CleanupMode.CLEANUP_NONE ∧ sb.length ≠ 0 then some 0
  else
    -- See if the template is just a prefix of the message.
    let start :=
      match s.template_file with
      | none => start
      | some path =>
        match E.strbuf_read_file path with
        | none => start
        | some t =>
          if t.length > 0 then
            let tmpl := E.stripspace t (decide (s.cleanup_mode = CleanupMode.CLEANUP_ALL))
            if start + tmpl.length ≤ sb.length ∧ tmpl = (sb.drop start).take tmpl.length then
              start + tmpl.length
            else start
          else start
    -- Check if the rest is just whitespace and Signed-of-by's.
    message_is_empty_loop E sb (sb.length + 1) start

/-- The lines of a text: the pieces between its newlines. -/
def lines : List Char → List (List Char)
  | [] => [[]]
  | c :: cs =>
    if c = '\n' then [] :: lines cs
    else
      match lines cs with
      | l :: ls => (c :: l) :: ls
      | [] => [[c]]

/-- A line that is made of white space only or begins with `Signed-off-by: `. -/
def blank_or_signoff (E : Env) (l : List Char) : Bool :=
  l.all E.isspace || sign_off_header.isPrefixOf l

/-- An environment for examples: `HEAD` resolves, `MERGE_HEAD` does not, the white space of
git-compat-util.h. -/
def example_env : Env :=
  { get_sha1 := fun name => if name = "HEAD" then some 1 else none
    lookup_commit_reference := fun sha1 => some sha1
    parse_commit := fun _ => 0
    buffer := fun _ => "tree 0\nauthor A <a@b>\n\nsubject\n"
    git_commit_encoding := none
    reencode_string := fun _ _ _ => none
    isspace := fun c => c = ' ' || c = '\t' || c = '\n' || c = '\r'
    strbuf_read_file := fun _ => none
    stripspace := fun t _ => t }

/-- The statics at program start, as `parse_options` leaves them when no option is given. -/
def example_statics : Statics :=
  { head_sha1 := 0, merge_head_sha1 := 0, use_message_buffer := none, logfile := none,
    template_file := none, edit_message := none, use_message := none, all := 0,
    edit_flag := 0, also := 0, interactive := 0, only := 0, amend := 0,
    cleanup_mode := CleanupMode.CLEANUP_SPACE, cleanup_arg := none, use_editor := 1,
    initial_commit := 0, in_merge := 0, only_include_assumed := none, message := "",
    git_editor := none }

/-! ## The index lock files of builtin-commit.c -/

/-- The two lock files of builtin-commit.c: `index_lock`, the real index, and `false_lock`,
"used only for partial commits" (builtin-commit.c:40-41). -/
inductive LockFile
  | index_lock
  | false_lock
  deriving DecidableEq, Repr

/-- A call into lockfile.c, which is not part of the sources at hand, with the lock file it is
given. -/
inductive LockCall
  | commit_lock_file (lk : LockFile)
  | rollback_lock_file (lk : LockFile)
  deriving DecidableEq, Repr

/-- The enumerator `COMMIT_AS_IS = 1` (builtin-commit.c:43). -/
def COMMIT_AS_IS : Nat := 1

/-- The enumerator `COMMIT_NORMAL` (builtin-commit.c:44). -/
def COMMIT_NORMAL : Nat := 2

/-- The enumerator `COMMIT_PARTIAL` (builtin-commit.c:45). -/
def COMMIT_PARTIAL : Nat := 3

/-- What `rollback_index_files` and `commit_index_files` read and write: the static
`commit_style` (builtin-commit.c:42-46), which is 0 until `prepare_index` sets it, and the calls
made into lockfile.c so far, in order. -/
structure IndexFiles where
  commit_style : Nat
  calls : List LockCall
  deriving DecidableEq, Repr

/-- What lockfile.c, which is not part of the sources at hand, returns from
`commit_lock_file(lk)`, given the calls made before it. -/
structure LockEnv where
  commit_lock_file : LockFile → List LockCall → Int

/-- The function `rollback_index_files` (builtin-commit.c:111-124). The `switch` has no
`default`: with another value of `commit_style` nothing is done. -/
def rollback_index_files (s : IndexFiles) : IndexFiles :=
  if s.commit_style = COMMIT_AS_IS then s
  else if s.commit_style = COMMIT_NORMAL then
    { s with calls := s.calls ++ [LockCall.rollback_lock_file LockFile.index_lock] }
  else if s.commit_style = COMMIT_PARTIAL then
    let s := { s with calls := s.calls ++ [LockCall.rollback_lock_file LockFile.index_lock] }
    { s with calls := s.calls ++ [LockCall.rollback_lock_file LockFile.false_lock] }
  else s

/-- The function `commit_index_files` (builtin-commit.c:126-143): the result is `err` and the
state it leaves. -/
def commit_index_files (E : LockEnv) (s : IndexFiles) : Int × IndexFiles :=
  let err : Int := 0
  if s.commit_style = COMMIT_AS_IS then (err, s)
  else if s.commit_style = COMMIT_NORMAL then
    let err := E.commit_lock_file LockFile.index_lock s.calls
    let s := { s with calls := s.calls ++ [LockCall.commit_lock_file LockFile.index_lock] }
    (err, s)
  else if s.commit_style = COMMIT_PARTIAL then
    let err := E.commit_lock_file LockFile.index_lock s.calls
    let s := { s with calls := s.calls ++ [LockCall.commit_lock_file LockFile.index_lock] }
    let s := { s with calls := s.calls ++ [LockCall.rollback_lock_file LockFile.false_lock] }
    (err, s)
  else (err, s)

/-- A lockfile.c for examples: `commit_lock_file` fails, with -1, on the false index only. -/
def example_locks : LockEnv :=
  { commit_lock_file := fun lk _ => if lk = LockFile.index_lock then 0 else -1 }

end BuiltinCommit

namespace Walker
open Revision

/-! ## The revision walker of revision.h -/

/-- Modelled from the spec: what the walker, whose code (revision.c) is not part of the sources
at hand, takes from its collaborators: the parsed parent list of every commit, its timestamp
and its creation-order index, and the verdicts of the timestamp window, of the message filter
and of the History Simplifier (`true` for `Show`). A commit is named by a number. -/
structure Env where
  parents : Nat → List Nat
  date : Nat → Nat
  index : Nat → Nat
  in_window : Nat → Bool
  message_filter : Nat → Bool
  simplifier_shows : Nat → Bool

/-- The fields of `struct rev_info` (revision.h:18-102) that the model of the walker uses: the
working structure `commits`, the pending entries, and the configuration of merge visibility and
pagination. -/
structure RevInfo where
  commits : List Nat
  pending : List (Nat × String)
  no_merges : Bool
  first_parent_only : Bool
  skip_count : Int
  max_count : Int

/-- What a walk reads and writes: the flag words of the commits and the `rev_info`. The sign
of a pending entry is the flag `UNINTERESTING` of its commit, as `shortlog` sets it for `^HEAD`
(builtin-fmt-merge-msg.c:188-189). -/
structure Walk where
  flags : Nat → Nat
  rev : RevInfo

/-- Modelled from the spec: `mark_parents_uninteresting` (revision.h:119), the Ancestor Marker,
"performs a closure walk over parent edges from `start`; for every node reached, sets
`uninteresting` and continues unless the node is already `uninteresting`". Commits are
numbered so that a parent has a smaller number than its child, so the walk from `start` is
never deeper than `start + 1`, which is the `fuel` that `prepare_revision_walk` gives it. -/
def mark_parents_uninteresting (E : Env) : (fuel : Nat) → (Nat → Nat) → Nat → (Nat → Nat)
  | 0, flags, _ => flags
  | fuel + 1, flags, start =>
    (E.parents start).foldl
      (fun fl p =>
        if has_flag (fl p) UNINTERESTING then fl
        else
          mark_parents_uninteresting E fuel
            (Function.update fl p (set_flag (fl p) UNINTERESTING)) p)
      flags

/-- Modelled from the spec: the order of the working priority structure, "descending commit
timestamp (ties broken by creation-order index)": whether `a` is released before `b`. -/
def released_before (E : Env) (a b : Nat) : Bool :=
  E.date a > E.date b || (E.date a == E.date b && E.index a < E.index b)

/-- Modelled from the spec: a commit enters the working priority structure at its place. -/
def insert_by_date (E : Env) (c : Nat) : List Nat → List Nat
  | [] => [c]
  | x :: xs => if released_before E c x then c :: x :: xs else x :: insert_by_date E c xs

/-- Modelled from the spec: "enqueueing each not-yet-`seen` parent and marking it `seen`
(duplicate-suppression invariant: a node is enqueued at most once per walk)". -/
def enqueue (E : Env) (flags : Nat → Nat) (queue : List Nat) (nodes : List Nat) :
    (Nat → Nat) × List Nat :=
  nodes.foldl
    (fun acc p =>
      if has_flag (acc.1 p) SEEN then acc
      else (Function.update acc.1 p (set_flag (acc.1 p) SEEN), insert_by_date E p acc.2))
    (flags, queue)

/-- Modelled from the spec: the transition `prepare` of the walker, `prepare_revision_walk`
(revision.h:116), in insertion order: "run the Ancestor Marker for every excluded entry; seed
a working priority structure with all included pending nodes ordered by descending commit
timestamp". The return value 0 says that the walk is set up. -/
def prepare_revision_walk (E : Env) (w : Walk) : Int × Walk :=
  let entries := w.rev.pending.map Prod.fst
  let excluded := entries.filter fun e => has_flag (w.flags e) UNINTERESTING
  let included := entries.filter fun e => !has_flag (w.flags e) UNINTERESTING
  let flags := excluded.foldl (fun fl e => mark_parents_uninteresting E (e + 1) fl e) w.flags
  let seeded := enqueue E flags [] included
  (0, { flags := seeded.1, rev := { w.rev with commits := seeded.2 } })

/-- Modelled from the spec: one search for the next qualifying commit, the transition `next`
of the walker without pagination: "pop the next candidate per the active ordering; if already
`shown`, skip. Lazily expand its parents, honoring `first_parent_only`. Apply filters in this
fixed order: uninteresting exclusion; timestamp window; merge-visibility mode; message filter;
then the History Simplifier. If the candidate is suppressed by any filter, continue to the next
candidate without emitting." A commit that passes is marked `shown`. The result is `none` when
`fuel` candidates did not settle the search, and `some (none, _)` when the working structure is
empty. -/
def next_candidate (E : Env) (first_parent_only no_merges : Bool) :
    (fuel : Nat) → (Nat → Nat) → List Nat → Option (Option Nat × (Nat → Nat) × List Nat)
  | 0, _, _ => none
  | _ + 1, flags, [] => some (none, flags, [])
  | fuel + 1, flags, c :: rest =>
    if has_flag (flags c) SHOWN then next_candidate E first_parent_only no_merges fuel flags rest
    else
      let ps := if first_parent_only then (E.parents c).take 1 else E.parents c
      let r := enqueue E flags rest ps
      if has_flag (r.1 c) UNINTERESTING then
        next_candidate E first_parent_only no_merges fuel r.1 r.2
      else if !E.in_window c then next_candidate E first_parent_only no_merges fuel r.1 r.2
      else if no_merges ∧ 2 ≤ (E.parents c).length then
        next_candidate E first_parent_only no_merges fuel r.1 r.2
      else if !E.message_filter c then
        next_candidate E first_parent_only no_merges fuel r.1 r.2
      else if !E.simplifier_shows c then
        next_candidate E first_parent_only no_merges fuel r.1 r.2
      else some (some c, Function.update r.1 c (set_flag (r.1 c) SHOWN), r.2)

/-- Modelled from the spec: `next_candidate` on the walk. -/
def get_revision_1 (E : Env) (fuel : Nat) (w : Walk) : Option (Option Nat × Walk) :=
  (next_candidate E w.rev.first_parent_only w.rev.no_merges fuel w.flags w.rev.commits).map
    fun r => (r.1, { flags := r.2.1, rev := { w.rev with commits := r.2.2 } })

/-- Modelled from the spec: "the first `skip_count` qualifying nodes are discarded": `n`
qualifying commits are taken and dropped, then the next one is the result. -/
def skip_loop (E : Env) (fuel : Nat) : (n : Nat) → Walk → Option (Option Nat × Walk)
  | 0, w => get_revision_1 E fuel w
  | n + 1, w =>
    match get_revision_1 E fuel w with
    | none => none
    | some (none, w) => some (none, w)
    | some (some _, w) =>
      skip_loop E fuel n { w with rev := { w.rev with skip_count := w.rev.skip_count - 1 } }

/-- Modelled from the spec: the transition `next` of the walker, `get_revision`
(revision.h:117), with pagination: "the first `skip_count` qualifying nodes are discarded
before `max_count` begins counting; once `max_count` qualifying nodes have been emitted,
transition to `Exhausted`". A negative `max_count` stands for no limit. The result is `none`
when `fuel` candidates did not settle one of the searches, and `some (none, _)`, the NULL of the
C function, when the walk is exhausted. -/
def get_revision (E : Env) (fuel : Nat) (w : Walk) : Option (Option Nat × Walk) :=
  if w.rev.max_count = 0 then some (none, w)
  else
    match skip_loop E fuel w.rev.skip_count.toNat w with
    | none => none
    | some (none, w) => some (none, w)
    | some (some c, w) =>
      some (some c,
        { w with rev := { w.rev with
            max_count := if w.rev.max_count > 0 then w.rev.max_count - 1 else w.rev.max_count } })

/-- The sequence a walk emits: the commits that `get_revision` returns, call after call, until
it returns NULL. The result is `none` when `calls` calls did not exhaust the walk or one of
them ran out of `fuel`. -/
def emitted (E : Env) (fuel : Nat) : (calls : Nat) → Walk → Option (List Nat)
  | 0, _ => none
  | calls + 1, w =>
    match get_revision E fuel w with
    | none => none
    | some (none, _) => some []
    | some (some c, w) => (emitted E fuel calls w).map fun out => c :: out

/-- The walk `w` with the pagination `skip_count = k`, `max_count = n`. -/
def paginate (w : Walk) (k n : Int) : Walk :=
  { w with rev := { w.rev with skip_count := k, max_count := n } }

/-- The commit `b` is reached from `a` over parent edges. -/
def Reach (E : Env) (a b : Nat) : Prop :=
  Relation.ReflTransGen (fun x y => y ∈ E.parents x) a b

/-- The linear history `root -> A -> B -> C` of the specification's scenarios: 0 is `root`, 1
is `A`, 2 is `B` and 3 is `C`; a later commit has a later timestamp; no filter is active. -/
def linear_history : Env :=
  { parents := fun c => match c with
      | 0 => []
      | n + 1 => if n < 3 then [n] else []
    date := fun c => c
    index := fun c => 10 - c
    in_window := fun _ => true
    message_filter := fun _ => true
    simplifier_shows := fun _ => true }

/-- The pending entries that `shortlog` sets up, on the linear history: the merged branch `C`
included and `HEAD`, here `A`, excluded. No other flag is set, nothing is queued, pagination
is off. -/
def range_walk : Walk :=
  { flags := fun c => if c = 1 then UNINTERESTING else 0
    rev := { commits := [], pending := [(3, "branch"), (1, "^HEAD")], no_merges := false,
             first_parent_only := false, skip_count := 0, max_count := -1 } }

/-- A history of five commits in a line, 0 the oldest, for the pagination scenario. -/
def five_walk : Walk :=
  { flags := fun _ => 0
    rev := { commits := [], pending := [(4, "tip")], no_merges := false,
             first_parent_only := false, skip_count := 0, max_count := -1 } }

/-- The history of `five_walk`. -/
def five_history : Env :=
  { linear_history with parents := fun c => match c with
      | 0 => []
      | n + 1 => if n < 4 then [n] else [] }

/-- The sequence of the qualifying commits of a walk, one `get_revision_1` after the other,
without pagination: what the slices of the pagination are taken from. -/
def candidates (E : Env) (fuel : Nat) : (calls : Nat) → Walk → Option (List Nat)
  | 0, _ => none
  | calls + 1, w =>
    match get_revision_1 E fuel w with
    | none => none
    | some (none, _) => some []
    | some (some c, w) => (candidates E fuel calls w).map fun out => c :: out

/-- The measure under which the search of the walker ends: a queued commit `c` weighs `2 ^ c`,
more than all the commits below it together. -/
def weight (queue : List Nat) : Nat := (queue.map fun c => 2 ^ c).sum

/-- The state of the marking of ancestors: every `UNINTERESTING` commit either waits in `todo`
for its parents to be marked, or has all its parents `UNINTERESTING`. -/
def Marked (E : Env) (flags : Nat → Nat) (todo : List Nat) : Prop :=
  ∀ u, has_flag (flags u) UNINTERESTING = true →
    u ∈ todo ∨ ∀ p ∈ E.parents u, has_flag (flags p) UNINTERESTING = true

/-- What a marking from `c` may change between `fl` and `fl'`: it sets `UNINTERESTING`, and
only on commits reached from `c` over at least one parent edge; it leaves `SEEN` and `SHOWN`
alone. -/
def MarkFrame (E : Env) (c : Nat) (fl fl' : Nat → Nat) : Prop :=
  (∀ i, has_flag (fl i) UNINTERESTING = true → has_flag (fl' i) UNINTERESTING = true) ∧
  (∀ i, has_flag (fl' i) UNINTERESTING = true →
    has_flag (fl i) UNINTERESTING = true ∨
      Relation.TransGen (fun x y => y ∈ E.parents x) c i) ∧
  (∀ i, has_flag (fl' i) SEEN = has_flag (fl i) SEEN) ∧
  (∀ i, has_flag (fl' i) SHOWN = has_flag (fl i) SHOWN)

/-- The state of a walk between two candidates, with `seeds` the commits that the walk started
from and `em` the commits emitted so far: the queued commits are `SEEN` and not `SHOWN`, each
queued once; a `SEEN` commit that has left the queue has all its parents `SEEN`; every `SEEN`
commit is reached from a seed; and the emitted commits are the `SHOWN` ones, which are the
commits that have left the queue and are not `UNINTERESTING`. -/
structure WalkInv (E : Env) (seeds : List Nat) (flags : Nat → Nat) (queue em : List Nat) :
    Prop where
  nodup : queue.Nodup
  queued : ∀ c ∈ queue, has_flag (flags c) SEEN = true ∧ has_flag (flags c) SHOWN = false
  closed : ∀ c, has_flag (flags c) SEEN = true → c ∉ queue →
    ∀ p ∈ E.parents c, has_flag (flags p) SEEN = true
  reached : ∀ c, has_flag (flags c) SEEN = true → ∃ i ∈ seeds, Reach E i c
  seeded : ∀ i ∈ seeds, has_flag (flags i) SEEN = true
  shown : ∀ c, has_flag (flags c) SHOWN = true ↔ c ∈ em
  emitted : ∀ c, c ∈ em ↔
    has_flag (flags c) SEEN = true ∧ c ∉ queue ∧ has_flag (flags c) UNINTERESTING = false
  em_nodup : em.Nodup

end Walker

/-! # Properties -/

namespace Alloc

theorem alloc_node_eq (L : Layout) (k : Kind) (s : State) :
    alloc_node L k s =
      if (s.st k).nr = 0 then
        some (⟨s.heap.blocks.length, 0⟩,
          { s with
            st := Function.update s.st k
              ⟨((s.st k).allocs + 1) % 2 ^ 32, 1023, some ⟨s.heap.blocks.length, L.sizeof k⟩⟩,
            heap := ⟨s.heap.blocks ++ [BLOCKING * L.sizeof k],
              memset s.heap.mem ⟨s.heap.blocks.length, 0⟩ 0 (L.sizeof k)⟩ })
      else
        match (s.st k).block with
        | none => none
        | some p =>
          some (p,
            { s with
              st := Function.update s.st k
                ⟨((s.st k).allocs + 1) % 2 ^ 32, wrap_int ((s.st k).nr - 1),
                  some ⟨p.blk, p.off + L.sizeof k⟩⟩,
              heap := ⟨s.heap.blocks, memset s.heap.mem p 0 (L.sizeof k)⟩ }) := by
  unfold alloc_node
  by_cases h : (s.st k).nr = 0
  · simp [h, xmalloc, BLOCKING, wrap_int]
  · simp only [h, if_false]

theorem klog_snoc (k : Kind) (log : List Entry) (e : Entry) :
    klog k (log ++ [e]) = if e.op.kind = some k then klog k log ++ [e] else klog k log := by
  unfold klog
  rw [List.filter_append]
  by_cases h : e.op.kind = some k <;> simp [List.filter, h]

theorem mem_klog {k : Kind} {log : List Entry} {e : Entry} :
    e ∈ klog k log ↔ e ∈ log ∧ e.op.kind = some k := by
  simp [klog]

theorem getElem?_snoc_lt {α : Type} (K : List α) (e : α) {m : Nat} (h : m < K.length) :
    (K ++ [e])[m]? = K[m]? := List.getElem?_append_left h

theorem getElem?_snoc_len {α : Type} (K : List α) (e : α) :
    (K ++ [e])[K.length]? = some e := by
  rw [List.getElem?_append_right (le_refl _)]; simp

theorem getElem?_snoc_some {α : Type} (K : List α) (e x : α) {m : Nat}
    (h : (K ++ [e])[m]? = some x) :
    (m < K.length ∧ K[m]? = some x) ∨ (m = K.length ∧ x = e) := by
  by_cases hm : m < K.length
  · left; exact ⟨hm, by rwa [getElem?_snoc_lt K e hm] at h⟩
  · right
    have hlt : m < (K ++ [e]).length := (List.getElem?_eq_some.mp h).1
    simp at hlt
    have : m = K.length := by omega
    subst this
    rw [getElem?_snoc_len] at h
    exact ⟨rfl, (Option.some.inj h).symm⟩

theorem getElem?_lt_of_some {α : Type} {K : List α} {x : α} {m : Nat} (h : K[m]? = some x) :
    m < K.length := (List.getElem?_eq_some.mp h).1

theorem mem_of_getElem?_some {α : Type} {K : List α} {x : α} {m : Nat} (h : K[m]? = some x) :
    x ∈ K := List.mem_iff_getElem?.mpr ⟨m, h⟩

/-- Appending one allocation of allocator `k` keeps `InvA`. -/
theorem InvA_snoc (L : Layout) (hsz : ∀ k, 0 < L.sizeof k) (k : Kind) (log : List Entry)
    (s s' : State) (e : Entry) (hI : InvA L log s)
    (hkind : e.op.kind = some k)
    (hst : s'.st = Function.update s.st k
      ⟨((s.st k).allocs + 1) % 2 ^ 32,
        (((1024 - ((klog k log).length + 1) % 1024) % 1024 : Nat) : Int),
        some ⟨e.ret.blk, e.ret.off + L.sizeof k⟩⟩)
    (hoff : e.ret.off = (klog k log).length % 1024 * L.sizeof k)
    (hfresh : e.fresh = true ↔ (klog k log).length % 1024 = 0)
    (hblk : ((klog k log).length % 1024 = 0 ∧ e.ret.blk = s.heap.blocks.length ∧
        s'.heap.blocks = s.heap.blocks ++ [BLOCKING * L.sizeof k]) ∨
      ((klog k log).length % 1024 ≠ 0 ∧ s'.heap.blocks = s.heap.blocks ∧
        ∃ e0, (klog k log)[(klog k log).length - (klog k log).length % 1024]? = some e0 ∧
          e.ret.blk = e0.ret.blk)) :
    InvA L (log ++ [e]) s' := by
  have hk : klog k (log ++ [e]) = klog k log ++ [e] := by rw [klog_snoc, if_pos hkind]
  have hk' : ∀ k', k' ≠ k → klog k' (log ++ [e]) = klog k' log := by
    intro k' hne
    rw [klog_snoc, if_neg]
    rw [hkind]; intro h; exact hne (Option.some.inj h).symm
  have hkb : kblocks k (log ++ [e]) =
      kblocks k log ++ (if e.fresh = true then [e.ret.blk] else []) := by
    unfold kblocks
    rw [hk, List.filter_append, List.map_append]
    by_cases hf : e.fresh = true <;> simp [List.filter, hf]
  have hkb' : ∀ k', k' ≠ k → kblocks k' (log ++ [e]) = kblocks k' log := by
    intro k' hne
    unfold kblocks
    rw [hk' k' hne]
  have hlen : s.heap.blocks.length ≤ s'.heap.blocks.length := by
    rcases hblk with ⟨_, _, h⟩ | ⟨_, h, _⟩ <;> simp [h]
  have heblk : e.ret.blk < s'.heap.blocks.length := by
    rcases hblk with ⟨_, h1, h2⟩ | ⟨_, h2, e0, h3, h4⟩
    · rw [h1, h2]; simp
    · rw [h4, h2]
      exact hI.blk_lt e0 (mem_klog.mp (mem_of_getElem?_some h3)).1
  have hold_ne_fresh : ∀ x ∈ log, (klog k log).length % 1024 = 0 → x.ret.blk ≠ e.ret.blk := by
    intro x hx h0
    rcases hblk with ⟨_, h1, _⟩ | ⟨h, _⟩
    · have := hI.blk_lt x hx; omega
    · exact absurd h0 h
  refine
    { kind_some := ?_, blk_lt := ?_, allocs := ?_, nr := ?_, block := ?_, slots := ?_,
      owner := ?_, fresh_inj := ?_, fresh_size := ?_, nodup := ?_, kblocks_len := ?_,
      kslots := ?_ }
  · intro x hx
    rcases List.mem_append.mp hx with h | h
    · exact hI.kind_some x h
    · simp at h; subst h; exact ⟨k, hkind⟩
  · intro x hx
    rcases List.mem_append.mp hx with h | h
    · exact lt_of_lt_of_le (hI.blk_lt x h) hlen
    · simp at h; subst h; exact heblk
  · intro k'
    by_cases hkk : k' = k
    · rw [hkk, hst, hk, Function.update_same]
      have := hI.allocs k
      simp only [List.length_append, List.length_singleton]
      rw [this]; omega
    · rw [hst, hk' k' hkk, Function.update_noteq hkk]; exact hI.allocs k'
  · intro k'
    by_cases hkk : k' = k
    · rw [hkk, hst, hk, Function.update_same]
      simp only [List.length_append, List.length_singleton]
    · rw [hst, hk' k' hkk, Function.update_noteq hkk]; exact hI.nr k'
  · intro k'
    by_cases hkk : k' = k
    · rw [hkk, hst, hk, Function.update_same]
      simp only [List.length_append, List.length_singleton]
      intro hne
      have hmod : ((klog k log).length + 1) % 1024 = (klog k log).length % 1024 + 1 := by omega
      have hidx : (klog k log).length + 1 - ((klog k log).length + 1) % 1024 = (klog k log).length - (klog k log).length % 1024 := by omega
      rw [hidx, hmod, hoff, Nat.succ_mul]
      rcases hblk with ⟨h0, _, _⟩ | ⟨h0, _, e0, h3, h4⟩
      · refine ⟨e, ?_, rfl⟩
        have : (klog k log).length - (klog k log).length % 1024 = (klog k log).length := by omega
        rw [this]; exact getElem?_snoc_len (klog k log) e
      · refine ⟨e0, ?_, by rw [h4]⟩
        rw [getElem?_snoc_lt (klog k log) e (by omega)]; exact h3
    · rw [hst, hk' k' hkk, Function.update_noteq hkk]; exact hI.block k'
  · intro k' m x hx
    by_cases hkk : k' = k
    · rw [hkk] at hx ⊢
      rw [hk] at hx ⊢
      rcases getElem?_snoc_some (klog k log) e x hx with ⟨hm, hx'⟩ | ⟨hm, hx'⟩
      · obtain ⟨e0, h1, h2⟩ := hI.slots k m x hx'
        refine ⟨e0, ?_, h2⟩
        rw [getElem?_snoc_lt (klog k log) e (by omega)]; exact h1
      · subst hx'
        rw [hm]
        rcases hblk with ⟨h0, _, _⟩ | ⟨h0, _, e0, h3, h4⟩
        · refine ⟨x, ?_, ?_, hfresh⟩
          · have : (klog k log).length - (klog k log).length % 1024 = (klog k log).length := by omega
            rw [this]; exact getElem?_snoc_len (klog k log) x
          · cases hr : x.ret with
            | mk b o => rw [hr] at hoff; simp at hoff; simp [hoff]
        · refine ⟨e0, ?_, ?_, hfresh⟩
          · rw [getElem?_snoc_lt (klog k log) x (by omega)]; exact h3
          · cases hr : x.ret with
            | mk b o => rw [hr] at hoff h4; simp at hoff h4; simp [hoff, h4]
    · rw [hk' k' hkk] at hx ⊢; exact hI.slots k' m x hx
  · have hold : ∀ x ∈ log, x.ret.blk = e.ret.blk → x.op.kind = e.op.kind := by
      intro x hx hxe
      rcases hblk with ⟨h0, h1, _⟩ | ⟨h0, _, e0, h3, h4⟩
      · exact absurd hxe (hold_ne_fresh x hx h0)
      · have he0 := mem_klog.mp (mem_of_getElem?_some h3)
        rw [hkind, ← he0.2]
        exact hI.owner x hx e0 he0.1 (by rw [hxe, h4])
    intro x1 h1 x2 h2 h12
    rcases List.mem_append.mp h1 with a | a <;> rcases List.mem_append.mp h2 with b | b
    · exact hI.owner x1 a x2 b h12
    · simp at b; subst b; exact hold x1 a h12
    · simp at a; subst a; exact (hold x2 b h12.symm).symm
    · simp at a b; subst a; subst b; rfl
  · intro k' m m' x1 x2 hx1 hx2 hf1 hf2 h12
    by_cases hkk : k' = k
    · rw [hkk] at hx1 hx2
      rw [hk] at hx1 hx2
      rcases getElem?_snoc_some (klog k log) e x1 hx1 with ⟨hm, a⟩ | ⟨hm, a⟩ <;>
        rcases getElem?_snoc_some (klog k log) e x2 hx2 with ⟨hm', b⟩ | ⟨hm', b⟩
      · exact hI.fresh_inj k m m' x1 x2 a b hf1 hf2 h12
      · subst b
        have := hold_ne_fresh x1 (mem_klog.mp (mem_of_getElem?_some a)).1 (hfresh.mp hf2)
        exact absurd h12 this
      · subst a
        have := hold_ne_fresh x2 (mem_klog.mp (mem_of_getElem?_some b)).1 (hfresh.mp hf1)
        exact absurd h12.symm this
      · omega
    · rw [hk' k' hkk] at hx1 hx2
      exact hI.fresh_inj k' m m' x1 x2 hx1 hx2 hf1 hf2 h12
  · intro k' x hx hf
    have hold : ∀ y ∈ klog k' log, y.fresh = true →
        s'.heap.blocks[y.ret.blk]? = some (BLOCKING * L.sizeof k') := by
      intro y hy hfy
      have h1 := hI.fresh_size k' y hy hfy
      have h2 := hI.blk_lt y (mem_klog.mp hy).1
      rcases hblk with ⟨_, _, h⟩ | ⟨_, h, _⟩
      · rw [h, List.getElem?_append_left h2]; exact h1
      · rw [h]; exact h1
    by_cases hkk : k' = k
    · rw [hkk] at hx hold ⊢
      rw [hk] at hx
      rcases List.mem_append.mp hx with a | a
      · exact hold x a hf
      · simp at a; subst a
        rcases hblk with ⟨h0, h1, h2⟩ | ⟨h0, _⟩
        · rw [h2, h1, List.getElem?_append_right (le_refl _)]; simp
        · exact absurd (hfresh.mp hf) h0
    · rw [hk' k' hkk] at hx; exact hold x hx hf
  · rw [List.map_append, List.nodup_append]
    refine ⟨hI.nodup, by simp, ?_⟩
    intro p hp hp'
    simp at hp'
    subst hp'
    obtain ⟨x, hx, hxe⟩ := List.mem_map.mp hp
    rcases hblk with ⟨h0, h1, _⟩ | ⟨h0, _, e0, h3, h4⟩
    · exact hold_ne_fresh x hx h0 (by rw [hxe])
    · have he0 := mem_klog.mp (mem_of_getElem?_some h3)
      have hxk : x.op.kind = some k := by
        rw [← he0.2]; exact hI.owner x hx e0 he0.1 (by rw [hxe, h4])
      have hxK : x ∈ (klog k log) := mem_klog.mpr ⟨hx, hxk⟩
      obtain ⟨m, hm⟩ := List.mem_iff_getElem?.mp hxK
      have hmlt := getElem?_lt_of_some hm
      obtain ⟨e1, g1, g2, _⟩ := hI.slots k m x hm
      obtain ⟨_, _, _, g3⟩ := hI.slots k (m - m % 1024) e1 g1
      obtain ⟨_, _, _, g4⟩ := hI.slots k ((klog k log).length - (klog k log).length % 1024) e0 h3
      have hf1 : e1.fresh = true := g3.mpr (by omega)
      have hf0 : e0.fresh = true := g4.mpr (by omega)
      have hoffeq : m % 1024 * L.sizeof k = (klog k log).length % 1024 * L.sizeof k := by
        have := congrArg Ptr.off g2
        simp at this
        rw [← this, ← hoff, hxe]
      have hmodeq : m % 1024 = (klog k log).length % 1024 := Nat.eq_of_mul_eq_mul_right (hsz k) hoffeq
      have hblkeq : e1.ret.blk = e0.ret.blk := by
        have := congrArg Ptr.blk g2
        simp at this
        rw [← this, ← h4, hxe]
      have := hI.fresh_inj k _ _ e1 e0 g1 h3 hf1 hf0 hblkeq
      omega
  · intro k'
    by_cases hkk : k' = k
    · rw [hkk, hkb, hk]
      simp only [List.length_append, List.length_singleton]
      have := hI.kblocks_len k
      by_cases hf : e.fresh = true
      · rw [if_pos hf]
        have := hfresh.mp hf
        simp only [List.length_singleton]
        omega
      · rw [if_neg hf]
        have : (klog k log).length % 1024 ≠ 0 := fun h => hf (hfresh.mpr h)
        simp only [List.length_nil]
        omega
    · rw [hkb' k' hkk, hk' k' hkk]; exact hI.kblocks_len k'
  · intro k' m x hx
    by_cases hkk : k' = k
    · rw [hkk] at hx ⊢
      rw [hk] at hx
      rw [hkb]
      have hlen := hI.kblocks_len k
      rcases getElem?_snoc_some (klog k log) e x hx with ⟨hm, hx'⟩ | ⟨hm, hx'⟩
      · obtain ⟨b, h1, h2⟩ := hI.kslots k m x hx'
        refine ⟨b, ?_, h2⟩
        rw [List.getElem?_append_left (by omega)]; exact h1
      · subst hx'
        rw [hm]
        rcases hblk with ⟨h0, _, _⟩ | ⟨h0, _, e0, h3, h4⟩
        · refine ⟨x.ret.blk, ?_, ?_⟩
          · rw [if_pos (hfresh.mpr h0), List.getElem?_append_right (by omega)]
            have : (klog k log).length / 1024 - (kblocks k log).length = 0 := by omega
            rw [this]; rfl
          · rw [← hoff]
        · obtain ⟨b, h1, h2⟩ := hI.kslots k _ e0 h3
          refine ⟨b, ?_, ?_⟩
          · have : (klog k log).length / 1024 =
                ((klog k log).length - (klog k log).length % 1024) / 1024 := by omega
            rw [this, List.getElem?_append_left (getElem?_lt_of_some h1)]; exact h1
          · have hb : e0.ret.blk = b := by rw [h2]
            rw [← hoff, ← hb, ← h4]
    · rw [hkb' k' hkk]; rw [hk' k' hkk] at hx; exact hI.kslots k' m x hx

/-- The effect of one call of `alloc_##name##_node` in a state a run has reached. -/
theorem alloc_node_step (L : Layout) (hsz : ∀ k, 0 < L.sizeof k) (k : Kind) (log : List Entry)
    (s : State) (hI : InvA L log s) :
    ∃ ret s', alloc_node L k s = some (ret, s') ∧
      (s'.heap.blocks.length ≠ s.heap.blocks.length ↔ (klog k log).length % 1024 = 0) ∧
      s'.commit_count = s.commit_count ∧ s'.err = s.err ∧
      s'.heap.mem = memset s.heap.mem ret 0 (L.sizeof k) ∧
      ∀ op fresh, op.kind = some k → (fresh = true ↔ (klog k log).length % 1024 = 0) →
        InvA L (log ++ [⟨op, ret, fresh⟩]) s' := by
  have hnr := hI.nr k
  by_cases h0 : (klog k log).length % 1024 = 0
  · have hz : (s.st k).nr = 0 := by rw [hnr]; omega
    rw [alloc_node_eq, if_pos hz]
    refine ⟨_, _, rfl, ?_, rfl, rfl, rfl, ?_⟩
    · simp [h0]
    · intro op fresh hop hf
      refine InvA_snoc L hsz k log s _ _ hI hop ?_ ?_ hf (Or.inl ⟨h0, rfl, rfl⟩)
      · have : ((klog k log).length + 1) % 1024 = 1 := by omega
        simp only [this]
        simp
      · simp [h0]
  · have hz : (s.st k).nr ≠ 0 := by rw [hnr]; omega
    obtain ⟨e0, he0, hb⟩ := hI.block k h0
    rw [alloc_node_eq, if_neg hz, hb]
    refine ⟨_, _, rfl, ?_, rfl, rfl, rfl, ?_⟩
    · simp [h0]
    · intro op fresh hop hf
      refine InvA_snoc L hsz k log s _ _ hI hop ?_ rfl hf (Or.inr ⟨h0, rfl, e0, he0, rfl⟩)
      · have hnr' : wrap_int ((s.st k).nr - 1) =
            (((1024 - ((klog k log).length + 1) % 1024) % 1024 : Nat) : Int) := by
          rw [hnr]; unfold wrap_int; omega
        simp only [hnr']

/-- Two nodes of a run that lie in the same block belong to the same allocator and do not
overlap. -/
theorem slots_disjoint (L : Layout) (log : List Entry) (s : State)
    (hI : InvA L log s) (x y : Entry) (hx : x ∈ log) (hy : y ∈ log) (hne : x.ret ≠ y.ret)
    (k : Kind) (hk : x.op.kind = some k) (hb : x.ret.blk = y.ret.blk) :
    y.op.kind = some k ∧
      (x.ret.off + L.sizeof k ≤ y.ret.off ∨ y.ret.off + L.sizeof k ≤ x.ret.off) := by
  have hyk : y.op.kind = some k := by rw [← hI.owner x hx y hy hb]; exact hk
  refine ⟨hyk, ?_⟩
  obtain ⟨m, hm⟩ := List.mem_iff_getElem?.mp (mem_klog.mpr ⟨hx, hk⟩)
  obtain ⟨m', hm'⟩ := List.mem_iff_getElem?.mp (mem_klog.mpr ⟨hy, hyk⟩)
  obtain ⟨e1, _, g1, _⟩ := hI.slots k m x hm
  obtain ⟨e2, _, g2, _⟩ := hI.slots k m' y hm'
  have ox : x.ret.off = m % 1024 * L.sizeof k := by rw [g1]
  have oy : y.ret.off = m' % 1024 * L.sizeof k := by rw [g2]
  rcases Nat.lt_trichotomy (m % 1024) (m' % 1024) with h | h | h
  · left
    rw [ox, oy, ← Nat.succ_mul]
    exact Nat.mul_le_mul_right _ h
  · exfalso
    apply hne
    cases hxr : x.ret with
    | mk b o =>
      cases hyr : y.ret with
      | mk b' o' =>
        rw [hxr] at ox hb; rw [hyr] at oy hb
        simp at ox oy hb
        rw [ox, oy, hb, h]
  · right
    rw [ox, oy, ← Nat.succ_mul]
    exact Nat.mul_le_mul_right _ h

theorem load_u32_memset (mem : Nat → Nat → Nat) (p q : Ptr) (c n : Nat)
    (h : q.blk ≠ p.blk ∨ q.off + 4 ≤ p.off ∨ p.off + n ≤ q.off) :
    load_u32 (memset mem p c n) q = load_u32 mem q := by
  have hh : ∀ i, i < 4 → ¬(q.blk = p.blk ∧ p.off ≤ q.off + i ∧ q.off + i < p.off + n) := by
    intro i hi; omega
  have h0 := hh 0 (by omega)
  simp only [load_u32, memset, Nat.add_zero] at h0 ⊢
  rw [if_neg h0, if_neg (hh 1 (by omega)), if_neg (hh 2 (by omega)), if_neg (hh 3 (by omega))]

theorem load_u32_store_other (mem : Nat → Nat → Nat) (p q : Ptr) (v : Nat)
    (h : q.blk ≠ p.blk ∨ q.off + 4 ≤ p.off ∨ p.off + 4 ≤ q.off) :
    load_u32 (store_u32 mem p v) q = load_u32 mem q := by
  have hh : ∀ i, i < 4 → ¬(q.blk = p.blk ∧ p.off ≤ q.off + i ∧ q.off + i < p.off + 4) := by
    intro i hi; omega
  have h0 := hh 0 (by omega)
  simp only [load_u32, store_u32, Nat.add_zero] at h0 ⊢
  rw [if_neg h0, if_neg (hh 1 (by omega)), if_neg (hh 2 (by omega)), if_neg (hh 3 (by omega))]

theorem load_u32_store_same (mem : Nat → Nat → Nat) (p : Ptr) (v : Nat) :
    load_u32 (store_u32 mem p v) p = v % 2 ^ 32 := by
  have hh : ∀ i, i < 4 → (True ∧ p.off ≤ p.off + i ∧ p.off + i < p.off + 4) := by
    intro i hi; exact ⟨trivial, by omega, by omega⟩
  have h0 := hh 0 (by omega)
  simp only [load_u32, store_u32, Nat.add_zero] at h0 ⊢
  rw [if_pos h0, if_pos (hh 1 (by omega)), if_pos (hh 2 (by omega)), if_pos (hh 3 (by omega))]
  simp only [Nat.sub_self, Nat.add_sub_cancel_left]
  norm_num
  omega

theorem clog_snoc (log : List Entry) (e : Entry) :
    clog (log ++ [e]) = if e.op = Op.commit then clog log ++ [e] else clog log := by
  unfold clog
  rw [List.filter_append]
  by_cases h : e.op = Op.commit <;> simp [List.filter, h]

theorem mem_clog {log : List Entry} {e : Entry} :
    e ∈ clog log ↔ e ∈ log ∧ e.op = Op.commit := by
  simp [clog]

theorem run_snoc (L : Layout) (s : State) (ops : List Op) (op : Op) :
    run L s (ops ++ [op]) =
      (run L s ops).bind fun p => (step L p.2 op).map fun r => (p.1 ++ r.1.toList, r.2) := by
  simp [run, List.foldl_append]

/-- An older commit node keeps its index across the `memset` of a later allocation. -/
theorem index_frame (L : Layout) (hio : L.index_off + 4 ≤ L.sizeof Kind.raw_commit)
    (log : List Entry) (s' : State) (e x : Entry) (hI : InvA L (log ++ [e]) s')
    (hx : x ∈ clog log) (k : Kind) (hk : e.op.kind = some k) :
    x.ret.blk ≠ e.ret.blk ∨ x.ret.off + L.index_off + 4 ≤ e.ret.off ∨
      e.ret.off + L.sizeof k ≤ x.ret.off + L.index_off := by
  have hxl := (mem_clog.mp hx).1
  have hxk : x.op.kind = some Kind.raw_commit := by rw [(mem_clog.mp hx).2]; rfl
  by_cases hb : x.ret.blk = e.ret.blk
  · right
    have hne : x.ret ≠ e.ret := by
      have hnd := hI.nodup
      rw [List.map_append, List.nodup_append] at hnd
      intro heq
      exact hnd.2.2 (List.mem_map.mpr ⟨x, hxl, rfl⟩) (by simp [heq])
    obtain ⟨hek, hd⟩ := slots_disjoint L (log ++ [e]) s' hI x e
      (List.mem_append.mpr (Or.inl hxl)) (by simp) hne Kind.raw_commit hxk hb
    have : k = Kind.raw_commit := by rw [hk] at hek; exact Option.some.inj hek
    subst this
    omega
  · left; exact hb

theorem InvA_init (L : Layout) (h : Heap) : InvA L [] (init h) := by
  refine
    { kind_some := ?_, blk_lt := ?_, allocs := ?_, nr := ?_, block := ?_, slots := ?_,
      owner := ?_, fresh_inj := ?_, fresh_size := ?_, nodup := ?_, kblocks_len := ?_,
      kslots := ?_ } <;>
    simp [klog, kblocks, init]

theorem InvC_init (L : Layout) (h : Heap) : InvC L [] (init h) := by
  refine { count := ?_, index := ?_ } <;> simp [clog, init, wrap_int]

theorem REPORT_st (L : Layout) (k : Kind) (s : State) : (REPORT L k s).st = s.st := rfl

theorem REPORT_commit_count (L : Layout) (k : Kind) (s : State) :
    (REPORT L k s).commit_count = s.commit_count := rfl

theorem REPORT_heap (L : Layout) (k : Kind) (s : State) : (REPORT L k s).heap = s.heap := rfl

theorem alloc_report_st (L : Layout) (s : State) : (alloc_report L s).st = s.st := by
  simp only [alloc_report, REPORT_st]

theorem alloc_report_commit_count (L : Layout) (s : State) :
    (alloc_report L s).commit_count = s.commit_count := by
  simp only [alloc_report, REPORT_commit_count]

theorem alloc_report_heap (L : Layout) (s : State) : (alloc_report L s).heap = s.heap := by
  simp only [alloc_report, REPORT_heap]

theorem InvA_report (L : Layout) (log : List Entry) (s : State) (hI : InvA L log s) :
    InvA L log (alloc_report L s) := by
  refine
    { kind_some := hI.kind_some, blk_lt := ?_, allocs := ?_, nr := ?_,
      block := ?_, slots := hI.slots, owner := hI.owner, fresh_inj := hI.fresh_inj,
      fresh_size := ?_, nodup := hI.nodup, kblocks_len := hI.kblocks_len, kslots := hI.kslots }
  · rw [alloc_report_heap]; exact hI.blk_lt
  · rw [alloc_report_st]; exact hI.allocs
  · rw [alloc_report_st]; exact hI.nr
  · rw [alloc_report_st]; exact hI.block
  · rw [alloc_report_heap]; exact hI.fresh_size

theorem InvC_report (L : Layout) (log : List Entry) (s : State) (hI : InvC L log s) :
    InvC L log (alloc_report L s) := by
  refine { count := ?_, index := ?_ }
  · rw [alloc_report_commit_count]; exact hI.count
  · rw [alloc_report_heap]; exact hI.index

theorem wrap_int_succ (n : Nat) :
    wrap_int (wrap_int (n : Int) + 1) = wrap_int ((n + 1 : Nat) : Int) := by
  unfold wrap_int; push_cast; omega

theorem wrap_int_toNat (n : Nat) :
    (wrap_int (n : Int) % 2 ^ 32).toNat % 2 ^ 32 = n % 2 ^ 32 := by
  unfold wrap_int; omega

/-- The invariant `InvC` is kept across a call that is not `alloc_commit_node`. -/
theorem InvC_node (L : Layout) (hio : L.index_off + 4 ≤ L.sizeof Kind.raw_commit)
    (log : List Entry) (s s' : State) (e : Entry) (k : Kind) (hC : InvC L log s)
    (hA : InvA L (log ++ [e]) s') (hk : e.op.kind = some k) (hop : e.op ≠ Op.commit)
    (hcc : s'.commit_count = s.commit_count)
    (hmem : s'.heap.mem = memset s.heap.mem e.ret 0 (L.sizeof k)) :
    InvC L (log ++ [e]) s' := by
  have hcl : clog (log ++ [e]) = clog log := by rw [clog_snoc, if_neg hop]
  refine { count := ?_, index := ?_ }
  · rw [hcl, hcc]; exact hC.count
  · intro j x hx
    rw [hcl] at hx
    rw [hmem, load_u32_memset]
    · exact hC.index j x hx
    · have := index_frame L hio log s' e x hA (mem_of_getElem?_some hx) k hk
      simp only
      omega

/-- The invariant `InvC` is kept across a call of `alloc_commit_node`. -/
theorem InvC_commit (L : Layout) (hio : L.index_off + 4 ≤ L.sizeof Kind.raw_commit)
    (log : List Entry) (s s1 s' : State) (e : Entry) (hC : InvC L log s)
    (hA : InvA L (log ++ [e]) s1) (hop : e.op = Op.commit)
    (hcc : s1.commit_count = s.commit_count)
    (hmem : s1.heap.mem = memset s.heap.mem e.ret 0 (L.sizeof Kind.raw_commit))
    (hcc' : s'.commit_count = wrap_int (s1.commit_count + 1))
    (hmem' : s'.heap.mem = store_u32 s1.heap.mem ⟨e.ret.blk, e.ret.off + L.index_off⟩
      (s1.commit_count % 2 ^ 32).toNat) :
    InvC L (log ++ [e]) s' := by
  have hcl : clog (log ++ [e]) = clog log ++ [e] := by rw [clog_snoc, if_pos hop]
  have hk : e.op.kind = some Kind.raw_commit := by rw [hop]; rfl
  refine { count := ?_, index := ?_ }
  · rw [hcl, hcc', hcc, hC.count, wrap_int_succ]
    simp only [List.length_append, List.length_singleton]
  · intro j x hx
    rw [hcl] at hx
    rcases getElem?_snoc_some _ _ _ hx with ⟨_, hx'⟩ | ⟨hj, hxe⟩
    · have := index_frame L hio log s1 e x hA (mem_of_getElem?_some hx') _ hk
      rw [hmem', load_u32_store_other, hmem, load_u32_memset]
      · exact hC.index j x hx'
      · simp only; omega
      · simp only; omega
    · subst hxe
      rw [hmem', load_u32_store_same, hcc, hC.count, hj, wrap_int_toNat]

/-- Every run from the initial state goes through, and its log and final state are related by
`InvA` and, when the index field lies inside `struct commit`, by `InvC`. -/
theorem run_inv (L : Layout) (hsz : ∀ k, 0 < L.sizeof k) (h : Heap) (ops : List Op) :
    ∃ log s, run L (init h) ops = some (log, s) ∧ InvA L log s ∧
      (L.index_off + 4 ≤ L.sizeof Kind.raw_commit → InvC L log s) := by
  induction ops using List.reverseRecOn with
  | nil => exact ⟨[], init h, rfl, InvA_init L h, fun _ => InvC_init L h⟩
  | append_singleton ops op ih =>
    obtain ⟨log, s, hrun, hA, hC⟩ := ih
    rw [run_snoc, hrun]
    cases op with
    | node k =>
      obtain ⟨ret, s', hs, hfr, hcc, _, hmem, hInv⟩ := alloc_node_step L hsz k log s hA
      have hA' := hInv (Op.node k) (decide (s'.heap.blocks.length ≠ s.heap.blocks.length)) rfl
        (by simp only [decide_eq_true_eq]; exact hfr)
      have hstep : step L s (Op.node k) = some (some
          ⟨Op.node k, ret, decide (s'.heap.blocks.length ≠ s.heap.blocks.length)⟩, s') := by
        cases k <;>
          simp only [step, Op.call, alloc_blob_node, alloc_tree_node, alloc_raw_commit_node,
            alloc_tag_node, alloc_object_node, hs, Option.map_some']
      refine ⟨_, s', by rw [Option.some_bind, hstep]; rfl, hA', fun hio => ?_⟩
      exact InvC_node L hio log s s' _ k (hC hio) hA' rfl (by simp) hcc hmem
    | commit =>
      obtain ⟨ret, s', hs, hfr, hcc, _, hmem, hInv⟩ :=
        alloc_node_step L hsz Kind.raw_commit log s hA
      have hA' := hInv Op.commit (decide (s'.heap.blocks.length ≠ s.heap.blocks.length)) rfl
        (by simp only [decide_eq_true_eq]; exact hfr)
      have hstep : step L s Op.commit = some (some
          ⟨Op.commit, ret, decide (s'.heap.blocks.length ≠ s.heap.blocks.length)⟩,
          { s' with
            commit_count := wrap_int (s'.commit_count + 1),
            heap := { s'.heap with
              mem := store_u32 s'.heap.mem ⟨ret.blk, ret.off + L.index_off⟩
                (s'.commit_count % 2 ^ 32).toNat } }) := by
        simp only [step, Op.call, alloc_commit_node, alloc_raw_commit_node, hs, Option.map_some']
      refine ⟨_, _, by rw [Option.some_bind, hstep]; rfl, ?_, fun hio => ?_⟩
      · exact
          { kind_some := hA'.kind_some, blk_lt := hA'.blk_lt, allocs := hA'.allocs, nr := hA'.nr,
            block := hA'.block, slots := hA'.slots, owner := hA'.owner,
            fresh_inj := hA'.fresh_inj, fresh_size := hA'.fresh_size, nodup := hA'.nodup,
            kblocks_len := hA'.kblocks_len, kslots := hA'.kslots }
      · exact InvC_commit L hio log s s' _ _ (hC hio) hA' rfl hcc hmem rfl rfl
    | report =>
      exact ⟨log, alloc_report L s, by simp [step], InvA_report L log s hA,
        fun hio => InvC_report L log s (hC hio)⟩

theorem layout64_pos : ∀ k, 0 < layout64.sizeof k := by
  intro k; cases k <;> decide

/-- The log of a run has one entry for every call that allocates, in call order. -/
theorem run_log_ops (L : Layout) (s0 : State) (ops : List Op) :
    ∀ log s, run L s0 ops = some (log, s) →
      log.map (fun e => e.op) = ops.filter fun o => o.kind.isSome := by
  induction ops using List.reverseRecOn with
  | nil =>
    intro log s hr
    simp [run] at hr
    simp [hr.1.symm]
  | append_singleton ops op ih =>
    intro log s hr
    rw [run_snoc] at hr
    cases hp : run L s0 ops with
    | none => rw [hp] at hr; simp at hr
    | some p =>
      obtain ⟨log0, s1⟩ := p
      rw [hp, Option.some_bind] at hr
      have h0 := ih log0 s1 hp
      cases hq : step L s1 op with
      | none => rw [hq] at hr; simp at hr
      | some q =>
        rw [hq] at hr
        simp only [Option.map_some', Option.some.injEq, Prod.mk.injEq] at hr
        rw [← hr.1, List.map_append, h0, List.filter_append]
        congr 1
        cases op with
        | report =>
          simp only [step, Option.some.injEq] at hq
          rw [← hq]; simp [Op.kind]
        | node k =>
          simp only [step] at hq
          cases hc : (Op.node k).call L s1 with
          | none => rw [hc] at hq; simp at hq
          | some r =>
            rw [hc] at hq
            simp only [Option.map_some', Option.some.injEq] at hq
            rw [← hq]; simp [Op.kind]
        | commit =>
          simp only [step] at hq
          cases hc : Op.commit.call L s1 with
          | none => rw [hc] at hq; simp at hq
          | some r =>
            rw [hc] at hq
            simp only [Option.map_some', Option.some.injEq] at hq
            rw [← hq]; simp [Op.kind]

theorem klog_length (k : Kind) (log : List Entry) (ops : List Op)
    (h : log.map (fun e => e.op) = ops.filter fun o => o.kind.isSome) :
    (klog k log).length = count k ops := by
  have h1 : (klog k log).length =
      ((log.map fun e => e.op).filter fun o => decide (o.kind = some k)).length := by
    unfold klog
    rw [List.filter_map, List.length_map]
    rfl
  rw [h1, h, List.filter_filter]
  unfold count
  congr 1
  apply List.filter_congr
  intro o _
  cases hk : o.kind <;> simp

theorem clog_length (log : List Entry) (ops : List Op)
    (h : log.map (fun e => e.op) = ops.filter fun o => o.kind.isSome) :
    (clog log).length = commits ops := by
  have h1 : (clog log).length =
      ((log.map fun e => e.op).filter fun o => decide (o = Op.commit)).length := by
    unfold clog
    rw [List.filter_map, List.length_map]
    rfl
  rw [h1, h, List.filter_filter]
  unfold commits
  congr 1
  apply List.filter_congr
  intro o _
  cases o <;> simp [Op.kind]

/-- C1: in every sequence of calls with fewer than 2^31 calls of `alloc_commit_node` (so that
the `int` counter does not overflow), the node returned by the k-th call of `alloc_commit_node` (counting from 0)
holds k in its index field, so the indices grow strictly in allocation order and no two commit
nodes share one. -/
theorem alloc_commit_node_index (L : Layout) (hsz : ∀ k, 0 < L.sizeof k)
    (hio : L.index_off + 4 ≤ L.sizeof Kind.raw_commit) (h : Heap) (ops : List Op)
    (hn : commits ops < 2 ^ 31) :
    ∃ log s, run L (init h) ops = some (log, s) ∧
      (log.map (fun e => e.op) = ops.filter fun o => o.kind.isSome) ∧
      (∀ (k : Nat) (e : Entry), (clog log)[k]? = some e →
        load_u32 s.heap.mem ⟨e.ret.blk, e.ret.off + L.index_off⟩ = k) ∧
      (∀ (i j : Nat) (ei ej : Entry), (clog log)[i]? = some ei → (clog log)[j]? = some ej →
        i < j →
        load_u32 s.heap.mem ⟨ei.ret.blk, ei.ret.off + L.index_off⟩ <
          load_u32 s.heap.mem ⟨ej.ret.blk, ej.ret.off + L.index_off⟩) := by
  obtain ⟨log, s, hrun, _, hC⟩ := run_inv L hsz h ops
  have hops := run_log_ops L (init h) ops log s hrun
  have hlen := clog_length log ops hops
  have hidx : ∀ (k : Nat) (e : Entry), (clog log)[k]? = some e →
      load_u32 s.heap.mem ⟨e.ret.blk, e.ret.off + L.index_off⟩ = k := by
    intro k e he
    have hk := getElem?_lt_of_some he
    rw [(hC hio).index k e he]
    apply Nat.mod_eq_of_lt
    have : (2 : Nat) ^ 31 < 2 ^ 32 := by norm_num
    omega
  refine ⟨log, s, hrun, hops, hidx, ?_⟩
  intro i j ei ej hi hj hij
  rw [hidx i ei hi, hidx j ej hj]
  exact hij

/-- C1, on an example: two commit nodes with a blob node between them. -/
theorem alloc_commit_node_index_witness :
    ∃ log s, run layout64 (init dirty_heap) [Op.commit, Op.node Kind.blob, Op.commit]
        = some (log, s) ∧
      (log.map (fun e => e.op) =
        [Op.commit, Op.node Kind.blob, Op.commit].filter fun o => o.kind.isSome) ∧
      (∀ (k : Nat) (e : Entry), (clog log)[k]? = some e →
        load_u32 s.heap.mem ⟨e.ret.blk, e.ret.off + layout64.index_off⟩ = k) ∧
      (∀ (i j : Nat) (ei ej : Entry), (clog log)[i]? = some ei → (clog log)[j]? = some ej →
        i < j →
        load_u32 s.heap.mem ⟨ei.ret.blk, ei.ret.off + layout64.index_off⟩ <
          load_u32 s.heap.mem ⟨ej.ret.blk, ej.ret.off + layout64.index_off⟩) :=
  alloc_commit_node_index layout64 layout64_pos (by decide) dirty_heap
    [Op.commit, Op.node Kind.blob, Op.commit] (by decide)

/-- C2: for every allocator, the n-th node it returns (counting from 0) is slot `n mod 1024` of
the `(n div 1024)`-th block the allocator has obtained; the heap gets a new block, of 1024 nodes,
during a call exactly when n is a multiple of 1024; and no pointer is returned twice. -/
theorem alloc_node_slot (L : Layout) (hsz : ∀ k, 0 < L.sizeof k) (h : Heap) (ops : List Op) :
    ∃ log s, run L (init h) ops = some (log, s) ∧
      (log.map (fun e => e.op) = ops.filter fun o => o.kind.isSome) ∧
      (∀ (k : Kind) (n : Nat) (e : Entry), (klog k log)[n]? = some e →
        ∃ b, (kblocks k log)[n / 1024]? = some b ∧
          e.ret = ⟨b, n % 1024 * L.sizeof k⟩ ∧
          (e.fresh = true ↔ n % 1024 = 0) ∧
          s.heap.blocks[b]? = some (1024 * L.sizeof k)) ∧
      (log.map fun e => e.ret).Nodup := by
  obtain ⟨log, s, hrun, hA, _⟩ := run_inv L hsz h ops
  refine ⟨log, s, hrun, run_log_ops L (init h) ops log s hrun, ?_, hA.nodup⟩
  intro k n e he
  obtain ⟨b, hb, hr⟩ := hA.kslots k n e he
  obtain ⟨e0, he0, _, hf⟩ := hA.slots k n e he
  refine ⟨b, hb, hr, hf, ?_⟩
  obtain ⟨b0, hb0, hr0⟩ := hA.kslots k _ e0 he0
  obtain ⟨_, _, _, hf0⟩ := hA.slots k _ e0 he0
  have hbb : b0 = b := by
    have : (n - n % 1024) / 1024 = n / 1024 := by omega
    rw [this, hb] at hb0
    exact (Option.some.inj hb0).symm
  have := hA.fresh_size k e0 (mem_of_getElem?_some he0) (hf0.mpr (by omega))
  rw [hr0, hbb] at this
  exact this

/-- C2, on an example: interleaved calls of three allocators. -/
theorem alloc_node_slot_witness :
    ∃ log s, run layout64 (init dirty_heap)
        [Op.node Kind.blob, Op.commit, Op.node Kind.blob, Op.node Kind.tree] = some (log, s) ∧
      (log.map (fun e => e.op) =
        [Op.node Kind.blob, Op.commit, Op.node Kind.blob, Op.node Kind.tree].filter
          fun o => o.kind.isSome) ∧
      (∀ (k : Kind) (n : Nat) (e : Entry), (klog k log)[n]? = some e →
        ∃ b, (kblocks k log)[n / 1024]? = some b ∧
          e.ret = ⟨b, n % 1024 * layout64.sizeof k⟩ ∧
          (e.fresh = true ↔ n % 1024 = 0) ∧
          s.heap.blocks[b]? = some (1024 * layout64.sizeof k)) ∧
      (log.map fun e => e.ret).Nodup :=
  alloc_node_slot layout64 layout64_pos dirty_heap
    [Op.node Kind.blob, Op.commit, Op.node Kind.blob, Op.node Kind.tree]

theorem alloc_node_zeroed (L : Layout) (hsz : ∀ k, 0 < L.sizeof k) (k : Kind)
    (log : List Entry) (s : State) (hA : InvA L log s) : Zeroed L k (alloc_node L k s) := by
  obtain ⟨ret, s', hs, _, _, _, hmem, _⟩ := alloc_node_step L hsz k log s hA
  refine ⟨ret, s', hs, ?_⟩
  intro i hi
  rw [hmem]
  simp only [memset]
  rw [if_pos ⟨trivial, by omega, by omega⟩]

/-- C3: after any sequence of calls and over any heap content, the node returned by
`alloc_blob_node`, `alloc_tree_node`, `alloc_tag_node` or `alloc_object_node` holds only zero
bytes, and the node returned by `alloc_commit_node` holds only zero bytes outside its index
field. -/
theorem alloc_nodes_zeroed (L : Layout) (hsz : ∀ k, 0 < L.sizeof k) (h : Heap) (ops : List Op) :
    ∃ log s, run L (init h) ops = some (log, s) ∧
      Zeroed L Kind.blob (alloc_blob_node L s) ∧
      Zeroed L Kind.tree (alloc_tree_node L s) ∧
      Zeroed L Kind.tag (alloc_tag_node L s) ∧
      Zeroed L Kind.object (alloc_object_node L s) ∧
      ∃ p s', alloc_commit_node L s = some (p, s') ∧
        ∀ i, i < L.sizeof Kind.raw_commit → (i < L.index_off ∨ L.index_off + 4 ≤ i) →
          s'.heap.mem p.blk (p.off + i) = 0 := by
  obtain ⟨log, s, hrun, hA, _⟩ := run_inv L hsz h ops
  refine ⟨log, s, hrun, alloc_node_zeroed L hsz _ log s hA, alloc_node_zeroed L hsz _ log s hA,
    alloc_node_zeroed L hsz _ log s hA, alloc_node_zeroed L hsz _ log s hA, ?_⟩
  obtain ⟨p, s1, hs, hz⟩ := alloc_node_zeroed L hsz Kind.raw_commit log s hA
  have hc : alloc_commit_node L s = some (p,
      { s1 with
        commit_count := wrap_int (s1.commit_count + 1),
        heap := { s1.heap with
          mem := store_u32 s1.heap.mem ⟨p.blk, p.off + L.index_off⟩
            (s1.commit_count % 2 ^ 32).toNat } }) := by
    simp only [alloc_commit_node, alloc_raw_commit_node, hs]
  refine ⟨p, _, hc, ?_⟩
  intro i hi hout
  simp only [store_u32]
  rw [if_neg (by omega)]
  exact hz i hi

/-- C3, on an example: a heap full of non-zero bytes and a few earlier allocations. -/
theorem alloc_nodes_zeroed_witness :
    ∃ log s, run layout64 (init dirty_heap) [Op.commit, Op.node Kind.blob] = some (log, s) ∧
      Zeroed layout64 Kind.blob (alloc_blob_node layout64 s) ∧
      Zeroed layout64 Kind.tree (alloc_tree_node layout64 s) ∧
      Zeroed layout64 Kind.tag (alloc_tag_node layout64 s) ∧
      Zeroed layout64 Kind.object (alloc_object_node layout64 s) ∧
      ∃ p s', alloc_commit_node layout64 s = some (p, s') ∧
        ∀ i, i < layout64.sizeof Kind.raw_commit →
          (i < layout64.index_off ∨ layout64.index_off + 4 ≤ i) →
          s'.heap.mem p.blk (p.off + i) = 0 :=
  alloc_nodes_zeroed layout64 layout64_pos dirty_heap [Op.commit, Op.node Kind.blob]

theorem report_eq (name : String) (c z : Nat) (s : State) :
    report name c z s =
      { s with err := s.err ++ (pad_left 10 name ++ ": " ++ pad_left 8 (toString c) ++ " ("
          ++ toString z ++ " kB)\n") } := by
  simp only [report, String.append_assoc]

/-- What `REPORT` prints for an allocator whose counter and byte count have not wrapped. -/
theorem REPORT_eq (L : Layout) (k : Kind) (s : State) (n : Nat) (hn : (s.st k).allocs = n)
    (hb : n * L.sizeof k < 2 ^ L.size_bits) :
    REPORT L k s = { s with err := s.err ++ report_line k n (L.sizeof k) } := by
  unfold REPORT
  rw [report_eq, hn, Nat.mod_eq_of_lt hb, Nat.shiftRight_eq_div_pow]
  rfl

theorem REPORT_eq_next (L : Layout) (k : Kind) (s : State) (t : String) (n : Nat)
    (hn : (s.st k).allocs = n) (hb : n * L.sizeof k < 2 ^ L.size_bits) :
    REPORT L k { s with err := t } = { s with err := t ++ report_line k n (L.sizeof k) } :=
  REPORT_eq L k { s with err := t } n hn hb

/-- C4: after any sequence of calls that takes fewer than 2^32 - 1 nodes from every allocator,
with every per-allocator byte count representable in `size_t`, `alloc_report` prints for blob,
tree, raw_commit, tag and object the number of nodes allocated from that allocator and
`floor(count * sizeof / 1024)` as kB figure, and changes nothing but stderr; one more allocation
from an allocator raises that allocator's counter by one and leaves the other counters as they
are. -/
theorem alloc_report_counts (L : Layout) (hsz : ∀ k, 0 < L.sizeof k) (h : Heap) (ops : List Op)
    (hcount : ∀ k, count k ops + 1 < 2 ^ 32)
    (hbytes : ∀ k, count k ops * L.sizeof k < 2 ^ L.size_bits) :
    ∃ log s, run L (init h) ops = some (log, s) ∧
      alloc_report L s =
        { s with err := s.err
            ++ report_line Kind.blob (count Kind.blob ops) (L.sizeof Kind.blob)
            ++ report_line Kind.tree (count Kind.tree ops) (L.sizeof Kind.tree)
            ++ report_line Kind.raw_commit (count Kind.raw_commit ops) (L.sizeof Kind.raw_commit)
            ++ report_line Kind.tag (count Kind.tag ops) (L.sizeof Kind.tag)
            ++ report_line Kind.object (count Kind.object ops) (L.sizeof Kind.object) } ∧
      (∀ k, (s.st k).allocs = count k ops) ∧
      (∀ k, ∃ p s', alloc_node L k s = some (p, s') ∧
        (s'.st k).allocs = (s.st k).allocs + 1 ∧
        ∀ k', k' ≠ k → (s'.st k').allocs = (s.st k').allocs) := by
  obtain ⟨log, s, hrun, hA, _⟩ := run_inv L hsz h ops
  have hops := run_log_ops L (init h) ops log s hrun
  have hall : ∀ k, (s.st k).allocs = count k ops := by
    intro k
    rw [hA.allocs k, klog_length k log ops hops]
    apply Nat.mod_eq_of_lt
    have := hcount k
    omega
  refine ⟨log, s, hrun, ?_, hall, ?_⟩
  · unfold alloc_report
    rw [REPORT_eq L Kind.blob s _ (hall _) (hbytes _)]
    rw [REPORT_eq_next L Kind.tree s _ _ (hall _) (hbytes _)]
    rw [REPORT_eq_next L Kind.raw_commit s _ _ (hall _) (hbytes _)]
    rw [REPORT_eq_next L Kind.tag s _ _ (hall _) (hbytes _)]
    rw [REPORT_eq_next L Kind.object s _ _ (hall _) (hbytes _)]
  · intro k
    have hnr := hA.nr k
    have hk := hall k
    have hc := hcount k
    by_cases hz : (s.st k).nr = 0
    · rw [alloc_node_eq, if_pos hz]
      refine ⟨_, _, rfl, ?_, ?_⟩
      · simp only [Function.update_same]
        rw [hk]; apply Nat.mod_eq_of_lt; exact hc
      · intro k' hne
        simp only [Function.update_noteq hne]
    · have h0 : (klog k log).length % 1024 ≠ 0 := by
        intro h0; apply hz; rw [hnr]; omega
      obtain ⟨e0, _, hb⟩ := hA.block k h0
      rw [alloc_node_eq, if_neg hz, hb]
      refine ⟨_, _, rfl, ?_, ?_⟩
      · simp only [Function.update_same]
        rw [hk]; apply Nat.mod_eq_of_lt; exact hc
      · intro k' hne
        simp only [Function.update_noteq hne]

theorem layout64_count :
    ∀ k, count k [Op.node Kind.blob, Op.commit, Op.node Kind.blob, Op.report] + 1 < 2 ^ 32 := by
  intro k; cases k <;> decide

theorem layout64_bytes :
    ∀ k, count k [Op.node Kind.blob, Op.commit, Op.node Kind.blob, Op.report]
      * layout64.sizeof k < 2 ^ layout64.size_bits := by
  intro k; cases k <;> decide

/-- C4, on an example: two blob nodes and one commit node. -/
theorem alloc_report_counts_witness :
    (∀ k, 0 < layout64.sizeof k) ∧
    (∀ k, count k [Op.node Kind.blob, Op.commit, Op.node Kind.blob, Op.report] + 1 < 2 ^ 32) ∧
    (∀ k, count k [Op.node Kind.blob, Op.commit, Op.node Kind.blob, Op.report]
      * layout64.sizeof k < 2 ^ layout64.size_bits) ∧
    ∃ log s, run layout64 (init dirty_heap)
        [Op.node Kind.blob, Op.commit, Op.node Kind.blob, Op.report] = some (log, s) ∧
      alloc_report layout64 s =
        { s with err := s.err
            ++ report_line Kind.blob 2 24
            ++ report_line Kind.tree 0 40
            ++ report_line Kind.raw_commit 1 72
            ++ report_line Kind.tag 0 48
            ++ report_line Kind.object 0 72 } ∧
      (∀ k, (s.st k).allocs =
        count k [Op.node Kind.blob, Op.commit, Op.node Kind.blob, Op.report]) ∧
      (∀ k, ∃ p s', alloc_node layout64 k s = some (p, s') ∧
        (s'.st k).allocs = (s.st k).allocs + 1 ∧
        ∀ k', k' ≠ k → (s'.st k').allocs = (s.st k').allocs) :=
  ⟨layout64_pos, layout64_count, layout64_bytes,
    alloc_report_counts layout64 layout64_pos dirty_heap
      [Op.node Kind.blob, Op.commit, Op.node Kind.blob, Op.report] layout64_count layout64_bytes⟩

end Alloc

namespace Revision

theorem has_flag_two_pow (f j : Nat) : has_flag f (2 ^ j) = f.testBit j := by
  unfold has_flag
  rw [Nat.and_two_pow]
  cases h : f.testBit j <;> simp [Nat.pos_iff_ne_zero.mp, Nat.two_pow_pos]

theorem flag_independent (f i j : Nat) (hi : i < 32) (hj : j < 32) (hij : i ≠ j) :
    has_flag (set_flag f (2 ^ i)) (2 ^ j) = has_flag f (2 ^ j) ∧
      has_flag (clear_flag f (2 ^ i)) (2 ^ j) = has_flag f (2 ^ j) := by
  rw [has_flag_two_pow, has_flag_two_pow, has_flag_two_pow]
  constructor
  · unfold set_flag
    rw [Nat.testBit_or, Nat.testBit_two_pow]
    simp [hij]
  · unfold clear_flag bnot
    have h1 : 2 ^ i % 2 ^ 32 = 2 ^ i :=
      Nat.mod_eq_of_lt (Nat.pow_lt_pow_right (by norm_num) hi)
    rw [h1, Nat.testBit_and, Nat.testBit_xor, Nat.testBit_two_pow_sub_one, Nat.testBit_two_pow]
    simp [hij, hj]

theorem walk_flags_pow : ∀ m ∈ walk_flags, ∃ i, i < 10 ∧ m = 2 ^ i := by
  intro m hm
  simp only [walk_flags, List.mem_cons, List.mem_singleton, List.not_mem_nil, or_false] at hm
  rcases hm with h | h | h | h | h | h | h | h | h | h
  · exact ⟨0, by norm_num, h⟩
  · exact ⟨1, by norm_num, h⟩
  · exact ⟨2, by norm_num, h⟩
  · exact ⟨3, by norm_num, h⟩
  · exact ⟨4, by norm_num, h⟩
  · exact ⟨5, by norm_num, h⟩
  · exact ⟨6, by norm_num, h⟩
  · exact ⟨7, by norm_num, h⟩
  · exact ⟨8, by norm_num, h⟩
  · exact ⟨9, by norm_num, h⟩

/-- C9: the walk flags SEEN, UNINTERESTING, TREESAME, SHOWN, TMP_MARK, BOUNDARY, CHILD_SHOWN,
ADDED, SYMMETRIC_LEFT and TOPOSORT are pairwise different masks of one bit each, and setting or
clearing one of them in a flag word never changes whether another of them is set. -/
theorem walk_flags_independent :
    walk_flags.Pairwise (fun a b => a ≠ b) ∧
    (∀ m ∈ walk_flags, ∃ i, i < 10 ∧ m = 2 ^ i) ∧
    ∀ a ∈ walk_flags, ∀ b ∈ walk_flags, a ≠ b → ∀ f : Nat,
      has_flag (set_flag f a) b = has_flag f b ∧ has_flag (clear_flag f a) b = has_flag f b := by
  refine ⟨by decide, walk_flags_pow, ?_⟩
  intro a ha b hb hab f
  obtain ⟨i, hi, rfl⟩ := walk_flags_pow a ha
  obtain ⟨j, hj, rfl⟩ := walk_flags_pow b hb
  have hij : i ≠ j := fun h => hab (by rw [h])
  exact flag_independent f i j (by omega) (by omega) hij

end Revision

namespace LogTree
open Revision

theorem digits_loop_exit (n f i : Nat) (h : n < i) (r : Nat) :
    (digits_in_number_loop n (f + 1) i r).isSome := by
  simp only [digits_in_number_loop, if_neg (Nat.not_le.mpr h), Option.isSome_some]

theorem digits_loop_step (n f i : Nat)
    (h : ∀ r, (digits_in_number_loop n f (i * 10 % 2 ^ 32) r).isSome) (r : Nat) :
    (digits_in_number_loop n (f + 1) i r).isSome := by
  simp only [digits_in_number_loop]
  split_ifs
  · exact h _
  · rfl

/-- For every value of a positive `int`, `digits_in_number` returns. -/
theorem digits_in_number_isSome (n : Nat) (h : n < 2 ^ 31) : (digits_in_number n).isSome := by
  unfold digits_in_number
  have h12 : ∀ r, (digits_in_number_loop n 22 3567587328 r).isSome :=
    digits_loop_exit n 21 _ (by omega)
  have h11 : ∀ r, (digits_in_number_loop n 23 1215752192 r).isSome :=
    digits_loop_step n 22 _ h12
  have h10 : ∀ r, (digits_in_number_loop n 24 1410065408 r).isSome :=
    digits_loop_step n 23 _ h11
  have h9 : ∀ r, (digits_in_number_loop n 25 1000000000 r).isSome :=
    digits_loop_step n 24 _ h10
  have h8 : ∀ r, (digits_in_number_loop n 26 100000000 r).isSome :=
    digits_loop_step n 25 _ h9
  have h7 : ∀ r, (digits_in_number_loop n 27 10000000 r).isSome :=
    digits_loop_step n 26 _ h8
  have h6 : ∀ r, (digits_in_number_loop n 28 1000000 r).isSome :=
    digits_loop_step n 27 _ h7
  have h5 : ∀ r, (digits_in_number_loop n 29 100000 r).isSome :=
    digits_loop_step n 28 _ h6
  have h4 : ∀ r, (digits_in_number_loop n 30 10000 r).isSome :=
    digits_loop_step n 29 _ h5
  have h3 : ∀ r, (digits_in_number_loop n 31 1000 r).isSome :=
    digits_loop_step n 30 _ h4
  have h2 : ∀ r, (digits_in_number_loop n 32 100 r).isSome :=
    digits_loop_step n 31 _ h3
  exact digits_loop_step n 32 _ h2 1

@[simp] theorem print_opt (w : World) (t : String) : (w.print t).opt = w.opt := rfl

@[simp] theorem print_loginfo (w : World) (t : String) : (w.print t).loginfo = w.loginfo := rfl

@[simp] theorem print_shown_one (w : World) (t : String) : (w.print t).shown_one = w.shown_one := rfl

@[simp] theorem print_diffopt (w : World) (t : String) : (w.print t).diffopt = w.diffopt := rfl

@[simp] theorem print_log (w : World) (t : String) : (w.print t).log = w.log := rfl

@[simp] theorem print_commits (w : World) (t : String) : (w.print t).commits = w.commits := rfl

@[simp] theorem print_queue (w : World) (t : String) : (w.print t).queue = w.queue := rfl

@[simp] theorem print_trace (w : World) (t : String) : (w.print t).trace = w.trace := rfl

@[simp] theorem putchar_opt (w : World) (c : Char) : (w.putchar c).opt = w.opt := rfl

@[simp] theorem putchar_loginfo (w : World) (c : Char) : (w.putchar c).loginfo = w.loginfo := rfl

@[simp] theorem putchar_shown_one (w : World) (c : Char) : (w.putchar c).shown_one = w.shown_one := rfl

@[simp] theorem putchar_diffopt (w : World) (c : Char) : (w.putchar c).diffopt = w.diffopt := rfl

@[simp] theorem putchar_log (w : World) (c : Char) : (w.putchar c).log = w.log := rfl

@[simp] theorem putchar_commits (w : World) (c : Char) : (w.putchar c).commits = w.commits := rfl

@[simp] theorem putchar_queue (w : World) (c : Char) : (w.putchar c).queue = w.queue := rfl

@[simp] theorem putchar_trace (w : World) (c : Char) : (w.putchar c).trace = w.trace := rfl

theorem log_write_email_headers_isSome (E : Env) (w : World) (name : String)
    (h : w.opt.total < 2 ^ 31) : (log_write_email_headers E w name).isSome := by
  unfold log_write_email_headers
  simp only
  by_cases ht : w.opt.total > 0
  · have hd := digits_in_number_isSome w.opt.total.toNat (by omega)
    obtain ⟨d, hd⟩ := Option.isSome_iff_exists.mp hd
    simp only [ht, if_true, hd, Option.map_some']
    split <;> rfl
  · simp only [ht, if_false]
    split_ifs <;> simp only <;> split <;> rfl

theorem log_write_email_headers_eq (E : Env) (w : World) (name : String)
    (r : World × Option String × Option String × Int)
    (h : log_write_email_headers E w name = some r) :
    ∃ ss t, r.1 = { w with diffopt := { w.diffopt with stat_sep := ss }, out := w.out ++ t } := by
  unfold log_write_email_headers at h
  simp only at h
  split at h
  · simp at h
  · split at h <;> simp only [Option.some.injEq] at h <;> rw [← h]
    · exact ⟨_, _, rfl⟩
    · exact ⟨w.diffopt.stat_sep, _, rfl⟩

theorem show_log_spec (E : Env) (w w' : World) (sep : String)
    (h : show_log E w sep = some w') : w.loginfo = true ∧ Shown w w' := by
  unfold show_log at h
  by_cases hl : w.loginfo = true
  swap
  · simp [hl] at h
  refine ⟨hl, ?_⟩
  simp only [hl, Bool.not_true, Bool.false_eq_true, if_false, World.note, World.print,
    World.putchar] at h
  by_cases hv : w.opt.verbose_header = true
  swap
  · simp only [hv, Bool.not_false, if_true, Option.some.injEq, String.append_assoc] at h
    exact ⟨w.shown_one, w.diffopt.stat_sep, _, h.symm⟩
  simp only [hv, Bool.not_true, Bool.false_eq_true, if_false] at h
  by_cases he : w.opt.commit_format = CmitFmt.EMAIL
  · simp only [he, if_true] at h
    split at h
    · simp at h
    · rename_i w1 subject eh n8 heq
      simp only [Option.some.injEq] at h
      obtain ⟨ss, t, hp⟩ := log_write_email_headers_eq E _ _ _ heq
      simp only at hp
      rw [hp] at h
      simp only [String.append_assoc] at h
      exact ⟨true, ss, _, h.symm⟩
  · simp only [he, if_false] at h
    by_cases hu : w.opt.commit_format = CmitFmt.USERFORMAT
    · simp only [hu, ne_eq, not_true_eq_false, if_false, Option.some.injEq,
        String.append_assoc] at h
      exact ⟨true, w.diffopt.stat_sep, _, h.symm⟩
    · simp only [hu, ne_eq, not_false_eq_true, if_true] at h
      cases hr : w.opt.reflog_info with
      | none =>
        simp only [hr, Option.some.injEq, String.append_assoc] at h
        exact ⟨true, w.diffopt.stat_sep, _, h.symm⟩
      | some info =>
        simp only [hr] at h
        split_ifs at h with ho <;> simp only [Option.some.injEq, String.append_assoc] at h <;>
          exact ⟨true, w.diffopt.stat_sep, _, h.symm⟩

theorem show_log_isSome (E : Env) (w : World) (sep : String) (hl : w.loginfo = true)
    (ht : w.opt.total < 2 ^ 31) : (show_log E w sep).isSome := by
  unfold show_log
  simp only [hl, Bool.not_true, Bool.false_eq_true, if_false, World.note, World.print,
    World.putchar]
  by_cases hv : w.opt.verbose_header = true
  swap
  · simp only [hv, Bool.not_false, if_true, Option.isSome_some]
  simp only [hv, Bool.not_true, Bool.false_eq_true, if_false]
  by_cases he : w.opt.commit_format = CmitFmt.EMAIL
  · simp only [he, if_true]
    obtain ⟨a, ha⟩ := Option.isSome_iff_exists.mp (log_write_email_headers_isSome E
      { w with
        loginfo := false, shown_one := true,
        out := w.out ++
          (if w.shown_one = true ∧ (!w.opt.use_terminator) = true then
            String.singleton w.diffopt.line_termination
          else ""),
        trace := w.trace ++ [Event.show_log w.log.commit w.log.parent] }
      (E.sha1_to_hex (w.commits w.log.commit).sha1) ht)
    rw [ha]
    rfl
  · simp only [he, if_false]
    by_cases hu : w.opt.commit_format = CmitFmt.USERFORMAT
    · simp only [hu, ne_eq, not_true_eq_false, if_false, Option.isSome_some]
    · simp only [hu, ne_eq, not_false_eq_true, if_true]
      cases hr : w.opt.reflog_info with
      | none => rfl
      | some info =>
        simp only
        split_ifs <;> rfl

/-- What `log_tree_diff_flush` does to the world: it empties the queue, records the flush and,
before it, at most one entry into `show_log`, which clears `opt->loginfo`. -/
theorem log_tree_diff_flush_spec (E : Env) (w : World) (r : Bool × World)
    (h : log_tree_diff_flush E w = some r) :
    Flushed w r.2 ∨ (w.loginfo = true ∧ w.opt.no_commit_id = false ∧ r.1 = true ∧
      FlushedShown w r.2) := by
  unfold log_tree_diff_flush at h
  simp only at h
  split_ifs at h with hq hs
  · simp only [Option.some.injEq, diff_flush, World.note, World.print] at h
    left
    rw [← h]
    exact ⟨_, rfl⟩
  · cases hsl : show_log E { w with queue := E.diffcore_std w.diffopt w.queue }
        w.diffopt.msg_sep with
    | none => rw [hsl] at h; simp at h
    | some w1 =>
      rw [hsl] at h
      obtain ⟨hl, so, ss, t, hw1⟩ := show_log_spec E _ _ _ hsl
      simp only at hl
      simp only [Option.map_some', Option.some.injEq] at h
      right
      refine ⟨hl, by simpa using hs.2, by rw [← h], ?_⟩
      rw [← h]
      simp only [hw1]
      split_ifs <;>
        simp only [diff_flush, World.note, World.print, World.putchar, String.append_assoc,
          List.append_assoc, List.singleton_append] <;>
        exact ⟨_, _, _, rfl⟩
  · simp only [Option.map_some', Option.some.injEq, diff_flush, World.note, World.print] at h
    left
    rw [← h]
    exact ⟨_, rfl⟩

theorem log_tree_diff_flush_isSome (E : Env) (w : World) (ht : w.opt.total < 2 ^ 31) :
    (log_tree_diff_flush E w).isSome := by
  unfold log_tree_diff_flush
  simp only
  split_ifs with hq hs
  · rfl
  · obtain ⟨a, ha⟩ := Option.isSome_iff_exists.mp
      (show_log_isSome E { w with queue := E.diffcore_std w.diffopt w.queue } w.diffopt.msg_sep
        hs.1 ht)
    rw [ha]
    rfl
  · rfl

theorem one_sided_congr (w w' : World) (sha1 : Sha) (dp : Option Nat) (p : Nat) (b : Bool)
    (hc : w'.commits = w.commits) (hl : w'.log.commit = w.log.commit) :
    one_sided w' sha1 dp p b = one_sided w sha1 dp p b := by
  simp only [one_sided, hc, hl]

theorem loop_events_congr (w w' : World) (sha1 : Sha)
    (hc : w'.commits = w.commits) (hl : w'.log.commit = w.log.commit) :
    ∀ (dp : Option Nat) (ps : List Nat) (bs : List Bool),
      loop_events w' sha1 dp ps bs = loop_events w sha1 dp ps bs := by
  intro dp ps
  induction ps generalizing dp with
  | nil => intro bs; simp [loop_events]
  | cons p ps ih =>
    intro bs
    cases bs with
    | nil => simp [loop_events]
    | cons b bs => simp only [loop_events, one_sided_congr w w' sha1 dp p b hc hl, ih]

/-- One round of the loop of `log_tree_diff`: the comparison with one parent and the flush. -/
theorem loop_round (E : Env) (w : World) (sha1 : Sha) (p : Nat) (r : Bool × World)
    (h : log_tree_diff_flush E (diff_tree_sha1 E w (w.commits p).sha1 sha1) = some r) :
    ∃ b, Walked w r.2 (one_sided w sha1 w.log.parent p b) ∧ r.2.log = w.log := by
  rcases log_tree_diff_flush_spec E _ r h with ⟨t, ht⟩ | ⟨_, _, _, so, ss, t, ht⟩
  · refine ⟨false, ⟨w.loginfo, w.shown_one, w.diffopt.stat_sep, w.log.parent, t, ?_⟩, ?_⟩
    · rw [ht]
      simp only [diff_tree_sha1, World.note, one_sided, Bool.false_eq_true, if_false,
        List.nil_append, List.append_assoc, List.singleton_append]
    · rw [ht]; rfl
  · refine ⟨true, ⟨false, so, ss, w.log.parent, t, ?_⟩, ?_⟩
    · rw [ht]
      simp only [diff_tree_sha1, World.note, one_sided, if_true, List.append_assoc,
        List.singleton_append, List.cons_append, List.nil_append]
    · rw [ht]; rfl

theorem Walked.trans_set {w w2 w' : World} {e1 e2 : List Event} (li : Bool) (lp : Option Nat)
    (h1 : Walked w w2 e1)
    (h2 : Walked { w2 with log := { w2.log with parent := lp }, loginfo := li } w' e2) :
    Walked w w' (e1 ++ e2) := by
  obtain ⟨li1, so1, ss1, lp1, t1, rfl⟩ := h1
  obtain ⟨li2, so2, ss2, lp2, t2, rfl⟩ := h2
  exact ⟨li2, so2, ss2, lp2, t1 ++ t2, by simp only [String.append_assoc, List.append_assoc]⟩

/-- The loop of `log_tree_diff` makes one one-sided diff for every parent, in list order. -/
theorem log_tree_diff_loop_spec (E : Env) (sha1 : Sha) (ps : List Nat) :
    ∀ (w : World) (showed : Bool) (r : Bool × World),
      log_tree_diff_loop E sha1 ps w showed = some r →
      ∃ shown : List Bool, shown.length = ps.length ∧
        Walked w r.2 (loop_events w sha1 w.log.parent ps shown) := by
  induction ps with
  | nil => intro w showed r h; simp [log_tree_diff_loop] at h
  | cons p rest ih =>
    intro w showed r h
    unfold log_tree_diff_loop at h
    simp only at h
    cases hf : log_tree_diff_flush E (diff_tree_sha1 E w (w.commits p).sha1 sha1) with
    | none => rw [hf] at h; simp at h
    | some r1 =>
      obtain ⟨b, hb, hlog⟩ := loop_round E w sha1 p r1 hf
      rw [hf] at h
      cases rest with
      | nil =>
        simp only [Option.some.injEq] at h
        refine ⟨[b], rfl, ?_⟩
        rw [← h]
        simpa [loop_events] using hb
      | cons next rest' =>
        simp only at h
        obtain ⟨bs, hlen, hw⟩ := ih _ _ _ h
        refine ⟨b :: bs, by simp [hlen], ?_⟩
        have hc : r1.2.commits = w.commits := by
          obtain ⟨_, _, _, _, _, e⟩ := hb; rw [e]
        have hl : r1.2.log.commit = w.log.commit := by rw [hlog]
        rw [loop_events_congr w
          { r1.2 with log := { r1.2.log with parent := some next }, loginfo := true } sha1 hc hl]
          at hw
        simp only [loop_events, List.head?_cons]
        exact Walked.trans_set true (some next) hb hw

theorem log_tree_diff_loop_isSome (E : Env) (sha1 : Sha) (ps : List Nat) (hne : ps ≠ []) :
    ∀ (w : World) (showed : Bool), w.opt.total < 2 ^ 31 →
      (log_tree_diff_loop E sha1 ps w showed).isSome := by
  induction ps with
  | nil => exact absurd rfl hne
  | cons p rest ih =>
    intro w showed ht
    unfold log_tree_diff_loop
    simp only
    obtain ⟨r1, hr1⟩ := Option.isSome_iff_exists.mp (log_tree_diff_flush_isSome E
      (diff_tree_sha1 E w (w.commits p).sha1 sha1) ht)
    rw [hr1]
    cases rest with
    | nil => rfl
    | cons next rest' =>
      simp only
      apply ih (by simp)
      obtain ⟨b, ⟨_, _, _, _, _, e⟩, _⟩ := loop_round E w sha1 p r1 hr1
      rw [e]
      exact ht

theorem loop_events_merge (w : World) (sha1 : Sha) :
    ∀ (ps : List Nat) (bs : List Bool), bs.length = ps.length →
      loop_events w sha1 ps.head? ps bs =
        (ps.zip bs).flatMap fun x => one_sided w sha1 (some x.1) x.1 x.2 := by
  intro ps
  induction ps with
  | nil => intro bs _; simp [loop_events]
  | cons p ps ih =>
    intro bs hlen
    cases bs with
    | nil => simp at hlen
    | cons b bs =>
      simp only [loop_events, List.head?_cons, List.zip_cons_cons, List.flatMap_cons]
      rw [ih bs (by simpa using hlen)]

theorem Stepped.refl (w : World) : Stepped w w [] :=
  ⟨w.loginfo, w.shown_one, w.diffopt.stat_sep, w.log.parent, w.queue, "", by simp⟩

theorem Walked.to_stepped {w w' : World} {evs : List Event} (h : Walked w w' evs) :
    Stepped w w' evs := by
  obtain ⟨li, so, ss, lp, t, e⟩ := h
  exact ⟨li, so, ss, lp, [], t, e⟩

theorem Stepped.commits {w w' : World} {evs : List Event} (h : Stepped w w' evs) :
    w'.commits = w.commits := by
  obtain ⟨_, _, _, _, _, _, e⟩ := h; rw [e]

theorem Stepped.opt {w w' : World} {evs : List Event} (h : Stepped w w' evs) :
    w'.opt = w.opt := by
  obtain ⟨_, _, _, _, _, _, e⟩ := h; rw [e]

theorem Stepped.trace {w w' : World} {evs : List Event} (h : Stepped w w' evs) :
    w'.trace = w.trace ++ evs := by
  obtain ⟨_, _, _, _, _, _, e⟩ := h; rw [e]

theorem Stepped.log_commit {w w' : World} {evs : List Event} (h : Stepped w w' evs) :
    w'.log.commit = w.log.commit := by
  obtain ⟨_, _, _, _, _, _, e⟩ := h; rw [e]

theorem root_round (E : Env) (w : World) (sha1 : Sha) (r : Bool × World)
    (h : log_tree_diff_flush E (diff_root_tree_sha1 E w sha1) = some r) :
    ∃ b, Stepped w r.2 (root_events w sha1 b) ∧ r.2.log = w.log := by
  rcases log_tree_diff_flush_spec E _ r h with ⟨t, ht⟩ | ⟨_, _, _, so, ss, t, ht⟩
  · refine ⟨false, ⟨w.loginfo, w.shown_one, w.diffopt.stat_sep, w.log.parent, [], t, ?_⟩, ?_⟩
    · rw [ht]
      simp only [diff_root_tree_sha1, World.note, root_events, Bool.false_eq_true, if_false,
        List.nil_append, List.append_assoc, List.singleton_append]
    · rw [ht]; rfl
  · refine ⟨true, ⟨false, so, ss, w.log.parent, [], t, ?_⟩, ?_⟩
    · rw [ht]
      simp only [diff_root_tree_sha1, World.note, root_events, if_true, List.append_assoc,
        List.singleton_append, List.cons_append, List.nil_append]
    · rw [ht]; rfl
theorem do_diff_combined_spec (E : Env) (w : World) (commit : Nat) (r : Bool × World)
    (h : do_diff_combined E w commit = some r) :
    ∃ b, Stepped w r.2 (combined_events w (w.commits commit).sha1 b) ∧ r.2.log = w.log ∧
      (w.loginfo = true → r.1 = b) ∧
      b = (E.combined_show_log w (E.diff_combined (w.commits commit).sha1
        w.opt.dense_combined_merges w.diffopt)).isSome ∧
      r.2.loginfo = !r.1 := by
  unfold do_diff_combined diff_tree_combined_merge at h
  simp only [World.note] at h
  cases hch : E.combined_show_log w (E.diff_combined (w.commits commit).sha1
      w.opt.dense_combined_merges w.diffopt) with
  | none =>
    simp only [hch, Option.map_some', Option.some.injEq] at h
    refine ⟨false, ?_, ?_, ?_, rfl, ?_⟩
    · rw [← h]
      simp only [combined_events, Bool.false_eq_true, if_false, World.print]
      exact ⟨w.loginfo, w.shown_one, w.diffopt.stat_sep, w.log.parent, w.queue, _, rfl⟩
    · rw [← h]; rfl
    · intro hl
      rw [← h]
      simp [World.print, hl]
    · rw [← h]
      simp [World.print]
  | some sep =>
    simp only [hch] at h
    cases hsl : show_log E
        { w with trace := w.trace ++
            [Event.diff_tree_combined_merge (w.commits commit).sha1
              w.opt.dense_combined_merges] } sep with
    | none => rw [hsl] at h; simp at h
    | some w1 =>
      rw [hsl] at h
      obtain ⟨_, so, ss, t, hw1⟩ := show_log_spec E _ _ _ hsl
      simp only [Option.map_some', Option.some.injEq] at h
      simp only at hw1
      refine ⟨true, ?_, ?_, ?_, rfl, ?_⟩
      · rw [← h, hw1]
        simp only [World.print, String.append_assoc, combined_events, if_true,
          List.append_assoc, List.singleton_append]
        exact ⟨false, so, ss, w.log.parent, w.queue, _, rfl⟩
      · rw [← h, hw1]; rfl
      · intro _
        rw [← h, hw1]
        simp [World.print]
      · rw [← h, hw1]
        simp [World.print]

theorem do_diff_combined_isSome (E : Env) (w : World) (commit : Nat)
    (hl : w.loginfo = true) (ht : w.opt.total < 2 ^ 31) :
    (do_diff_combined E w commit).isSome := by
  unfold do_diff_combined diff_tree_combined_merge
  simp only [World.note]
  cases hch : E.combined_show_log w (E.diff_combined (w.commits commit).sha1
      w.opt.dense_combined_merges w.diffopt) with
  | none => rfl
  | some sep =>
    obtain ⟨a, ha⟩ := Option.isSome_iff_exists.mp (show_log_isSome E
      { w with trace := w.trace ++
          [Event.diff_tree_combined_merge (w.commits commit).sha1 w.opt.dense_combined_merges] }
      sep hl ht)
    simp only [ha]
    rfl

/-- The calls `log_tree_diff` makes, case by case, and what it leaves of the world. -/
theorem log_tree_diff_cases (E : Env) (w : World) (c : Nat) (r : Bool × World)
    (h : log_tree_diff E w c = some r) :
    ∃ evs, Stepped w r.2 evs ∧
      ((w.opt.diff = false ∧ evs = [] ∧ r.2.log = w.log) ∨
       (w.opt.diff = true ∧ (w.commits c).parents = [] ∧ r.2.log = w.log ∧
          (evs = [] ∨ ∃ b, evs = root_events w (w.commits c).sha1 b)) ∨
       (w.opt.diff = true ∧ r.2.log = w.log ∧
          ∃ p b, (w.commits c).parents = [p] ∧
            evs = one_sided w (w.commits c).sha1 w.log.parent p b) ∨
       (w.opt.diff = true ∧ 2 ≤ (w.commits c).parents.length ∧ w.opt.ignore_merges = true ∧
          evs = [] ∧ r.2.log = w.log) ∨
       (w.opt.diff = true ∧ 2 ≤ (w.commits c).parents.length ∧ w.opt.ignore_merges = false ∧
          w.opt.combine_merges = true ∧ r.2.log = w.log ∧
          ∃ b, evs = combined_events w (w.commits c).sha1 b) ∨
       (w.opt.diff = true ∧ 2 ≤ (w.commits c).parents.length ∧ w.opt.ignore_merges = false ∧
          w.opt.combine_merges = false ∧
          ∃ bs : List Bool, bs.length = (w.commits c).parents.length ∧
            evs = ((w.commits c).parents.zip bs).flatMap
              fun x => one_sided w (w.commits c).sha1 (some x.1) x.1 x.2)) := by
  unfold log_tree_diff at h
  by_cases hd : w.opt.diff = true
  swap
  · simp only [hd, Bool.not_false, if_true, Option.some.injEq, Bool.false_eq_true] at h
    refine ⟨[], ?_, Or.inl ⟨by simpa using hd, rfl, by rw [← h]⟩⟩
    rw [← h]; exact Stepped.refl w
  simp only [hd, Bool.not_true, Bool.false_eq_true, if_false] at h
  cases hp : (w.commits c).parents with
  | nil =>
    simp only [hp] at h
    split_ifs at h with hs
    · cases hf : log_tree_diff_flush E (diff_root_tree_sha1 E w (w.commits c).sha1) with
      | none => rw [hf] at h; simp at h
      | some r1 =>
        rw [hf] at h
        simp only [Option.map_some', Option.some.injEq] at h
        obtain ⟨b, hb, hlog⟩ := root_round E w _ r1 hf
        rw [← h]
        exact ⟨_, hb, Or.inr (Or.inl ⟨hd, rfl, hlog, Or.inr ⟨b, rfl⟩⟩)⟩
    · simp only [Option.some.injEq] at h
      rw [← h]
      exact ⟨[], Stepped.refl w, Or.inr (Or.inl ⟨hd, rfl, rfl, Or.inl rfl⟩)⟩
  | cons p rest =>
    cases rest with
    | nil =>
      simp only [hp] at h
      unfold log_tree_diff_loop at h
      simp only at h
      cases hf : log_tree_diff_flush E (diff_tree_sha1 E w (w.commits p).sha1 (w.commits c).sha1)
        with
      | none => rw [hf] at h; simp at h
      | some r1 =>
        rw [hf] at h
        simp only [Option.some.injEq] at h
        obtain ⟨b, hb, hlog⟩ := loop_round E w _ p r1 hf
        rw [← h]
        exact ⟨_, hb.to_stepped, Or.inr (Or.inr (Or.inl ⟨hd, hlog, p, b, rfl, rfl⟩))⟩
    | cons next rest' =>
      simp only [hp] at h
      have hlen : 2 ≤ (p :: next :: rest').length := by simp
      by_cases hi : w.opt.ignore_merges = true
      · simp only [hi, if_true, Option.some.injEq] at h
        rw [← h]
        exact ⟨[], Stepped.refl w, Or.inr (Or.inr (Or.inr (Or.inl ⟨hd, hlen, hi, rfl, rfl⟩)))⟩
      · simp only [hi, Bool.false_eq_true, if_false] at h
        have hi' : w.opt.ignore_merges = false := by simpa using hi
        by_cases hc : w.opt.combine_merges = true
        · simp only [hc, if_true] at h
          obtain ⟨b, hb, hlog, _⟩ := do_diff_combined_spec E w c r h
          exact ⟨_, hb, Or.inr (Or.inr (Or.inr (Or.inr (Or.inl
            ⟨hd, hlen, hi', hc, hlog, b, rfl⟩))))⟩
        · simp only [hc, Bool.false_eq_true, if_false] at h
          have hc' : w.opt.combine_merges = false := by simpa using hc
          obtain ⟨bs, hbs, hw⟩ := log_tree_diff_loop_spec E _ _ _ _ _ h
          simp only at hw
          rw [loop_events_congr w { w with log := { w.log with parent := some p } } _ rfl rfl]
            at hw
          have hm := loop_events_merge w (w.commits c).sha1 (p :: next :: rest') bs hbs
          simp only [List.head?_cons] at hm
          rw [hm] at hw
          refine ⟨_, ?_, Or.inr (Or.inr (Or.inr (Or.inr (Or.inr
            ⟨hd, hlen, hi', hc', bs, hbs, rfl⟩))))⟩
          obtain ⟨li, so, ss, lp, t, e⟩ := hw
          exact ⟨li, so, ss, lp, [], t, e⟩

theorem log_tree_diff_isSome (E : Env) (w : World) (c : Nat)
    (hl : w.loginfo = true ∨ w.opt.combine_merges = false) (ht : w.opt.total < 2 ^ 31) :
    (log_tree_diff E w c).isSome := by
  unfold log_tree_diff
  by_cases hd : w.opt.diff = true
  swap
  · simp only [hd, Bool.not_false, if_true, Option.isSome_some]
  simp only [hd, Bool.not_true, Bool.false_eq_true, if_false]
  cases hp : (w.commits c).parents with
  | nil =>
    simp only
    split_ifs with hs
    · obtain ⟨r1, hr1⟩ := Option.isSome_iff_exists.mp (log_tree_diff_flush_isSome E
        (diff_root_tree_sha1 E w (w.commits c).sha1) ht)
      rw [hr1]; rfl
    · rfl
  | cons p rest =>
    cases rest with
    | nil => exact log_tree_diff_loop_isSome E _ [p] (by simp) w false ht
    | cons next rest' =>
      simp only
      split_ifs with hi hc
      · rfl
      · rcases hl with hl | hl
        · exact do_diff_combined_isSome E w c hl ht
        · rw [hl] at hc; cases hc
      · exact log_tree_diff_loop_isSome E _ _ (by simp) _ false ht

theorem Stepped.trans {a b c : World} {e1 e2 : List Event} (h1 : Stepped a b e1)
    (h2 : Stepped b c e2) : Stepped a c (e1 ++ e2) := by
  obtain ⟨li1, so1, ss1, lp1, q1, t1, rfl⟩ := h1
  obtain ⟨li2, so2, ss2, lp2, q2, t2, rfl⟩ := h2
  exact ⟨li2, so2, ss2, lp2, q2, t1 ++ t2, by simp only [String.append_assoc, List.append_assoc]⟩

theorem Shown.shown_stepped {w w' : World} (h : Shown w w') :
    Stepped w w' [Event.show_log w.log.commit w.log.parent] := by
  obtain ⟨so, ss, t, e⟩ := h
  exact ⟨false, so, ss, w.log.parent, w.queue, t, e⟩

/-- What `log_tree_commit` does: `log_tree_diff` on the commit with the display parent absent,
and then at most one more entry into `show_log`, again with the display parent absent. -/
theorem log_tree_commit_spec (E : Env) (w : World) (c : Nat) (r : Bool × World)
    (h : log_tree_commit E w c = some r) :
    ∃ r1 evs, log_tree_diff E { w with log := { commit := c, parent := none }, loginfo := true } c
        = some r1 ∧
      r.2.log.commit = c ∧
      ((evs = [] ∧ r.2.log = r1.2.log) ∨
        (evs = [Event.show_log c none] ∧ r1.1 = false ∧ r1.2.loginfo = true ∧
          r.2.log.parent = none)) ∧
      Stepped r1.2 r.2 evs := by
  unfold log_tree_commit at h
  simp only at h
  cases hd : log_tree_diff E { w with log := { commit := c, parent := none }, loginfo := true } c
    with
  | none => rw [hd] at h; simp at h
  | some r1 =>
    rw [hd] at h
    obtain ⟨evs1, hs1, _⟩ := log_tree_diff_cases E _ c r1 hd
    have hlc : r1.2.log.commit = c := hs1.log_commit
    simp only at h
    split_ifs at h with hx
    · cases hsl : show_log E { r1.2 with log := { r1.2.log with parent := none } } "" with
      | none => rw [hsl] at h; simp at h
      | some w2 =>
        rw [hsl] at h
        simp only [Option.map_some', Option.some.injEq] at h
        obtain ⟨_, so, ss, t, hw2⟩ := show_log_spec E _ _ _ hsl
        simp only at hw2
        refine ⟨r1, [Event.show_log c none], rfl, ?_,
          Or.inr ⟨rfl, by simpa using hx.1, hx.2.1, by rw [← h, hw2]⟩, ?_⟩
        · rw [← h, hw2]; exact hlc
        · have hst : Stepped r1.2 r.2 [Event.show_log r1.2.log.commit none] := by
            rw [← h, hw2]
            exact ⟨false, so, ss, none, r1.2.queue, t, rfl⟩
          rw [hlc] at hst
          exact hst
    · simp only [Option.map_some', Option.some.injEq] at h
      refine ⟨r1, [], rfl, ?_, Or.inl ⟨rfl, by rw [← h]⟩, ?_⟩
      · rw [← h]; exact hlc
      · rw [← h]
        exact ⟨false, r1.2.shown_one, r1.2.diffopt.stat_sep, r1.2.log.parent, r1.2.queue, "",
          by simp⟩

theorem log_tree_commit_isSome (E : Env) (w : World) (c : Nat) (ht : w.opt.total < 2 ^ 31) :
    (log_tree_commit E w c).isSome := by
  unfold log_tree_commit
  simp only
  obtain ⟨r1, hr1⟩ := Option.isSome_iff_exists.mp (log_tree_diff_isSome E
    { w with log := { commit := c, parent := none }, loginfo := true } c (Or.inl rfl) ht)
  rw [hr1]
  obtain ⟨evs1, hs1, _⟩ := log_tree_diff_cases E _ c r1 hr1
  simp only
  split_ifs with hx
  · obtain ⟨w2, hw2⟩ := Option.isSome_iff_exists.mp (show_log_isSome E
      { r1.2 with log := { r1.2.log with parent := none } } "" hx.2.1
      (by rw [show ({ r1.2 with log := { r1.2.log with parent := none } } : World).opt = r1.2.opt
            from rfl, hs1.opt]; exact ht))
    rw [hw2]; rfl
  · rfl

/-- What `log_tree_commit` returns and records after `log_tree_diff`: the log header is shown
once more, with the display parent absent, exactly when `log_tree_diff` has not shown it and
`always_show_header` is set. -/
theorem log_tree_commit_shown (E : Env) (w : World) (c : Nat) (r : Bool × World)
    (h : log_tree_commit E w c = some r) :
    ∃ r1, log_tree_diff E { w with log := { commit := c, parent := none }, loginfo := true } c
        = some r1 ∧
      r.1 = (r1.1 || (r1.2.loginfo && w.opt.always_show_header)) ∧
      r.2.trace = r1.2.trace ++
        (if r1.1 = false ∧ r1.2.loginfo = true ∧ w.opt.always_show_header = true
          then [Event.show_log c none] else []) := by
  unfold log_tree_commit at h
  simp only at h
  cases hd : log_tree_diff E { w with log := { commit := c, parent := none }, loginfo := true } c
    with
  | none => rw [hd] at h; simp at h
  | some r1 =>
    rw [hd] at h
    obtain ⟨evs1, hs1, _⟩ := log_tree_diff_cases E _ c r1 hd
    have hlc : r1.2.log.commit = c := hs1.log_commit
    have hopt : r1.2.opt = w.opt := hs1.opt
    simp only at h
    refine ⟨r1, rfl, ?_⟩
    split_ifs at h with hx
    · cases hsl : show_log E { r1.2 with log := { r1.2.log with parent := none } } "" with
      | none => rw [hsl] at h; simp at h
      | some w2 =>
        rw [hsl] at h
        simp only [Option.map_some', Option.some.injEq] at h
        obtain ⟨_, so, ss, t, hw2⟩ := show_log_spec E _ _ _ hsl
        simp only at hw2
        have h1 : r1.1 = false := by simpa using hx.1
        have h3 : w.opt.always_show_header = true := by rw [← hopt]; exact hx.2.2
        constructor
        · rw [← h, h1, hx.2.1, h3]; rfl
        · rw [← h, hw2, if_pos ⟨h1, hx.2.1, h3⟩, hlc]
    · simp only [Option.map_some', Option.some.injEq] at h
      have hx' : ¬(r1.1 = false ∧ r1.2.loginfo = true ∧ w.opt.always_show_header = true) := by
        rintro ⟨a, b, d⟩
        exact hx ⟨by simp [a], b, by rw [hopt]; exact d⟩
      constructor
      · rw [← h]
        cases h1 : r1.1
        · cases h2 : r1.2.loginfo
          · rfl
          · cases h3 : w.opt.always_show_header
            · rfl
            · exact absurd ⟨h1, h2, h3⟩ hx'
        · rfl
      · rw [← h, if_neg hx', List.append_nil]

/-- C6 as stated fails: with `combine_merges` and `ignore_merges` both set, and likewise with
`combine_merges` set and diff output off, `log_tree_commit` on the merge 3 returns 0 without any
call of `diff_tree_combined_merge` and without showing anything; and with `combine_merges` set,
diff output on and `ignore_merges` off, where the combined diff is called once, nothing is shown
when the combined diff does not show the log message and `always_show_header` is not set. -/
theorem log_tree_commit_combined_counterexample :
    (example_world_ignoring.opt.combine_merges = true ∧
      2 ≤ (example_world_ignoring.commits 3).parents.length ∧
      (log_tree_commit example_env example_world_ignoring 3).map
        (fun r => (r.1, r.2.trace, r.2.out)) = some (false, [], "")) ∧
    (example_world_nodiff.opt.combine_merges = true ∧
      2 ≤ (example_world_nodiff.commits 3).parents.length ∧
      (log_tree_commit example_env example_world_nodiff 3).map
        (fun r => (r.1, r.2.trace, r.2.out)) = some (false, [], "")) ∧
    (example_world_combining.opt.combine_merges = true ∧
      example_world_combining.opt.diff = true ∧
      example_world_combining.opt.ignore_merges = false ∧
      2 ≤ (example_world_combining.commits 3).parents.length ∧
      (log_tree_commit example_env_unchanged example_world_combining 3).map
        (fun r => (r.1, r.2.trace, r.2.out))
          = some (false, [Event.diff_tree_combined_merge 3 false], "")) := by
  decide

/-- C6, amended: when `combine_merges` is set, diff output is on and `ignore_merges` is not set,
`log_tree_commit` on a commit with two or more parents returns, having called
`diff_tree_combined_merge` exactly once, for that commit, first of all, and having made no
one-sided diff; it shows the log header exactly once, with the display parent absent, when the
combined diff shows it or `always_show_header` is set, and not at all otherwise; and it returns
true exactly when the header was shown. -/
theorem log_tree_commit_combined (E : Env) (w : World) (c : Nat)
    (hd : w.opt.diff = true) (hi : w.opt.ignore_merges = false)
    (hc : w.opt.combine_merges = true) (hn : 2 ≤ (w.commits c).parents.length)
    (ht : w.opt.total < 2 ^ 31) :
    ∃ r, log_tree_commit E w c = some r ∧
      r.2.trace = w.trace ++
        Event.diff_tree_combined_merge (w.commits c).sha1 w.opt.dense_combined_merges ::
          (if (E.combined_show_log
                { w with log := { commit := c, parent := none }, loginfo := true }
                (E.diff_combined (w.commits c).sha1 w.opt.dense_combined_merges
                  w.diffopt)).isSome = true ∨ w.opt.always_show_header = true
            then [Event.show_log c none] else []) ∧
      r.1 = ((E.combined_show_log
                { w with log := { commit := c, parent := none }, loginfo := true }
                (E.diff_combined (w.commits c).sha1 w.opt.dense_combined_merges
                  w.diffopt)).isSome || w.opt.always_show_header) := by
  obtain ⟨r, hr⟩ := Option.isSome_iff_exists.mp (log_tree_commit_isSome E w c ht)
  obtain ⟨r1, hr1, hret, htr⟩ := log_tree_commit_shown E w c r hr
  have hcomb : log_tree_diff E { w with log := { commit := c, parent := none }, loginfo := true }
      c = do_diff_combined E { w with log := { commit := c, parent := none }, loginfo := true }
        c := by
    unfold log_tree_diff
    simp only [hd, Bool.not_true, Bool.false_eq_true, if_false]
    cases hp : (w.commits c).parents with
    | nil => rw [hp] at hn; simp at hn
    | cons p rest =>
      cases rest with
      | nil => rw [hp] at hn; simp at hn
      | cons next rest' => simp only [hi, hc, Bool.false_eq_true, if_false, if_true]
  rw [hcomb] at hr1
  obtain ⟨b, hs, _, hb, hch, hli⟩ := do_diff_combined_spec E _ c r1 hr1
  have hb1 : r1.1 = b := hb rfl
  simp only at hch
  refine ⟨r, hr, ?_, ?_⟩
  · rw [htr, hs.trace, ← hch, hli, hb1]
    cases b <;> cases w.opt.always_show_header <;> simp [combined_events]
  · rw [hret, hli, hb1, ← hch]
    cases b <;> cases w.opt.always_show_header <;> rfl

/-- C6, amended, on an example: the merge 3 with `combine_merges` set, where the combined diff
shows the log header. -/
theorem log_tree_commit_combined_witness :
    example_world_combining.opt.diff = true ∧
    example_world_combining.opt.ignore_merges = false ∧
    example_world_combining.opt.combine_merges = true ∧
    2 ≤ (example_world_combining.commits 3).parents.length ∧
    example_world_combining.opt.total < 2 ^ 31 ∧
    ∃ r, log_tree_commit example_env example_world_combining 3 = some r ∧
      r.2.trace = example_world_combining.trace ++
        Event.diff_tree_combined_merge (example_world_combining.commits 3).sha1
            example_world_combining.opt.dense_combined_merges ::
          (if (example_env.combined_show_log
                { example_world_combining with
                  log := { commit := 3, parent := none }, loginfo := true }
                (example_env.diff_combined (example_world_combining.commits 3).sha1
                  example_world_combining.opt.dense_combined_merges
                  example_world_combining.diffopt)).isSome = true ∨
              example_world_combining.opt.always_show_header = true
            then [Event.show_log 3 none] else []) ∧
      r.1 = ((example_env.combined_show_log
                { example_world_combining with
                  log := { commit := 3, parent := none }, loginfo := true }
                (example_env.diff_combined (example_world_combining.commits 3).sha1
                  example_world_combining.opt.dense_combined_merges
                  example_world_combining.diffopt)).isSome ||
              example_world_combining.opt.always_show_header) :=
  ⟨rfl, rfl, rfl, by decide, by decide,
    log_tree_commit_combined example_env example_world_combining 3 rfl rfl rfl (by decide)
      (by decide)⟩

/-- C7: `show_log` and `log_tree_commit` leave the object store as it is, so the flags of the
commit, of its parents and of every other commit are after the call what they were before; and
both return for every `total` in the range of an `int` (`show_log` when `opt->loginfo` is
set). -/
theorem presentation_keeps_flags (E : Env) (w : World) (sep : String) (c : Nat) :
    (∀ w', show_log E w sep = some w' →
      w'.commits = w.commits ∧ ∀ i, (w'.commits i).flags = (w.commits i).flags) ∧
    (∀ r, log_tree_commit E w c = some r →
      r.2.commits = w.commits ∧ ∀ i, (r.2.commits i).flags = (w.commits i).flags) ∧
    (w.loginfo = true → w.opt.total < 2 ^ 31 → (show_log E w sep).isSome) ∧
    (w.opt.total < 2 ^ 31 → (log_tree_commit E w c).isSome) := by
  refine ⟨?_, ?_, fun hl ht => show_log_isSome E w sep hl ht,
    fun ht => log_tree_commit_isSome E w c ht⟩
  · intro w' h
    have hc : w'.commits = w.commits := (show_log_spec E w w' sep h).2.shown_stepped.commits
    exact ⟨hc, fun i => by rw [hc]⟩
  · intro r h
    obtain ⟨r1, evs2, hr1, _, _, hs2⟩ := log_tree_commit_spec E w c r h
    obtain ⟨evs1, hs1, _⟩ := log_tree_diff_cases E _ c r1 hr1
    have hc : r.2.commits = w.commits := by rw [hs2.commits, hs1.commits]
    exact ⟨hc, fun i => by rw [hc]⟩

/-- C7, on an example: the flags of the boundary commit 2 and of the merge 3 after they were
shown. -/
theorem presentation_keeps_flags_witness :
    (∃ w', show_log example_env example_world "" = some w' ∧
      (w'.commits 2).flags = (example_world.commits 2).flags) ∧
    (∃ r, log_tree_commit example_env example_world 3 = some r ∧
      ∀ i, (r.2.commits i).flags = (example_world.commits i).flags) := by
  obtain ⟨w', hw'⟩ := Option.isSome_iff_exists.mp
    ((presentation_keeps_flags example_env example_world "" 3).2.2.1 rfl (by decide))
  obtain ⟨r, hr⟩ := Option.isSome_iff_exists.mp
    ((presentation_keeps_flags example_env example_world "" 3).2.2.2 (by decide))
  exact ⟨⟨w', hw', ((presentation_keeps_flags example_env example_world "" 3).1 w' hw').2 2⟩,
    ⟨r, hr, ((presentation_keeps_flags example_env example_world "" 3).2.1 r hr).2⟩⟩

/-- C8: `show_log` prints one marker for the range status of the commit, the one the
specification describes (`range_marker`): the short header prints it right before the
abbreviated object name, and the verbose header of the formats other than email and userformat
prints the same marker, after the word `commit` and right before the abbreviated object name. -/
theorem show_log_range_marker (E : Env) (w : World) (sep : String) (hl : w.loginfo = true) :
    (w.opt.verbose_header = false →
      ∃ w', show_log E w sep = some w' ∧
        w'.out = w.out ++
          (range_marker (w.commits w.log.commit).flags w.opt.left_right ++
            (E.diff_unique_abbrev (w.commits w.log.commit).sha1
                (if w.opt.abbrev_commit then (w.opt.abbrev_len : Int) else 40) ++
              ((if w.opt.parents then
                  show_parents E w.commits w.log.commit
                    (if w.opt.abbrev_commit then (w.opt.abbrev_len : Int) else 40)
                else "") ++
                (show_decorations E w.log.commit ++
                  String.singleton w.diffopt.line_termination))))) ∧
    (w.opt.verbose_header = true → w.opt.commit_format ≠ CmitFmt.EMAIL →
      w.opt.commit_format ≠ CmitFmt.USERFORMAT →
      ∃ w' rest, show_log E w sep = some w' ∧
        w'.out = w.out ++
          ((if w.shown_one ∧ !w.opt.use_terminator then
              String.singleton w.diffopt.line_termination else "") ++
            (E.diff_get_color_opt w.diffopt true ++
              ((if w.opt.commit_format ≠ CmitFmt.ONELINE then "commit " else "") ++
                (range_marker (w.commits w.log.commit).flags w.opt.left_right ++
                  (E.diff_unique_abbrev (w.commits w.log.commit).sha1
                      (if w.opt.abbrev_commit then (w.opt.abbrev_len : Int) else 40) ++
                    rest)))))) := by
  constructor
  · intro hv
    unfold show_log
    simp only [hl, hv, Bool.not_true, Bool.not_false, Bool.false_eq_true, if_false, if_true,
      World.note, World.print, World.putchar, String.append_assoc, range_marker]
    exact ⟨_, rfl, rfl⟩
  · intro hv he hu
    unfold show_log
    simp only [hl, hv, he, hu, Bool.not_true, Bool.false_eq_true, if_false, ne_eq,
      not_false_eq_true, if_true, World.note, World.print, World.putchar, String.append_assoc,
      range_marker]
    cases hr : w.opt.reflog_info with
    | none => exact ⟨_, _, rfl, rfl⟩
    | some info =>
      simp only
      split_ifs <;> exact ⟨_, _, rfl, rfl⟩

/-- C8, on an example: commit 2 is both a boundary and uninteresting, and its marker is `-`. -/
theorem show_log_range_marker_witness :
    ∃ w', show_log example_env example_world "" = some w' ∧ w'.out = "-c\n" :=
  (show_log_range_marker example_env example_world "" rfl).1 rfl

end LogTree

namespace FmtMergeMsg
open Revision

theorem mask_eq : UNINTERESTING ||| TREESAME ||| SEEN ||| SHOWN ||| ADDED = 143 := by decide

end FmtMergeMsg

namespace LogTree
open Revision

/-- C19 fails on the code: `detect_any_signoff` takes a last line without a space after the
colon for a sign-off though the pattern does not match it, and it rejects a last line whose name
part holds a colon though the pattern matches it. On an ordinary sign-off line both agree. -/
theorem detect_any_signoff_mismatch :
    (detect_any_signoff "subject\n\nCc:x@y\n".toList = true ∧
      signoff_pattern (last_line "subject\n\nCc:x@y\n".toList) = false) ∧
    (detect_any_signoff "subject\n\nNote: see a:b@c\n".toList = false ∧
      signoff_pattern (last_line "subject\n\nNote: see a:b@c\n".toList) = true) ∧
    (detect_any_signoff "subject\n\nSigned-off-by: A U Thor <a@b.c>\n".toList = true ∧
      signoff_pattern (last_line "subject\n\nSigned-off-by: A U Thor <a@b.c>\n".toList)
        = true) := by
  decide

end LogTree

namespace ArchiveTar

theorem stream_write_if_needed (t : Tar) : stream (write_if_needed t) = stream t := by
  unfold write_if_needed
  split_ifs with h
  · simp [stream, write_or_die, h]
  · rfl

theorem length_memcpy (dst : List Nat) (off : Nat) (src : List Nat)
    (h : off + src.length ≤ dst.length) : (memcpy dst off src).length = dst.length := by
  simp only [memcpy, List.length_append, List.length_take, List.length_drop]
  omega

theorem length_memset (dst : List Nat) (off c n : Nat) (h : off + n ≤ dst.length) :
    (memset dst off c n).length = dst.length := by
  simp only [memset, List.length_append, List.length_take, List.length_drop,
    List.length_replicate]
  omega

theorem take_memcpy (dst : List Nat) (off : Nat) (src : List Nat) (h : off ≤ dst.length) :
    (memcpy dst off src).take (off + src.length) = dst.take off ++ src := by
  have h1 : (dst.take off ++ src).length = off + src.length := by
    simp only [List.length_append, List.length_take]; omega
  unfold memcpy
  rw [← h1, List.take_left']
  rfl

theorem take_memset (dst : List Nat) (off c n : Nat) (h : off ≤ dst.length) :
    (memset dst off c n).take (off + n) = dst.take off ++ List.replicate n c := by
  have h1 : (dst.take off ++ List.replicate n c).length = off + n := by
    simp only [List.length_append, List.length_take, List.length_replicate]; omega
  unfold memset
  rw [← h1, List.take_left']
  rfl

/-- The loop of `write_blocked` ends within `size / BLOCKSIZE + 1` rounds; it writes whole
blocks of the data, in order, and leaves fewer than `BLOCKSIZE` bytes. -/
theorem write_blocked_loop_spec (data : List Nat) :
    ∀ (fuel : Nat) (t : Tar) (size pos : Nat), size / BLOCKSIZE < fuel →
      pos + size ≤ data.length →
      ∃ ws size', write_blocked_loop data fuel t size pos =
          some ({ t with written := t.written ++ ws }, size', pos + (size - size')) ∧
        (∀ w ∈ ws, w.length = BLOCKSIZE) ∧
        ws.flatten = (data.drop pos).take (size - size') ∧
        size' < BLOCKSIZE ∧ size' ≤ size ∧ (size < BLOCKSIZE → ws = []) ∧
        (size - size') % BLOCKSIZE = 0 := by
  intro fuel
  induction fuel with
  | zero => intro t size pos h; exact absurd h (Nat.not_lt_zero _)
  | succ fuel ih =>
    intro t size pos hf hp
    unfold write_blocked_loop
    by_cases hs : size ≥ BLOCKSIZE
    · rw [if_pos hs]
      have hB : BLOCKSIZE = 10240 := rfl
      have hf' : (size - BLOCKSIZE) / BLOCKSIZE < fuel := by
        rw [hB] at hs hf ⊢; omega
      obtain ⟨ws, size', hl, hw, hj, hlt, hle, _, hm⟩ :=
        ih (write_or_die t ((data.drop pos).take BLOCKSIZE)) (size - BLOCKSIZE)
          (pos + BLOCKSIZE) hf' (by omega)
      refine ⟨(data.drop pos).take BLOCKSIZE :: ws, size', ?_, ?_, ?_, hlt, by omega, ?_, ?_⟩
      · rw [hl]
        simp only [write_or_die, List.append_assoc, List.singleton_append]
        have : pos + BLOCKSIZE + (size - BLOCKSIZE - size') = pos + (size - size') := by omega
        rw [this]
      · intro w hm
        rcases List.mem_cons.mp hm with h | h
        · rw [h, List.length_take, List.length_drop]; omega
        · exact hw w h
      · rw [List.flatten_cons, hj]
        have h1 : size - size' = BLOCKSIZE + (size - BLOCKSIZE - size') := by omega
        rw [h1, List.take_add, List.drop_drop]
      · intro h; omega
      · rw [hB] at hm hs ⊢; omega
    · rw [if_neg hs]
      refine ⟨[], size, ?_, ?_, ?_, by omega, le_refl _, fun _ => rfl, by simp⟩
      · simp
      · intro w hm; simp at hm
      · simp

theorem take_take_drop (data : List Nat) (a b : Nat) :
    data.take a ++ (data.drop a).take b = data.take (a + b) := by
  rw [List.take_add]

theorem stream_memcpy (t : Tar) (src : List Nat) (h : t.offset ≤ t.block.length) :
    stream { t with block := memcpy t.block t.offset src, offset := t.offset + src.length }
      = stream t ++ src := by
  simp only [stream, take_memcpy _ _ _ h, List.append_assoc]

theorem stream_memset (t : Tar) (n : Nat) (h : t.offset ≤ t.block.length) :
    stream { t with block := memset t.block t.offset 0 n, offset := t.offset + n }
      = stream t ++ List.replicate n 0 := by
  simp only [stream, take_memset _ _ _ _ h, List.append_assoc]

/-- The first part of `write_blocked` (archive-tar.c:36-49): the state, the size and the
position it hands to the loop. -/
theorem write_blocked_head (t : Tar) (data : List Nat) (hb : t.block.length = BLOCKSIZE)
    (ho : t.offset % 512 = 0) (hlt : t.offset < 10240) :
    ∃ (a : Tar) (size pos : Nat) (ws : List (List Nat)),
      (if t.offset ≠ 0 then
        (write_if_needed
          { block := memcpy t.block t.offset
              (data.take (if data.length < BLOCKSIZE - t.offset then data.length
                else BLOCKSIZE - t.offset)),
            offset := t.offset + (if data.length < BLOCKSIZE - t.offset then data.length
                else BLOCKSIZE - t.offset),
            written := t.written },
          data.length - (if data.length < BLOCKSIZE - t.offset then data.length
                else BLOCKSIZE - t.offset),
          (if data.length < BLOCKSIZE - t.offset then data.length
                else BLOCKSIZE - t.offset))
       else (t, data.length, 0)) = (a, size, pos) ∧
      a.block.length = BLOCKSIZE ∧ a.written = t.written ++ ws ∧
      (∀ w ∈ ws, w.length = 10240) ∧
      stream a = stream t ++ data.take pos ∧ pos + size = data.length ∧
      (a.offset = 0 ∨ size = 0) ∧ a.offset < 10240 ∧
      (a.offset + size) % 512 = data.length % 512 := by
  have hB : BLOCKSIZE = 10240 := rfl
  by_cases h0 : t.offset = 0
  · refine ⟨t, data.length, 0, [], ?_, hb, by simp, by simp, by simp, by simp, Or.inl h0, hlt, ?_⟩
    · simp [h0]
    · rw [h0]; simp
  · rw [if_pos h0]
    by_cases hs : data.length < BLOCKSIZE - t.offset
    · simp only [if_pos hs]
      have hne : t.offset + data.length ≠ BLOCKSIZE := by omega
      refine ⟨_, _, _, [], rfl, ?_, ?_, by simp, ?_, by omega, Or.inr (by omega), ?_, ?_⟩
      · simp only [write_if_needed, if_neg hne]
        rw [length_memcpy _ _ _ (by rw [List.length_take]; omega)]
        exact hb
      · simp only [write_if_needed, if_neg hne, List.append_nil]
      · rw [stream_write_if_needed]
        have := stream_memcpy t (data.take data.length) (by omega)
        simp only [List.take_length] at this ⊢
        exact this
      · simp only [write_if_needed, if_neg hne]
        rw [hB] at hs; omega
      · simp only [write_if_needed, if_neg hne]
        omega
    · simp only [if_neg hs]
      have he : t.offset + (BLOCKSIZE - t.offset) = BLOCKSIZE := by omega
      have hl : (data.take (BLOCKSIZE - t.offset)).length = BLOCKSIZE - t.offset := by
        rw [List.length_take]; omega
      have hlen : (memcpy t.block t.offset (data.take (BLOCKSIZE - t.offset))).length
          = BLOCKSIZE := by
        rw [length_memcpy _ _ _ (by rw [hl]; omega)]
        exact hb
      refine ⟨_, _, _, [(memcpy t.block t.offset (data.take (BLOCKSIZE - t.offset))).take
        BLOCKSIZE], rfl, ?_, ?_, ?_, ?_, by omega, Or.inl ?_, ?_, ?_⟩
      · simp only [write_if_needed, he, if_true, write_or_die]
        exact hlen
      · simp only [write_if_needed, he, if_true, write_or_die]
      · intro w hw
        rw [List.mem_singleton.mp hw, List.length_take, hlen]
        rfl
      · rw [stream_write_if_needed]
        have := stream_memcpy t (data.take (BLOCKSIZE - t.offset)) (by omega)
        rw [hl] at this
        exact this
      · simp only [write_if_needed, he, if_true, write_or_die]
      · simp only [write_if_needed, he, if_true, write_or_die]
        norm_num
      · simp only [write_if_needed, he, if_true, write_or_die]
        rw [hB] at hs ⊢; omega

/-- The copy of the rest of the data into the block (archive-tar.c:55-58). -/
theorem write_blocked_rest (b : Tar) (src : List Nat) (hb : b.block.length = BLOCKSIZE)
    (ho : b.offset + src.length ≤ BLOCKSIZE) :
    ∃ c, (if src.length ≠ 0 then
        { b with block := memcpy b.block b.offset src, offset := b.offset + src.length }
        else b) = c ∧
      c.written = b.written ∧ c.block.length = BLOCKSIZE ∧ stream c = stream b ++ src ∧
      c.offset = b.offset + src.length := by
  by_cases h : src.length = 0
  · refine ⟨b, by simp [h], rfl, hb, ?_, by omega⟩
    rw [List.length_eq_zero.mp h, List.append_nil]
  · refine ⟨_, rfl, ?_, ?_, ?_, ?_⟩
    · simp only [ne_eq, h, not_false_eq_true, if_true]
    · simp only [ne_eq, h, not_false_eq_true, if_true]
      rw [length_memcpy _ _ _ (by omega)]
      exact hb
    · simp only [ne_eq, h, not_false_eq_true, if_true]
      exact stream_memcpy b src (by omega)
    · simp only [ne_eq, h, not_false_eq_true, if_true]

/-- The padding to a multiple of `RECORDSIZE` and the last `write_if_needed` of
`write_blocked` (archive-tar.c:59-64). -/
theorem write_blocked_pad (c : Tar) (hb : c.block.length = BLOCKSIZE)
    (ho : c.offset < 10240) :
    ∃ e ws, write_if_needed
        (if c.offset % RECORDSIZE ≠ 0 then
          { c with block := memset c.block c.offset 0 (RECORDSIZE - c.offset % RECORDSIZE),
                   offset := c.offset + (RECORDSIZE - c.offset % RECORDSIZE) }
          else c) = e ∧
      e.written = c.written ++ ws ∧ (∀ w ∈ ws, w.length = 10240) ∧
      stream e = stream c ++ List.replicate ((512 - c.offset % 512) % 512) 0 ∧
      e.offset % 512 = 0 ∧ e.offset < 10240 ∧ e.block.length = BLOCKSIZE := by
  have hB : BLOCKSIZE = 10240 := rfl
  have hR : RECORDSIZE = 512 := rfl
  rw [hR]
  by_cases h : c.offset % 512 = 0
  · have hne : c.offset ≠ BLOCKSIZE := by omega
    refine ⟨c, [], ?_, by simp, by simp, ?_, h, ho, hb⟩
    · simp [h, write_if_needed, hne]
    · rw [h]; simp
  · simp only [ne_eq, h, not_false_eq_true, if_true]
    have hpad : (512 - c.offset % 512) % 512 = 512 - c.offset % 512 := by omega
    have hlen : (memset c.block c.offset 0 (512 - c.offset % 512)).length = BLOCKSIZE := by
      rw [length_memset _ _ _ _ (by omega)]
      exact hb
    have hst := stream_memset c (512 - c.offset % 512) (by omega)
    by_cases hf : c.offset + (512 - c.offset % 512) = BLOCKSIZE
    · refine ⟨_, [(memset c.block c.offset 0 (512 - c.offset % 512)).take BLOCKSIZE], rfl,
        ?_, ?_, ?_, ?_, ?_, ?_⟩
      · simp only [write_if_needed, hf, if_true, write_or_die]
      · intro w hw
        rw [List.mem_singleton.mp hw, List.length_take, hlen]
        rfl
      · rw [stream_write_if_needed, hst, hpad]
      · simp only [write_if_needed, hf, if_true, write_or_die, Nat.zero_mod]
      · simp only [write_if_needed, hf, if_true, write_or_die]
        norm_num
      · simp only [write_if_needed, hf, if_true, write_or_die]
        exact hlen
    · refine ⟨_, [], rfl, ?_, by simp, ?_, ?_, ?_, ?_⟩
      · simp only [write_if_needed, hf, if_false, List.append_nil]
      · rw [stream_write_if_needed, hst, hpad]
      · simp only [write_if_needed, hf, if_false]
        omega
      · simp only [write_if_needed, hf, if_false]
        omega
      · simp only [write_if_needed, hf, if_false]
        exact hlen

/-- C12: from an offset that is a multiple of 512 and below 10240, `write_blocked(data, size)`
returns, every `write` it issues is of exactly 10240 bytes, the output stream grows by the data
followed by the fewest zero bytes that make the length of the data a multiple of 512 (so a
stream whose length was a multiple of 512 has such a length again), and the offset is again a
multiple of 512 and below 10240. -/
theorem write_blocked_stream (t : Tar) (data : List Nat) (hb : t.block.length = BLOCKSIZE)
    (ho : t.offset % 512 = 0) (hlt : t.offset < 10240) :
    ∃ t' ws, write_blocked t data data.length = some t' ∧
      t'.written = t.written ++ ws ∧ (∀ w ∈ ws, w.length = 10240) ∧
      stream t' = stream t ++ data ++ List.replicate ((512 - data.length % 512) % 512) 0 ∧
      ((stream t).length % 512 = 0 → (stream t').length % 512 = 0) ∧
      t'.offset % 512 = 0 ∧ t'.offset < 10240 ∧ t'.block.length = BLOCKSIZE := by
  have hB : BLOCKSIZE = 10240 := rfl
  have hR : RECORDSIZE = 512 := rfl
  obtain ⟨a, size, pos, wsA, hr, hab, haw, hawl, has, hps, haz, halt, ham⟩ :=
    write_blocked_head t data hb ho hlt
  unfold write_blocked
  simp only
  rw [hr]
  simp only
  obtain ⟨wsB, size', hl, hwl, hwj, hlt', hle', hnil, hmod⟩ :=
    write_blocked_loop_spec data (data.length / BLOCKSIZE + 1) a size pos
      (by rw [hB]; omega) (by omega)
  rw [hl]
  simp only
  -- the state after the loop
  have hsb : stream { a with written := a.written ++ wsB } = stream a ++ wsB.flatten := by
    rcases haz with h0 | h0
    · simp [stream, h0]
    · rw [hnil (by rw [h0, hB]; norm_num)]
      simp [stream]
  have hsrc : ((data.drop (pos + (size - size'))).take size').length = size' := by
    rw [List.length_take, List.length_drop]; omega
  have hoff : a.offset + size' ≤ BLOCKSIZE := by
    rcases haz with h0 | h0
    · rw [h0, hB]; omega
    · rw [hB]; omega
  obtain ⟨c, hc, hcw, hcb, hcs, hco⟩ :=
    write_blocked_rest { a with written := a.written ++ wsB }
      ((data.drop (pos + (size - size'))).take size') hab (by rw [hsrc]; exact hoff)
  rw [hsrc] at hc hco
  rw [hc]
  have hclt : c.offset < 10240 := by
    rw [hco]
    rcases haz with h0 | h0
    · simp only [h0]; rw [hB] at hlt'; omega
    · simp only; omega
  obtain ⟨e, wsE, he, hew, hewl, hes, heo, helt, heb⟩ := write_blocked_pad c hcb hclt
  rw [he]
  have hcm : c.offset % 512 = data.length % 512 := by
    rw [hco]
    simp only
    rw [hB] at hmod
    omega
  have hstream : stream e = stream t ++ data ++
      List.replicate ((512 - data.length % 512) % 512) 0 := by
    rw [hes, hcs, hsb, has, hwj, hcm]
    congr 1
    simp only [List.append_assoc]
    congr 1
    rw [← List.append_assoc, take_take_drop, ← List.drop_drop, List.take_of_length_le
      (l := List.drop (size - size') (List.drop pos data)) (by
        rw [List.length_drop, List.length_drop]; omega)]
    rw [List.drop_drop, List.take_append_drop]
  refine ⟨e, wsA ++ (wsB ++ wsE), rfl, ?_, ?_, hstream, ?_, heo, helt, heb⟩
  · rw [hew, hcw, haw]
    simp only [List.append_assoc]
  · intro w hw
    rcases List.mem_append.mp hw with h | h
    · exact hawl w h
    · rcases List.mem_append.mp h with h | h
      · exact hwl w h
      · exact hewl w h
  · intro h
    rw [hstream]
    simp only [List.length_append, List.length_replicate]
    omega

/-- C12 on three bytes written to an empty block buffer: they reach the stream followed by
509 bytes of zero. -/
theorem write_blocked_stream_witness :
    example_tar.block.length = BLOCKSIZE ∧ example_tar.offset % 512 = 0 ∧
    example_tar.offset < 10240 ∧
    ∃ t' ws, write_blocked example_tar [1, 2, 3] [1, 2, 3].length = some t' ∧
      t'.written = example_tar.written ++ ws ∧ (∀ w ∈ ws, w.length = 10240) ∧
      stream t' = stream example_tar ++ [1, 2, 3]
        ++ List.replicate ((512 - [1, 2, 3].length % 512) % 512) 0 ∧
      ((stream example_tar).length % 512 = 0 → (stream t').length % 512 = 0) ∧
      t'.offset % 512 = 0 ∧ t'.offset < 10240 ∧ t'.block.length = BLOCKSIZE :=
  ⟨List.length_replicate _ _, rfl, by decide,
    write_blocked_stream example_tar [1, 2, 3] (List.length_replicate _ _) rfl (by decide)⟩

theorem memset_to_end (dst : List Nat) (off c n : Nat) (h : dst.length = off + n) :
    memset dst off c n = dst.take off ++ List.replicate n c := by
  unfold memset
  rw [List.drop_of_length_le (by omega), List.append_nil]

theorem memset_from_start (dst : List Nat) (c n : Nat) :
    memset dst 0 c n = List.replicate n c ++ dst.drop n := by
  simp [memset]

/-- C13: from an offset that is a multiple of 512 and below 10240, `write_trailer` writes one
full block of 10240 bytes, or two when fewer than 1024 bytes were free in the current block;
what it writes ends the stream with at least 1024 zero bytes; and when every earlier `write` was
of a full block, the length of the archive is a multiple of 10240. -/
theorem write_trailer_blocks (t : Tar) (hb : t.block.length = BLOCKSIZE)
    (ho : t.offset % 512 = 0) (hlt : t.offset < 10240) :
    ∃ ws k, (write_trailer t).written = t.written ++ ws ∧
      (∀ w ∈ ws, w.length = 10240) ∧
      ws.length = (if 10240 - t.offset < 1024 then 2 else 1) ∧
      (write_trailer t).written.flatten = stream t ++ List.replicate k 0 ∧
      1024 ≤ k ∧
      ((∀ w ∈ t.written, w.length = 10240) →
        (write_trailer t).written.flatten.length % 10240 = 0) := by
  have hB : BLOCKSIZE = 10240 := rfl
  have hR : RECORDSIZE = 512 := rfl
  have htail : Alloc.wrap_int ((BLOCKSIZE : Int) - (t.offset : Int))
      = ((10240 - t.offset : Nat) : Int) := by
    unfold Alloc.wrap_int
    rw [hB]
    omega
  have hb1 : memset t.block t.offset 0 (10240 - t.offset)
      = t.block.take t.offset ++ List.replicate (10240 - t.offset) 0 :=
    memset_to_end _ _ _ _ (by rw [hb, hB]; omega)
  have hl1 : (t.block.take t.offset ++ List.replicate (10240 - t.offset) 0).length
      = 10240 := by
    simp only [List.length_append, List.length_take, List.length_replicate]
    rw [hb, hB]; omega
  have hlt1 : (t.block.take t.offset).length = t.offset := by
    rw [List.length_take, hb, hB]; omega
  have hall : ∀ (ws : List (List Nat)) (k : Nat),
      (t.written ++ ws).flatten = stream t ++ List.replicate k 0 →
      (∀ w ∈ ws, w.length = 10240) → (∀ w ∈ t.written, w.length = 10240) →
      (t.written ++ ws).flatten.length % 10240 = 0 := by
    intro ws k _ hws hw
    have : ∀ (l : List (List Nat)), (∀ w ∈ l, w.length = 10240) →
        l.flatten.length % 10240 = 0 := by
      intro l
      induction l with
      | nil => intro _; rfl
      | cons x xs ih =>
        intro h
        rw [List.flatten_cons, List.length_append, h x (List.mem_cons_self _ _)]
        have := ih (fun w hw => h w (List.mem_cons_of_mem _ hw))
        omega
    apply this
    intro w hm
    rcases List.mem_append.mp hm with h | h
    · exact hw w h
    · exact hws w h
  have ht1 : List.take BLOCKSIZE
      (t.block.take t.offset ++ List.replicate (10240 - t.offset) 0)
      = t.block.take t.offset ++ List.replicate (10240 - t.offset) 0 :=
    List.take_of_length_le (by rw [hl1, hB])
  have hd1 : List.drop t.offset
      (t.block.take t.offset ++ List.replicate (10240 - t.offset) 0)
      = List.replicate (10240 - t.offset) 0 := List.drop_left' hlt1
  have hl2 : (List.replicate t.offset 0 ++ List.replicate (10240 - t.offset) 0 : List Nat).length
      = 10240 := by
    simp only [List.length_append, List.length_replicate]; omega
  have ht2 : List.take BLOCKSIZE
      (List.replicate t.offset 0 ++ List.replicate (10240 - t.offset) 0 : List Nat)
      = List.replicate t.offset 0 ++ List.replicate (10240 - t.offset) 0 :=
    List.take_of_length_le (by rw [hl2, hB])
  unfold write_trailer
  simp only [htail, Int.toNat_ofNat, hb1, write_or_die, ht1, memset_from_start, hd1, ht2]
  by_cases h2 : 10240 - t.offset < 1024
  · have hc : ((10240 - t.offset : Nat) : Int) < 2 * (RECORDSIZE : Int) := by rw [hR]; omega
    simp only [hc, if_true, h2]
    have hws : ∀ w ∈ [t.block.take t.offset ++ List.replicate (10240 - t.offset) 0,
        List.replicate t.offset 0 ++ List.replicate (10240 - t.offset) 0], w.length = 10240 := by
      intro w hm
      simp only [List.mem_cons, List.mem_singleton, List.not_mem_nil, or_false] at hm
      rcases hm with h | h
      · rw [h, hl1]
      · rw [h, hl2]
    have hfl : (t.written ++ [t.block.take t.offset ++ List.replicate (10240 - t.offset) 0,
        List.replicate t.offset 0 ++ List.replicate (10240 - t.offset) 0]).flatten
        = stream t ++ List.replicate ((10240 - t.offset) + 10240) 0 := by
      simp only [stream, List.flatten_append, List.flatten_cons, List.flatten_nil,
        List.append_nil, List.append_assoc, List.append_cancel_left_eq]
      rw [← List.replicate_add, ← List.replicate_add]
      congr 1
      omega
    refine ⟨_, (10240 - t.offset) + 10240, ?_, hws, rfl, ?_, by omega, ?_⟩
    · simp only [List.append_assoc, List.singleton_append]
    · simp only [List.append_assoc, List.singleton_append]
      exact hfl
    · intro hw
      simp only [List.append_assoc, List.singleton_append]
      exact hall _ _ hfl hws hw
  · have hc : ¬ ((10240 - t.offset : Nat) : Int) < 2 * (RECORDSIZE : Int) := by rw [hR]; omega
    simp only [hc, if_false, h2]
    have hws : ∀ w ∈ [t.block.take t.offset ++ List.replicate (10240 - t.offset) 0],
        w.length = 10240 := by
      intro w hm
      rw [List.mem_singleton.mp hm, hl1]
    have hfl : (t.written ++ [t.block.take t.offset ++ List.replicate (10240 - t.offset) 0]).flatten
        = stream t ++ List.replicate (10240 - t.offset) 0 := by
      simp only [stream, List.flatten_append, List.flatten_cons, List.flatten_nil,
        List.append_nil, List.append_assoc]
    exact ⟨_, 10240 - t.offset, rfl, hws, rfl, hfl, by omega, fun hw => hall _ _ hfl hws hw⟩

/-- C13 with one record of 512 bytes left in the block buffer: the trailer takes two blocks. -/
theorem write_trailer_blocks_witness :
    example_tar_tail.block.length = BLOCKSIZE ∧ example_tar_tail.offset % 512 = 0 ∧
    example_tar_tail.offset < 10240 ∧
    ∃ ws k, (write_trailer example_tar_tail).written = example_tar_tail.written ++ ws ∧
      (∀ w ∈ ws, w.length = 10240) ∧
      ws.length = (if 10240 - example_tar_tail.offset < 1024 then 2 else 1) ∧
      (write_trailer example_tar_tail).written.flatten
        = stream example_tar_tail ++ List.replicate k 0 ∧
      1024 ≤ k ∧
      ((∀ w ∈ example_tar_tail.written, w.length = 10240) →
        (write_trailer example_tar_tail).written.flatten.length % 10240 = 0) :=
  ⟨List.length_replicate _ _, rfl, by decide,
    write_trailer_blocks example_tar_tail (List.length_replicate _ _) rfl (by decide)⟩

theorem toDigitsCore_length_eq : ∀ (f n : Nat), n < f →
    (Nat.toDigitsCore 10 f n []).length = Nat.log 10 n + 1 := by
  intro f
  induction f with
  | zero => intro n h; omega
  | succ f ih =>
    intro n h
    unfold Nat.toDigitsCore
    by_cases h0 : n / 10 = 0
    · simp only [h0, if_true, List.length_singleton]
      rw [Nat.log_of_lt (by omega)]
    · simp only [h0, if_false]
      rw [Nat.toDigitsCore_lens_eq, ih (n / 10) (by omega),
        Nat.log_of_one_lt_of_le (by norm_num) (by omega : 10 ≤ n)]

/-- The number of characters `%u` prints. -/
theorem length_toString (n : Nat) : (toString n).toList.length = Nat.log 10 n + 1 := by
  show (Nat.repr n).data.length = _
  simp only [Nat.repr, Nat.toDigits, List.asString]
  exact toDigitsCore_length_eq (n + 1) n (by omega)

theorem ext_header_len_loop_spec : ∀ (fuel tmp len : Nat), Nat.log 10 tmp < fuel →
    len + fuel < 2 ^ 31 →
    ext_header_len_loop fuel (tmp : Int) (len : Int) = some ((len + Nat.log 10 tmp : Nat) : Int) := by
  intro fuel
  induction fuel with
  | zero => intro tmp len h; omega
  | succ fuel ih =>
    intro tmp len hf hl
    unfold ext_header_len_loop
    by_cases h9 : tmp > 9
    · have hc : (tmp : Int) > 9 := by omega
      have hlog := Nat.log_of_one_lt_of_le (by norm_num : 1 < 10) (by omega : 10 ≤ tmp)
      have hw : Alloc.wrap_int ((len : Int) + 1) = ((len + 1 : Nat) : Int) := by
        unfold Alloc.wrap_int; omega
      have hd : (tmp : Int) / 10 = ((tmp / 10 : Nat) : Int) := by omega
      rw [if_pos hc, hw, hd, ih (tmp / 10) (len + 1) (by omega) (by omega), hlog,
        Nat.add_right_comm, Nat.add_assoc]
    · have hc : ¬ (tmp : Int) > 9 := by omega
      rw [if_neg hc, Nat.log_of_lt (by omega)]
      rfl

/-- What `strbuf_append_ext_header` appends, for sizes in the range of `int`: the number it
prints is the length of the record computed with the digits of its first estimate, and the
record is as long as its content and the digits of the number printed. -/
theorem strbuf_append_ext_header_spec (sb keyword value : List Char)
    (h : keyword.length + value.length + 15 < 2 ^ 31) :
    strbuf_append_ext_header sb keyword value value.length =
      some (sb ++ ((toString (keyword.length + value.length + 4 +
        Nat.log 10 (keyword.length + value.length + 4))).toList ++ [' '] ++ keyword ++ ['='])
          ++ value ++ ['\n']) ∧
    ((toString (keyword.length + value.length + 4 +
        Nat.log 10 (keyword.length + value.length + 4))).toList ++ [' '] ++ keyword ++ ['=']
          ++ value ++ ['\n']).length =
      keyword.length + value.length + 4 + Nat.log 10 (keyword.length + value.length + 4 +
        Nat.log 10 (keyword.length + value.length + 4)) := by
  constructor
  · unfold strbuf_append_ext_header
    have h1 : (1 + 1 + keyword.length + 1 + value.length + 1 : Nat)
        = keyword.length + value.length + 4 := by omega
    have hw : Alloc.wrap_int (((keyword.length + value.length + 4 : Nat) : Int))
        = ((keyword.length + value.length + 4 : Nat) : Int) := by
      unfold Alloc.wrap_int; omega
    have hlog : Nat.log 10 (keyword.length + value.length + 4) < 11 := by
      apply Nat.log_lt_of_lt_pow (by omega)
      calc keyword.length + value.length + 4 < 2 ^ 31 := by omega
        _ < 10 ^ 11 := by norm_num
    simp only [h1, hw]
    rw [ext_header_len_loop_spec 11 _ _ hlog (by omega)]
    simp only [Option.map_some', List.take_length]
    have hm : (((keyword.length + value.length + 4 +
        Nat.log 10 (keyword.length + value.length + 4) : Nat) : Int) % 2 ^ 32).toNat
        = keyword.length + value.length + 4 +
          Nat.log 10 (keyword.length + value.length + 4) := by omega
    rw [hm]
  · simp only [List.length_append, length_toString, List.length_singleton]
    omega

/-- The record for the keyword `path` and a value of 990 bytes. -/
theorem strbuf_append_ext_header_path (v : List Char) (hv : v.length = 990) :
    strbuf_append_ext_header [] "path".toList v 990
      = some ("1000 path=".toList ++ v ++ ['\n']) ∧
    ("1000 path=".toList ++ v ++ ['\n']).length = 1001 := by
  have hk : "path".toList.length = 4 := rfl
  have hlog : Nat.log 10 998 = 2 :=
    (Nat.log_eq_iff (by norm_num)).mpr ⟨by norm_num, by norm_num⟩
  have hs : (toString 1000).toList = "1000".toList := by decide
  obtain ⟨h1, _⟩ := strbuf_append_ext_header_spec [] "path".toList v
    (by rw [hk, hv]; norm_num)
  rw [hk, hv] at h1
  simp only [Nat.reduceAdd, hlog, hs] at h1
  constructor
  · rw [h1]; rfl
  · simp only [List.length_append, hv]; rfl

/-- C11 fails for a path of 990 bytes: the record that `strbuf_append_ext_header` builds for
the keyword `path` starts with the number 1000 and is 1001 bytes long. -/
theorem strbuf_append_ext_header_path_990 :
    strbuf_append_ext_header [] "path".toList (List.replicate 990 'a') 990
      = some ("1000 path=".toList ++ List.replicate 990 'a' ++ ['\n']) ∧
    ("1000 path=".toList ++ List.replicate 990 'a' ++ ['\n']).length = 1001 :=
  strbuf_append_ext_header_path (List.replicate 990 'a') (List.length_replicate _ _)

end ArchiveTar

namespace BuiltinCommit

theorem parse_and_validate_options_ok (E : Env) (s : Statics) (argc : Int)
    (r : Int × Statics) (h : parse_and_validate_options E s argc = Except.ok r) :
    r.2.use_editor =
      (if s.edit_flag ≠ 0 then 1
        else if s.logfile ≠ none ∨ s.message.length ≠ 0 ∨ s.use_message ≠ none then 0
        else s.use_editor) ∧
    select_cleanup_mode s.cleanup_arg r.2.use_editor = Except.ok r.2.cleanup_mode ∧
    sources s ≤ 1 ∧ (s.message.length ≠ 0 → sources s = 0) := by
  unfold parse_and_validate_options at h
  lift_lets at h
  extract_lets ue1 ue2 ge hd hs ic mh mhs im f0 f1 f2 f3 um1 um2 ld oia1 oia2 at h
  by_cases c1 : s.amend ≠ 0 ∧ ic ≠ 0
  · rw [if_pos c1] at h; cases h
  rw [if_neg c1] at h
  by_cases c2 : s.amend ≠ 0 ∧ im ≠ 0
  · rw [if_pos c2] at h; cases h
  rw [if_neg c2] at h
  by_cases c3 : f3 > 1
  · rw [if_pos c3] at h; cases h
  rw [if_neg c3] at h
  by_cases c4 : s.message.length ≠ 0 ∧ f3 > 0
  · rw [if_pos c4] at h; cases h
  rw [if_neg c4] at h
  clear_value ld
  split at h
  · exact absurd h (by simp)
  rename_i umb hld
  by_cases c5 : not_not s.also + not_not s.only + not_not s.all + not_not s.interactive > 1
  · rw [if_pos c5] at h; cases h
  rw [if_neg c5] at h
  by_cases c6 : argc = 0 ∧ (s.also ≠ 0 ∨ (s.only ≠ 0 ∧ s.amend = 0))
  · rw [if_pos c6] at h; cases h
  rw [if_neg c6] at h
  split at h
  · exact absurd h (by simp)
  rename_i cm hcm
  by_cases c7 : s.all ≠ 0 ∧ argc > 0
  · rw [if_pos c7] at h; cases h
  rw [if_neg c7] at h
  by_cases c8 : s.interactive ≠ 0 ∧ argc > 0
  · rw [if_pos c8] at h; cases h
  rw [if_neg c8] at h
  simp only [Except.ok.injEq] at h
  rw [← h]
  have hf : f3 = sources s := by
    simp only [f3, f2, f1, f0, sources, zero_add]
    split_ifs <;> rfl
  refine ⟨?_, hcm, by rw [← hf]; omega, ?_⟩
  · show ue2 = _
    simp only [ue2, ue1]
  · intro hm
    rw [← hf]
    have : ¬ f3 > 0 := fun hp => c4 ⟨hm, hp⟩
    have h0 : 0 ≤ f3 := by
      rw [hf]; unfold sources; split_ifs <;> norm_num
    omega

theorem append_ne_of_head (a m b : String) (ca cb : Char) (ha : a.data.head? = some ca)
    (hb : b.data.head? = some cb) (hne : ca ≠ cb) : a ++ m ≠ b := by
  intro h
  have h1 := congrArg String.data h
  rw [String.data_append] at h1
  have h2 : (a.data ++ m.data).head? = some ca := by
    cases hd : a.data with
    | nil => rw [hd] at ha; simp at ha
    | cons x xs => rw [hd] at ha; simpa using ha
  rw [h1, hb] at h2
  exact hne (Option.some.inj h2).symm

theorem load_use_message_error (E : Env) (b : Option String) (m e : String)
    (h : load_use_message E b m = Except.error e) :
    e = "could not lookup commit " ++ m ∨ e = "could not parse commit " ++ m := by
  unfold load_use_message at h
  split at h
  · simp only [Except.error.injEq] at h; exact Or.inl h.symm
  · split at h
    · simp only [Except.error.injEq] at h; exact Or.inr h.symm
    · split_ifs at h
      simp only [Except.error.injEq] at h; exact Or.inr h.symm

theorem select_cleanup_mode_error (a : Option String) (u : Int) (e : String)
    (h : select_cleanup_mode a u = Except.error e) :
    e = "Invalid cleanup mode " ++ a.getD "" := by
  unfold select_cleanup_mode at h
  split_ifs at h
  simp only [Except.error.injEq] at h; exact h.symm

/-- The two `die` messages about message sources are given only on their own grounds. -/
theorem parse_and_validate_options_error (E : Env) (s : Statics) (argc : Int) (e : String)
    (h : parse_and_validate_options E s argc = Except.error e) :
    (e = "Only one of -c/-C/-F can be used." → sources s > 1) ∧
    (e = "Option -m cannot be combined with -c/-C/-F." →
      s.message.length ≠ 0 ∧ sources s > 0) := by
  unfold parse_and_validate_options at h
  lift_lets at h
  extract_lets ue1 ue2 ge hd hs ic mh mhs im f0 f1 f2 f3 um1 um2 ld oia1 oia2 at h
  have hf : f3 = sources s := by
    simp only [f3, f2, f1, f0, sources, zero_add]
    split_ifs <;> rfl
  have key : ∀ (t : String), t ≠ "Only one of -c/-C/-F can be used." →
      t ≠ "Option -m cannot be combined with -c/-C/-F." →
      (Except.error t : Except String (Int × Statics)) = Except.error e →
      (e = "Only one of -c/-C/-F can be used." → sources s > 1) ∧
      (e = "Option -m cannot be combined with -c/-C/-F." →
        s.message.length ≠ 0 ∧ sources s > 0) := by
    intro t h1 h2 he
    simp only [Except.error.injEq] at he
    rw [← he]
    exact ⟨fun x => absurd x h1, fun x => absurd x h2⟩
  by_cases c1 : s.amend ≠ 0 ∧ ic ≠ 0
  · rw [if_pos c1] at h; exact key _ (by decide) (by decide) h
  rw [if_neg c1] at h
  by_cases c2 : s.amend ≠ 0 ∧ im ≠ 0
  · rw [if_pos c2] at h; exact key _ (by decide) (by decide) h
  rw [if_neg c2] at h
  by_cases c3 : f3 > 1
  · rw [if_pos c3] at h
    simp only [Except.error.injEq] at h
    rw [← h, ← hf]
    exact ⟨fun _ => c3, fun x => absurd x (by decide)⟩
  rw [if_neg c3] at h
  by_cases c4 : s.message.length ≠ 0 ∧ f3 > 0
  · rw [if_pos c4] at h
    simp only [Except.error.injEq] at h
    rw [← h, ← hf]
    exact ⟨fun x => absurd x (by decide), fun _ => c4⟩
  rw [if_neg c4] at h
  have hld : ∀ t, ld = Except.error t →
      t ≠ "Only one of -c/-C/-F can be used." ∧
      t ≠ "Option -m cannot be combined with -c/-C/-F." := by
    intro t ht
    simp only [ld] at ht
    generalize um2 = x at ht
    cases x with
    | none => simp only [reduceCtorEq] at ht
    | some m =>
      rcases load_use_message_error E _ m t ht with h1 | h1
      · rw [h1]
        exact ⟨append_ne_of_head "could not lookup commit " _ _ 'c' 'O' rfl rfl (by decide),
          append_ne_of_head "could not lookup commit " _ _ 'c' 'O' rfl rfl (by decide)⟩
      · rw [h1]
        exact ⟨append_ne_of_head "could not parse commit " _ _ 'c' 'O' rfl rfl (by decide),
          append_ne_of_head "could not parse commit " _ _ 'c' 'O' rfl rfl (by decide)⟩
  clear_value ld
  split at h
  · rename_i t
    exact key t (hld t rfl).1 (hld t rfl).2 h
  by_cases c5 : not_not s.also + not_not s.only + not_not s.all + not_not s.interactive > 1
  · rw [if_pos c5] at h; exact key _ (by decide) (by decide) h
  rw [if_neg c5] at h
  by_cases c6 : argc = 0 ∧ (s.also ≠ 0 ∨ (s.only ≠ 0 ∧ s.amend = 0))
  · rw [if_pos c6] at h; exact key _ (by decide) (by decide) h
  rw [if_neg c6] at h
  split at h
  · rename_i t ht
    rw [select_cleanup_mode_error _ _ _ ht] at h
    exact key _ (append_ne_of_head "Invalid cleanup mode " _ _ 'I' 'O' rfl rfl (by decide))
      (append_ne_of_head "Invalid cleanup mode " _ _ 'I' 'O' rfl rfl (by decide)) h
  by_cases c7 : s.all ≠ 0 ∧ argc > 0
  · rw [if_pos c7] at h; exact key _ (by decide) (by decide) h
  rw [if_neg c7] at h
  by_cases c8 : s.interactive ≠ 0 ∧ argc > 0
  · rw [if_pos c8] at h; exact key _ (by decide) (by decide) h
  rw [if_neg c8] at h
  exact absurd h (by simp)

/-- C16: when `parse_and_validate_options` returns, the editor is to be used exactly when `-e`
was given or none of `-F`, `-m` and `-C` was; without `--cleanup`, or with `default`, the mode
is `CLEANUP_ALL` when the editor is to be used and `CLEANUP_SPACE` otherwise; `verbatim`,
`whitespace` and `strip` select `CLEANUP_NONE`, `CLEANUP_SPACE` and `CLEANUP_ALL`; and with
any other value the function does not return (`die`). -/
theorem cleanup_mode_selected (E : Env) (s : Statics) (argc : Int) (hs : s.use_editor = 1) :
    (∀ r, parse_and_validate_options E s argc = Except.ok r →
      (r.2.use_editor ≠ 0 ↔
        (s.edit_flag ≠ 0 ∨ (s.logfile = none ∧ s.message.length = 0 ∧ s.use_message = none))) ∧
      ((s.cleanup_arg = none ∨ s.cleanup_arg = some "default") →
        r.2.cleanup_mode =
          if r.2.use_editor ≠ 0 then CleanupMode.CLEANUP_ALL else CleanupMode.CLEANUP_SPACE) ∧
      (s.cleanup_arg = some "verbatim" → r.2.cleanup_mode = CleanupMode.CLEANUP_NONE) ∧
      (s.cleanup_arg = some "whitespace" → r.2.cleanup_mode = CleanupMode.CLEANUP_SPACE) ∧
      (s.cleanup_arg = some "strip" → r.2.cleanup_mode = CleanupMode.CLEANUP_ALL)) ∧
    (∀ a, s.cleanup_arg = some a → a ≠ "default" → a ≠ "verbatim" → a ≠ "whitespace" →
      a ≠ "strip" → ∃ e, parse_and_validate_options E s argc = Except.error e) := by
  constructor
  · intro r h
    obtain ⟨hu, hc, _, _⟩ := parse_and_validate_options_ok E s argc r h
    refine ⟨?_, ?_, ?_, ?_, ?_⟩
    · rw [hu, hs]
      by_cases he : s.edit_flag ≠ 0
      · simp [he]
      · by_cases hn : s.logfile ≠ none ∨ s.message.length ≠ 0 ∨ s.use_message ≠ none
        · simp only [he, hn, if_false, if_true, ne_eq, not_true_eq_false, false_or, false_iff,
            not_and]
          intro h1 h2 h3
          rcases hn with h | h | h
          · exact h h1
          · exact h h2
          · exact h h3
        · simp only [he, hn, if_false, ne_eq, one_ne_zero, not_false_eq_true, false_or,
            true_iff]
          simp only [not_or, ne_eq, Decidable.not_not] at hn
          exact hn
    · intro ha
      unfold select_cleanup_mode at hc
      rw [if_pos ha] at hc
      simp only [Except.ok.injEq] at hc
      exact hc.symm
    · intro ha
      unfold select_cleanup_mode at hc
      simp only [ha, reduceCtorEq, Option.some.injEq, String.reduceEq, or_self, if_false,
        if_true, Except.ok.injEq] at hc
      exact hc.symm
    · intro ha
      unfold select_cleanup_mode at hc
      simp only [ha, reduceCtorEq, Option.some.injEq, String.reduceEq, or_self, if_false,
        if_true, Except.ok.injEq] at hc
      exact hc.symm
    · intro ha
      unfold select_cleanup_mode at hc
      simp only [ha, reduceCtorEq, Option.some.injEq, String.reduceEq, or_self, if_false,
        if_true, Except.ok.injEq] at hc
      exact hc.symm
  · intro a ha h1 h2 h3 h4
    cases hres : parse_and_validate_options E s argc with
    | error e => exact ⟨e, rfl⟩
    | ok r =>
      obtain ⟨_, hc, _, _⟩ := parse_and_validate_options_ok E s argc r hres
      unfold select_cleanup_mode at hc
      simp only [ha, reduceCtorEq, Option.some.injEq, h1, h2, h3, h4, or_self, if_false] at hc

/-- C16, on examples: with no option the editor is used and the mode is `CLEANUP_ALL`; with
`-m` it is `CLEANUP_SPACE`. -/
theorem cleanup_mode_selected_witness :
    example_statics.use_editor = 1 ∧
    (∃ r, parse_and_validate_options example_env example_statics 0 = Except.ok r ∧
      r.2.cleanup_mode = CleanupMode.CLEANUP_ALL) ∧
    (∃ r, parse_and_validate_options example_env
        { example_statics with message := opt_parse_m "" "fix" false } 0 = Except.ok r ∧
      r.2.cleanup_mode = CleanupMode.CLEANUP_SPACE) :=
  ⟨rfl, ⟨_, rfl, ((cleanup_mode_selected example_env example_statics 0 rfl).1 _ rfl).2.1
      (Or.inl rfl)⟩,
    ⟨_, rfl, ((cleanup_mode_selected example_env
      { example_statics with message := opt_parse_m "" "fix" false } 0 rfl).1 _ rfl).2.1
      (Or.inl rfl)⟩⟩

/-- C17: `parse_and_validate_options` does not return (`die`) when two or more of `-C`, `-c`
and `-F` are given, nor when a message given by `-m` comes with one of them; when at most one
of `-C`, `-c`, `-F` and `-m` is given, with or without `--amend`, it does not die with either of
the two messages about message sources; and every `-m` leaves a message that is not empty. -/
theorem message_sources_exclusive (E : Env) (s : Statics) (argc : Int) :
    (sources s ≥ 2 → ∃ e, parse_and_validate_options E s argc = Except.error e) ∧
    (s.message.length ≠ 0 → sources s ≥ 1 →
      ∃ e, parse_and_validate_options E s argc = Except.error e) ∧
    ((sources s ≤ 1 ∧ s.message.length = 0) ∨ sources s = 0 →
      parse_and_validate_options E s argc
          ≠ Except.error "Only one of -c/-C/-F can be used." ∧
        parse_and_validate_options E s argc
          ≠ Except.error "Option -m cannot be combined with -c/-C/-F.") ∧
    (∀ buf arg, (opt_parse_m buf arg false).length ≠ 0) := by
  refine ⟨?_, ?_, ?_, ?_⟩
  · intro h2
    cases hres : parse_and_validate_options E s argc with
    | error e => exact ⟨e, rfl⟩
    | ok r =>
      obtain ⟨_, _, hle, _⟩ := parse_and_validate_options_ok E s argc r hres
      omega
  · intro hm h1
    cases hres : parse_and_validate_options E s argc with
    | error e => exact ⟨e, rfl⟩
    | ok r =>
      obtain ⟨_, _, _, h0⟩ := parse_and_validate_options_ok E s argc r hres
      have := h0 hm
      omega
  · intro hc
    constructor
    · intro h
      have := (parse_and_validate_options_error E s argc _ h).1 rfl
      rcases hc with ⟨h1, _⟩ | h1 <;> omega
    · intro h
      have := (parse_and_validate_options_error E s argc _ h).2 rfl
      rcases hc with ⟨_, h1⟩ | h1
      · exact this.1 h1
      · omega
  · intro buf arg
    simp [opt_parse_m, String.length_push]

theorem memchr_none (c : Char) : ∀ (r : List Char), memchr r c = none → c ∉ r := by
  intro r
  induction r with
  | nil => intro _; simp
  | cons x xs ih =>
    intro h
    unfold memchr at h
    split_ifs at h with hx
    simp only [Option.map_eq_none'] at h
    simp only [List.mem_cons, not_or]
    exact ⟨fun e => hx e.symm, ih h⟩

theorem memchr_some (c : Char) : ∀ (r : List Char) (k : Nat), memchr r c = some k →
    k < r.length ∧ r = r.take k ++ c :: r.drop (k + 1) ∧ c ∉ r.take k := by
  intro r
  induction r with
  | nil => intro k h; simp [memchr] at h
  | cons x xs ih =>
    intro k h
    unfold memchr at h
    split_ifs at h with hx
    · simp only [Option.some.injEq] at h
      rw [← h, hx]
      simp
    · simp only [Option.map_eq_some'] at h
      obtain ⟨j, hj, rfl⟩ := h
      obtain ⟨h1, h2, h3⟩ := ih j hj
      refine ⟨by simp only [List.length_cons]; omega, ?_, ?_⟩
      · simp only [List.take_succ_cons, List.drop_succ_cons, List.cons_append]
        rw [← h2]
      · simp only [List.take_succ_cons, List.mem_cons, not_or]
        exact ⟨fun e => hx e.symm, h3⟩

theorem lines_of_not_mem : ∀ (r : List Char), '\n' ∉ r → lines r = [r] := by
  intro r
  induction r with
  | nil => intro _; rfl
  | cons x xs ih =>
    intro h
    simp only [List.mem_cons, not_or] at h
    unfold lines
    rw [if_neg (fun e => h.1 e.symm), ih h.2]

theorem lines_append : ∀ (l r : List Char), '\n' ∉ l →
    lines (l ++ '\n' :: r) = l :: lines r := by
  intro l
  induction l with
  | nil => intro r _; simp [lines]
  | cons x xs ih =>
    intro r h
    simp only [List.mem_cons, not_or] at h
    simp only [List.cons_append, lines]
    rw [if_neg (fun e => h.1 e.symm)]
    have := ih r h.2
    simp only [List.append_eq] at this ⊢
    rw [this]

theorem only_space_eq (E : Env) (buf : List Char) : ∀ (n i : Nat), i + n ≤ buf.length →
    only_space E buf n i = ((buf.drop i).take n).all E.isspace := by
  intro n
  induction n with
  | zero => intro i _; simp [only_space]
  | succ n ih =>
    intro i h
    unfold only_space
    have hd : buf.drop i = buf.getD i (Char.ofNat 0) :: buf.drop (i + 1) := by
      rw [List.getD_eq_getElem _ _ (by omega : i < buf.length)]
      exact List.drop_eq_getElem_cons (by omega)
    rw [hd, ih (i + 1) (by omega)]
    simp only [List.take_succ_cons, List.all_cons]
    cases E.isspace (buf.getD i (Char.ofNat 0)) <;> simp

theorem signoff_prefix (r : List Char) (n : Nat) :
    (sign_off_header.length ≤ n ∧ sign_off_header.isPrefixOf r = true) ↔
      sign_off_header.isPrefixOf (r.take n) = true := by
  rw [List.isPrefixOf_iff_prefix, List.isPrefixOf_iff_prefix, List.prefix_take_iff]
  exact And.comm

/-- The loop of `message_is_empty` ends within one round per byte left and one more, and it
yields 1 exactly when every line left is blank or a sign-off. -/
theorem message_is_empty_loop_spec (E : Env) (buf : List Char) :
    ∀ (fuel i : Nat), buf.length - i < fuel →
      message_is_empty_loop E buf fuel i =
        some (if (lines (buf.drop i)).all (blank_or_signoff E) then 1 else 0) := by
  intro fuel
  induction fuel with
  | zero => intro i h; omega
  | succ fuel ih =>
    intro i hf
    unfold message_is_empty_loop
    by_cases hlt : i < buf.length
    · rw [if_pos hlt]
      cases hm : memchr (buf.drop i) '\n' with
      | none =>
        have hnm := memchr_none '\n' _ hm
        have hlen : buf.length - i = (buf.drop i).length := by rw [List.length_drop]
        have htake : (buf.drop i).take (buf.length - i) = buf.drop i := by
          rw [hlen, List.take_length]
        have hend : message_is_empty_loop E buf fuel (buf.length + 1) = some 1 := by
          cases fuel with
          | zero => omega
          | succ f =>
            unfold message_is_empty_loop
            rw [if_neg (by omega)]
        have hos := only_space_eq E buf (buf.length - i) i (by omega)
        simp only [hend, signoff_prefix, hos, htake, lines_of_not_mem _ hnm]
        simp only [List.all_cons, List.all_nil, Bool.and_true, blank_or_signoff]
        by_cases h1 : sign_off_header.isPrefixOf (buf.drop i) = true <;>
          by_cases h2 : (buf.drop i).all E.isspace = true <;> simp [h1, h2]
      | some k =>
        obtain ⟨hk, hsplit, hnm⟩ := memchr_some '\n' _ k hm
        rw [List.length_drop] at hk
        have hsub : i + k - i = k := by omega
        have hnext : buf.drop (i + k + 1) = (buf.drop i).drop (k + 1) := by
          rw [List.drop_drop, Nat.add_assoc]
        have hos := only_space_eq E buf k i (by omega)
        simp only [hsub, ih (i + k + 1) (by omega), signoff_prefix, hos, hnext]
        have hl : lines (buf.drop i)
            = (buf.drop i).take k :: lines ((buf.drop i).drop (k + 1)) := by
          conv_lhs => rw [hsplit]
          exact lines_append _ _ hnm
        rw [hl]
        simp only [List.all_cons, blank_or_signoff]
        by_cases h1 : sign_off_header.isPrefixOf ((buf.drop i).take k) = true <;>
          by_cases h2 : ((buf.drop i).take k).all E.isspace = true <;> simp [h1, h2]
    · rw [if_neg hlt]
      have : buf.drop i = [] := List.drop_of_length_le (by omega)
      rw [this]
      simp [lines, blank_or_signoff]

/-- C20 as stated fails: with the cleanup mode `CLEANUP_NONE` a buffer that holds nothing but
a newline is not taken for empty. -/
theorem message_is_empty_counterexample :
    message_is_empty example_env
        { example_statics with cleanup_mode := CleanupMode.CLEANUP_NONE } ['\n'] 0 = some 0 ∧
      example_statics.template_file = none ∧
      (lines (['\n'].drop 0)).all (blank_or_signoff example_env) = true := by
  decide

/-- C20, amended: with no template file set and a cleanup mode other than `CLEANUP_NONE` (or
an empty buffer), `message_is_empty(sb, start)` returns, and it returns 1 exactly when every
line of the buffer from `start` on is made of white space only or begins with
`Signed-off-by: `; with `CLEANUP_NONE` and a buffer that is not empty it returns 0. -/
theorem message_is_empty_lines (E : Env) (s : Statics) (sb : List Char) (start : Nat)
    (ht : s.template_file = none) :
    (s.cleanup_mode ≠ CleanupMode.CLEANUP_NONE ∨ sb = [] →
      message_is_empty E s sb start =
        some (if (lines (sb.drop start)).all (blank_or_signoff E) then 1 else 0)) ∧
    (s.cleanup_mode = CleanupMode.CLEANUP_NONE → sb ≠ [] →
      message_is_empty E s sb start = some 0) := by
  constructor
  · intro hc
    unfold message_is_empty
    have hn : ¬ (s.cleanup_mode = CleanupMode.CLEANUP_NONE ∧ sb.length ≠ 0) := by
      rintro ⟨h1, h2⟩
      rcases hc with h | h
      · exact h h1
      · rw [h] at h2; exact h2 rfl
    rw [if_neg hn]
    simp only [ht]
    exact message_is_empty_loop_spec E sb (sb.length + 1) start (by omega)
  · intro hc hne
    unfold message_is_empty
    rw [if_pos ⟨hc, fun h => hne (List.length_eq_zero.mp h)⟩]

/-- C20, amended, on an example: a message of a blank line and a sign-off is empty, and one
with a subject line is not. -/
theorem message_is_empty_lines_witness :
    example_statics.template_file = none ∧
    message_is_empty example_env example_statics "ab\n\nSigned-off-by: x\n \n".toList 3
      = some 1 ∧
    message_is_empty example_env example_statics "ab\n\nSigned-off-by: x\n \n".toList 0
      = some 0 := by
  have h1 := (message_is_empty_lines example_env example_statics
    "ab\n\nSigned-off-by: x\n \n".toList 3 rfl).1 (Or.inl (by decide))
  have h2 := (message_is_empty_lines example_env example_statics
    "ab\n\nSigned-off-by: x\n \n".toList 0 rfl).1 (Or.inl (by decide))
  exact ⟨rfl, h1.trans (by decide), h2.trans (by decide)⟩

/-- C21: with `commit_style = COMMIT_PARTIAL`, `commit_index_files` commits the real index
lock and then rolls back the false one, and `rollback_index_files` rolls back the real one and
then the false one; with `COMMIT_NORMAL` the one commits and the other rolls back the real
index lock, and neither touches the false one; with `COMMIT_AS_IS` neither makes any call and
`commit_index_files` returns 0. What `commit_index_files` returns otherwise is what
`commit_lock_file` returned for the real index lock, and `commit_style` stays as it was. -/
theorem index_files_locks (E : LockEnv) (s : IndexFiles) :
    (s.commit_style = COMMIT_PARTIAL →
      (commit_index_files E s).2.calls = s.calls ++
        [LockCall.commit_lock_file LockFile.index_lock,
          LockCall.rollback_lock_file LockFile.false_lock] ∧
      (commit_index_files E s).1 = E.commit_lock_file LockFile.index_lock s.calls ∧
      (rollback_index_files s).calls = s.calls ++
        [LockCall.rollback_lock_file LockFile.index_lock,
          LockCall.rollback_lock_file LockFile.false_lock]) ∧
    (s.commit_style = COMMIT_NORMAL →
      (commit_index_files E s).2.calls = s.calls ++
        [LockCall.commit_lock_file LockFile.index_lock] ∧
      (commit_index_files E s).1 = E.commit_lock_file LockFile.index_lock s.calls ∧
      (rollback_index_files s).calls = s.calls ++
        [LockCall.rollback_lock_file LockFile.index_lock]) ∧
    (s.commit_style = COMMIT_AS_IS →
      (commit_index_files E s).2.calls = s.calls ∧ (commit_index_files E s).1 = 0 ∧
      (rollback_index_files s).calls = s.calls) ∧
    (commit_index_files E s).2.commit_style = s.commit_style ∧
    (rollback_index_files s).commit_style = s.commit_style := by
  refine ⟨?_, ?_, ?_, ?_, ?_⟩
  · intro h
    simp [commit_index_files, rollback_index_files, h, COMMIT_PARTIAL, COMMIT_AS_IS,
      COMMIT_NORMAL]
  · intro h
    simp [commit_index_files, rollback_index_files, h, COMMIT_AS_IS, COMMIT_NORMAL]
  · intro h
    simp [commit_index_files, rollback_index_files, h]
  · unfold commit_index_files
    simp only
    split_ifs <;> rfl
  · unfold rollback_index_files
    simp only
    split_ifs <;> rfl

/-- C21 on the three commit styles, from a state in which no call into lockfile.c has been
made. -/
theorem index_files_locks_witness :
    ((commit_index_files example_locks ⟨COMMIT_PARTIAL, []⟩).2.calls =
        [LockCall.commit_lock_file LockFile.index_lock,
          LockCall.rollback_lock_file LockFile.false_lock] ∧
      (rollback_index_files ⟨COMMIT_PARTIAL, []⟩).calls =
        [LockCall.rollback_lock_file LockFile.index_lock,
          LockCall.rollback_lock_file LockFile.false_lock]) ∧
    ((commit_index_files example_locks ⟨COMMIT_NORMAL, []⟩).2.calls =
        [LockCall.commit_lock_file LockFile.index_lock] ∧
      (rollback_index_files ⟨COMMIT_NORMAL, []⟩).calls =
        [LockCall.rollback_lock_file LockFile.index_lock]) ∧
    ((commit_index_files example_locks ⟨COMMIT_AS_IS, []⟩).2.calls = [] ∧
      (rollback_index_files ⟨COMMIT_AS_IS, []⟩).calls = []) :=
  ⟨⟨((index_files_locks example_locks ⟨COMMIT_PARTIAL, []⟩).1 rfl).1,
      ((index_files_locks example_locks ⟨COMMIT_PARTIAL, []⟩).1 rfl).2.2⟩,
    ⟨((index_files_locks example_locks ⟨COMMIT_NORMAL, []⟩).2.1 rfl).1,
      ((index_files_locks example_locks ⟨COMMIT_NORMAL, []⟩).2.1 rfl).2.2⟩,
    ⟨((index_files_locks example_locks ⟨COMMIT_AS_IS, []⟩).2.2.1 rfl).1,
      ((index_files_locks example_locks ⟨COMMIT_AS_IS, []⟩).2.2.1 rfl).2.2⟩⟩

end BuiltinCommit

namespace Walker
open Revision

/-- The search for the next qualifying commit does not look at the pagination. -/
theorem get_revision_1_paginate (E : Env) (fuel : Nat) (w : Walk) (k n : Int) :
    get_revision_1 E fuel (paginate w k n)
      = (get_revision_1 E fuel w).map fun r => (r.1, paginate r.2 k n) := by
  unfold get_revision_1 paginate
  cases next_candidate E w.rev.first_parent_only w.rev.no_merges fuel w.flags w.rev.commits <;>
    simp

/-- Without pagination, `get_revision` emits the qualifying commits. -/
theorem emitted_unpaginated (E : Env) (fuel : Nat) (m : Int) (hm : m < 0) :
    ∀ (calls : Nat) (w : Walk),
      emitted E fuel calls (paginate w 0 m) = candidates E fuel calls w := by
  intro calls
  induction calls with
  | zero => intro w; rfl
  | succ calls ih =>
    intro w
    have hm0 : m ≠ 0 := by omega
    have hm1 : ¬ m > 0 := by omega
    simp only [emitted, candidates, get_revision]
    have h1 : (paginate w 0 m).rev.max_count = m := rfl
    have h2 : (paginate w 0 m).rev.skip_count = 0 := rfl
    simp only [h1, h2, hm0, if_false, Int.toNat_zero, skip_loop, get_revision_1_paginate]
    cases hg : get_revision_1 E fuel w with
    | none => rfl
    | some r =>
      obtain ⟨c, w'⟩ := r
      cases c with
      | none => rfl
      | some c =>
        simp only [Option.map_some']
        have : ({ paginate w' 0 m with rev := { (paginate w' 0 m).rev with
            max_count := if (paginate w' 0 m).rev.max_count > 0
              then (paginate w' 0 m).rev.max_count - 1 else (paginate w' 0 m).rev.max_count } } : Walk)
            = paginate w' 0 m := by
          simp [paginate, hm1]
        rw [this, ih]

/-- A larger budget of calls does not change the sequence of the qualifying commits. -/
theorem candidates_mono (E : Env) (fuel : Nat) :
    ∀ (calls : Nat) (w : Walk) (out : List Nat),
      candidates E fuel calls w = some out → candidates E fuel (calls + 1) w = some out := by
  intro calls
  induction calls with
  | zero => intro w out h; simp [candidates] at h
  | succ calls ih =>
    intro w out h
    rw [candidates] at h ⊢
    cases hg : get_revision_1 E fuel w with
    | none => rw [hg] at h; simp at h
    | some r =>
      obtain ⟨c, w'⟩ := r
      rw [hg] at h
      cases c with
      | none => exact h
      | some c =>
        simp only [Option.map_eq_some'] at h ⊢
        obtain ⟨o, ho, rfl⟩ := h
        exact ⟨o, ih w' o ho, rfl⟩

/-- With `skip_count = 0` and `max_count = n`, the walk emits the first `n` qualifying
commits. -/
theorem emitted_take (E : Env) (fuel : Nat) :
    ∀ (calls : Nat) (w : Walk) (n : Nat) (out : List Nat),
      candidates E fuel calls w = some out →
      emitted E fuel calls (paginate w 0 n) = some (out.take n) := by
  intro calls
  induction calls with
  | zero => intro w n out h; simp [candidates] at h
  | succ calls ih =>
    intro w n out h
    rw [candidates] at h
    simp only [emitted, get_revision]
    have h1 : (paginate w 0 n).rev.max_count = n := rfl
    have h2 : (paginate w 0 n).rev.skip_count = 0 := rfl
    simp only [h1, h2, Int.toNat_zero, skip_loop, get_revision_1_paginate]
    cases n with
    | zero => simp
    | succ n =>
      have hn0 : ((n + 1 : Nat) : Int) ≠ 0 := by omega
      simp only [hn0, if_false]
      cases hg : get_revision_1 E fuel w with
      | none => rw [hg] at h; simp at h
      | some r =>
        obtain ⟨c, w'⟩ := r
        rw [hg] at h
        cases c with
        | none =>
          simp only [Option.some.injEq] at h
          subst h
          rfl
        | some c =>
          simp only [Option.map_eq_some'] at h
          obtain ⟨o, ho, rfl⟩ := h
          simp only [Option.map_some']
          have : ({ paginate w' 0 (n + 1 : Nat) with rev := { (paginate w' 0 (n + 1 : Nat)).rev with
              max_count := if (paginate w' 0 (n + 1 : Nat)).rev.max_count > 0
                then (paginate w' 0 (n + 1 : Nat)).rev.max_count - 1
                else (paginate w' 0 (n + 1 : Nat)).rev.max_count } } : Walk)
              = paginate w' 0 n := by
            have hp : ((n + 1 : Nat) : Int) > 0 := by omega
            simp [paginate]
          rw [this, ih w' n o ho]
          rfl

/-- The skipping loop drops the first `j` qualifying commits and returns the next one. -/
theorem skip_loop_spec (E : Env) (fuel : Nat) (n : Int) :
    ∀ (j calls : Nat) (w : Walk) (out : List Nat),
      candidates E fuel (calls + 1) w = some out →
      match out.drop j with
      | [] => ∃ w', skip_loop E fuel j (paginate w j n) = some (none, w')
      | c :: rest => ∃ w', skip_loop E fuel j (paginate w j n) = some (some c, paginate w' 0 n) ∧
          candidates E fuel calls w' = some rest := by
  intro j
  induction j with
  | zero =>
    intro calls w out h
    rw [candidates] at h
    simp only [skip_loop, List.drop_zero, get_revision_1_paginate]
    cases hg : get_revision_1 E fuel w with
    | none => rw [hg] at h; simp at h
    | some r =>
      obtain ⟨c, w'⟩ := r
      rw [hg] at h
      cases c with
      | none =>
        simp only [Option.some.injEq] at h
        subst h
        exact ⟨_, rfl⟩
      | some c =>
        simp only [Option.map_eq_some'] at h
        obtain ⟨o, ho, rfl⟩ := h
        exact ⟨w', rfl, ho⟩
  | succ j ih =>
    intro calls w out h
    rw [candidates] at h
    simp only [skip_loop, get_revision_1_paginate]
    cases hg : get_revision_1 E fuel w with
    | none => rw [hg] at h; simp at h
    | some r =>
      obtain ⟨c, w'⟩ := r
      rw [hg] at h
      cases c with
      | none =>
        simp only [Option.some.injEq] at h
        subst h
        exact ⟨_, rfl⟩
      | some c =>
        simp only [Option.map_eq_some'] at h
        obtain ⟨o, ho, rfl⟩ := h
        simp only [Option.map_some', List.drop_succ_cons]
        have hp : ({ paginate w' (j + 1 : Nat) n with rev := { (paginate w' (j + 1 : Nat) n).rev with
            skip_count := (paginate w' (j + 1 : Nat) n).rev.skip_count - 1 } } : Walk)
            = paginate w' j n := by
          simp [paginate]
        rw [hp]
        cases calls with
        | zero => simp [candidates] at ho
        | succ calls =>
          have := ih calls w' o ho
          cases hd : o.drop j with
          | nil =>
            rw [hd] at this
            exact this
          | cons x rest =>
            rw [hd] at this
            obtain ⟨w'', h1, h2⟩ := this
            exact ⟨w'', h1, candidates_mono E fuel calls w'' rest h2⟩

/-- C15: for all `k, n ≥ 0`, the sequence a walk emits with `skip_count = k` and
`max_count = n` is the slice `[k, k+n)` of the sequence that the same walk emits with
`skip_count = 0` and no `max_count` (a negative one), within the same budget of calls. -/
theorem get_revision_pagination (E : Env) (fuel calls : Nat) (w : Walk) (k n : Nat) (m : Int)
    (out : List Nat) (hm : m < 0) (h : emitted E fuel calls (paginate w 0 m) = some out) :
    emitted E fuel calls (paginate w k n) = some ((out.drop k).take n) := by
  rw [emitted_unpaginated E fuel m hm] at h
  cases calls with
  | zero => simp [candidates] at h
  | succ calls =>
    simp only [emitted, get_revision]
    have h1 : (paginate w k n).rev.max_count = n := rfl
    have h2 : (paginate w k n).rev.skip_count = k := rfl
    simp only [h1, h2, Int.toNat_ofNat]
    cases n with
    | zero => simp
    | succ n =>
      have hn0 : ((n + 1 : Nat) : Int) ≠ 0 := by omega
      simp only [hn0, if_false]
      have hs := skip_loop_spec E fuel (n + 1 : Nat) k calls w out h
      cases hd : out.drop k with
      | nil =>
        rw [hd] at hs
        obtain ⟨w', hw⟩ := hs
        rw [hw]
        rfl
      | cons c rest =>
        rw [hd] at hs
        obtain ⟨w', hw, hc⟩ := hs
        rw [hw]
        simp only
        have : ({ paginate w' 0 (n + 1 : Nat) with rev := { (paginate w' 0 (n + 1 : Nat)).rev with
            max_count := if (paginate w' 0 (n + 1 : Nat)).rev.max_count > 0
              then (paginate w' 0 (n + 1 : Nat)).rev.max_count - 1
              else (paginate w' 0 (n + 1 : Nat)).rev.max_count } } : Walk)
            = paginate w' 0 n := by
          simp [paginate]
        rw [this, emitted_take E fuel calls w' n rest hc]
        rfl

/-- The pagination scenario: with `max_count = 2` and `skip_count = 1`, a walk over five
qualifying commits returns the 2nd and the 3rd. -/
theorem get_revision_pagination_witness :
    (-1 : Int) < 0 ∧
    emitted five_history 10 10 (paginate (prepare_revision_walk five_history five_walk).2 0 (-1))
      = some [4, 3, 2, 1, 0] ∧
    emitted five_history 10 10
      (paginate (prepare_revision_walk five_history five_walk).2 (1 : Nat) (2 : Nat))
      = some [3, 2] :=
  ⟨by decide, by decide,
    get_revision_pagination five_history 10 10 (prepare_revision_walk five_history five_walk).2
      1 2 (-1) [4, 3, 2, 1, 0] (by decide) (by decide)⟩

theorem has_flag_set_flag (f a b : Nat) (ha : a ∈ walk_flags) (hb : b ∈ walk_flags) :
    has_flag (set_flag f a) b = (decide (a = b) || has_flag f b) := by
  obtain ⟨i, hi, rfl⟩ := walk_flags_pow a ha
  obtain ⟨j, hj, rfl⟩ := walk_flags_pow b hb
  by_cases hij : i = j
  · subst hij
    rw [has_flag_two_pow]
    unfold set_flag
    rw [Nat.testBit_or, Nat.testBit_two_pow_self]
    simp
  · rw [(flag_independent f i j (by omega) (by omega) hij).1]
    have : (2 : Nat) ^ i ≠ 2 ^ j := fun h => hij (Nat.pow_right_injective (le_refl 2) h)
    simp [this]

@[simp] theorem seen_set_seen (f : Nat) : has_flag (set_flag f SEEN) SEEN = true := by
  rw [has_flag_set_flag f SEEN SEEN (by decide) (by decide)]; simp

@[simp] theorem unint_set_seen (f : Nat) :
    has_flag (set_flag f SEEN) UNINTERESTING = has_flag f UNINTERESTING := by
  rw [has_flag_set_flag f SEEN UNINTERESTING (by decide) (by decide)]
  have : SEEN ≠ UNINTERESTING := by decide
  simp [this]

@[simp] theorem shown_set_seen (f : Nat) :
    has_flag (set_flag f SEEN) SHOWN = has_flag f SHOWN := by
  rw [has_flag_set_flag f SEEN SHOWN (by decide) (by decide)]
  have : SEEN ≠ SHOWN := by decide
  simp [this]

@[simp] theorem shown_set_shown (f : Nat) : has_flag (set_flag f SHOWN) SHOWN = true := by
  rw [has_flag_set_flag f SHOWN SHOWN (by decide) (by decide)]; simp

@[simp] theorem seen_set_shown (f : Nat) :
    has_flag (set_flag f SHOWN) SEEN = has_flag f SEEN := by
  rw [has_flag_set_flag f SHOWN SEEN (by decide) (by decide)]
  have : SHOWN ≠ SEEN := by decide
  simp [this]

@[simp] theorem unint_set_shown (f : Nat) :
    has_flag (set_flag f SHOWN) UNINTERESTING = has_flag f UNINTERESTING := by
  rw [has_flag_set_flag f SHOWN UNINTERESTING (by decide) (by decide)]
  have : SHOWN ≠ UNINTERESTING := by decide
  simp [this]

@[simp] theorem unint_set_unint (f : Nat) :
    has_flag (set_flag f UNINTERESTING) UNINTERESTING = true := by
  rw [has_flag_set_flag f UNINTERESTING UNINTERESTING (by decide) (by decide)]; simp

@[simp] theorem seen_set_unint (f : Nat) :
    has_flag (set_flag f UNINTERESTING) SEEN = has_flag f SEEN := by
  rw [has_flag_set_flag f UNINTERESTING SEEN (by decide) (by decide)]
  have : UNINTERESTING ≠ SEEN := by decide
  simp [this]

@[simp] theorem shown_set_unint (f : Nat) :
    has_flag (set_flag f UNINTERESTING) SHOWN = has_flag f SHOWN := by
  rw [has_flag_set_flag f UNINTERESTING SHOWN (by decide) (by decide)]
  have : UNINTERESTING ≠ SHOWN := by decide
  simp [this]

/-- Entering a commit into the working structure adds it and nothing else. -/
theorem insert_by_date_perm (E : Env) (c : Nat) :
    ∀ l : List Nat, (insert_by_date E c l).Perm (c :: l) := by
  intro l
  induction l with
  | nil => exact List.Perm.refl _
  | cons x xs ih =>
    unfold insert_by_date
    split
    · exact List.Perm.refl _
    · exact (List.Perm.cons x ih).trans (List.Perm.swap c x xs)

/-- What `enqueue` does: the nodes that were not yet `SEEN`, each once, enter the queue and
get the flag `SEEN`; nothing else changes. -/
theorem enqueue_spec (E : Env) :
    ∀ (nodes : List Nat) (flags : Nat → Nat) (queue : List Nat),
      ∃ new : List Nat, (enqueue E flags queue nodes).2.Perm (new ++ queue) ∧ new.Nodup ∧
        (∀ p, p ∈ new ↔ p ∈ nodes ∧ has_flag (flags p) SEEN = false) ∧
        (enqueue E flags queue nodes).1
          = fun i => if i ∈ new then set_flag (flags i) SEEN else flags i := by
  intro nodes
  induction nodes with
  | nil =>
    intro flags queue
    exact ⟨[], List.Perm.refl _, List.nodup_nil, by simp, by simp [enqueue]⟩
  | cons p ps ih =>
    intro flags queue
    unfold enqueue
    rw [List.foldl_cons]
    by_cases hp : has_flag (flags p) SEEN = true
    · simp only [hp, if_true]
      obtain ⟨new, h1, h2, h3, h4⟩ := ih flags queue
      refine ⟨new, h1, h2, ?_, h4⟩
      intro q
      rw [h3 q]
      constructor
      · rintro ⟨a, b⟩
        exact ⟨List.mem_cons_of_mem _ a, b⟩
      · rintro ⟨a, b⟩
        rcases List.mem_cons.mp a with rfl | a
        · rw [hp] at b; cases b
        · exact ⟨a, b⟩
    · simp only [hp, if_false]
      have hp' : has_flag (flags p) SEEN = false := by simpa using hp
      obtain ⟨new, h1, h2, h3, h4⟩ :=
        ih (Function.update flags p (set_flag (flags p) SEEN)) (insert_by_date E p queue)
      have hpn : p ∉ new := by
        intro h
        have := ((h3 p).mp h).2
        simp at this
      refine ⟨p :: new, ?_, List.nodup_cons.mpr ⟨hpn, h2⟩, ?_, ?_⟩
      · refine h1.trans ?_
        refine ((List.Perm.append_left new (insert_by_date_perm E p queue)).trans ?_)
        exact List.perm_middle
      · intro q
        rw [List.mem_cons, h3 q, List.mem_cons]
        by_cases hq : q = p
        · subst hq
          simp [hp']
        · simp [hq, Function.update_noteq hq]
      · show (enqueue E _ _ ps).1 = _
        rw [h4]
        funext i
        by_cases hi : i = p
        · subst hi
          simp [hpn]
        · simp [hi, Function.update_noteq hi]

/-- Distinct commits below `c` weigh less than `c`. -/
theorem weight_lt (l : List Nat) (c : Nat) (hn : l.Nodup) (hl : ∀ p ∈ l, p < c) :
    weight l < 2 ^ c := by
  unfold weight
  rw [← List.sum_toFinset _ hn]
  exact Nat.geomSum_lt (le_refl 2) (fun k hk => hl k (List.mem_toFinset.mp hk))

theorem weight_perm (l l' : List Nat) (h : l.Perm l') : weight l = weight l' := by
  unfold weight
  exact (h.map _).sum_eq

theorem weight_append (l l' : List Nat) : weight (l ++ l') = weight l + weight l' := by
  simp [weight]

/-- Expanding the parents of `c` in place of `c` makes the queue lighter. -/
theorem weight_enqueue (E : Env) (htopo : ∀ c p, p ∈ E.parents c → p < c) (flags : Nat → Nat)
    (c : Nat) (rest ps : List Nat) (hps : ∀ p ∈ ps, p ∈ E.parents c) :
    weight (enqueue E flags rest ps).2 < weight (c :: rest) := by
  obtain ⟨new, h1, h2, h3, -⟩ := enqueue_spec E ps flags rest
  rw [weight_perm _ _ h1, weight_append]
  have := weight_lt new c h2 (fun p hp => htopo c p (hps p ((h3 p).mp hp).1))
  have hc : weight (c :: rest) = 2 ^ c + weight rest := by simp [weight]
  omega

/-- The search for the next qualifying commit ends when the fuel exceeds the weight of the
queue, and it leaves a queue that is lighter when it finds a commit. -/
theorem next_candidate_total (E : Env) (htopo : ∀ c p, p ∈ E.parents c → p < c)
    (fpo nm : Bool) :
    ∀ (fuel : Nat) (flags : Nat → Nat) (queue : List Nat), weight queue < fuel →
      ∃ res fl' q', next_candidate E fpo nm fuel flags queue = some (res, fl', q') ∧
        weight q' ≤ weight queue ∧ (res ≠ none → weight q' < weight queue) := by
  intro fuel
  induction fuel with
  | zero => intro flags queue h; exact absurd h (Nat.not_lt_zero _)
  | succ fuel ih =>
    intro flags queue h
    cases queue with
    | nil => exact ⟨none, flags, [], rfl, le_refl _, fun h => absurd rfl h⟩
    | cons c rest =>
      have hc : weight (c :: rest) = 2 ^ c + weight rest := by simp [weight]
      have hpos : 0 < 2 ^ c := Nat.two_pow_pos c
      have hps : ∀ p ∈ (if fpo = true then (E.parents c).take 1 else E.parents c),
          p ∈ E.parents c := by
        intro p hp
        split at hp
        · exact List.mem_of_mem_take hp
        · exact hp
      have hw := weight_enqueue E htopo flags c rest _ hps
      have hrec : ∃ res fl' q', next_candidate E fpo nm fuel
          (enqueue E flags rest (if fpo = true then (E.parents c).take 1 else E.parents c)).1
          (enqueue E flags rest (if fpo = true then (E.parents c).take 1 else E.parents c)).2
            = some (res, fl', q') ∧
          weight q' ≤ weight (c :: rest) ∧ (res ≠ none → weight q' < weight (c :: rest)) := by
        obtain ⟨res, fl', q', h1, h2, -⟩ := ih _ _ (show weight (enqueue E flags rest
          (if fpo = true then (E.parents c).take 1 else E.parents c)).2 < fuel by omega)
        exact ⟨res, fl', q', h1, by omega, fun _ => by omega⟩
      rw [next_candidate]
      lift_lets
      intro ps r
      split_ifs
      · obtain ⟨res, fl', q', h1, h2, -⟩ := ih flags rest (by omega)
        exact ⟨res, fl', q', h1, by omega, fun _ => by omega⟩
      all_goals first
        | exact hrec
        | exact ⟨_, _, _, rfl, le_of_lt hw, fun _ => hw⟩

/-- The sequence of the qualifying commits is produced when the fuel and the budget of calls
exceed the weight of the queue. -/
theorem candidates_total (E : Env) (htopo : ∀ c p, p ∈ E.parents c → p < c) (fuel : Nat) :
    ∀ (calls : Nat) (w : Walk), weight w.rev.commits < fuel → weight w.rev.commits < calls →
      ∃ out, candidates E fuel calls w = some out := by
  intro calls
  induction calls with
  | zero => intro w _ h; exact absurd h (Nat.not_lt_zero _)
  | succ calls ih =>
    intro w hf hc
    obtain ⟨res, fl', q', h1, h2, h3⟩ :=
      next_candidate_total E htopo w.rev.first_parent_only w.rev.no_merges fuel w.flags
        w.rev.commits hf
    rw [candidates, get_revision_1, h1]
    cases res with
    | none => exact ⟨[], rfl⟩
    | some c =>
      have := h3 (by simp)
      obtain ⟨out, ho⟩ := ih { flags := fl', rev := { w.rev with commits := q' } }
        (show weight q' < fuel by omega) (show weight q' < calls by omega)
      exact ⟨c :: out, by simp [ho]⟩

theorem markFrame_refl (E : Env) (c : Nat) (fl : Nat → Nat) : MarkFrame E c fl fl :=
  ⟨fun _ h => h, fun _ h => Or.inl h, fun _ => rfl, fun _ => rfl⟩

theorem markFrame_trans {E : Env} {c : Nat} {fl fl1 fl2 : Nat → Nat}
    (h1 : MarkFrame E c fl fl1) (h2 : MarkFrame E c fl1 fl2) : MarkFrame E c fl fl2 := by
  refine ⟨fun i h => h2.1 i (h1.1 i h), ?_, fun i => (h2.2.2.1 i).trans (h1.2.2.1 i),
    fun i => (h2.2.2.2 i).trans (h1.2.2.2 i)⟩
  intro i h
  rcases h2.2.1 i h with h | h
  · exact h1.2.1 i h
  · exact Or.inr h

/-- The marking of one parent `p` of `c`, and everything a marking from `p` does, is a marking
from `c`. -/
theorem markFrame_step {E : Env} {c p : Nat} {fl fl' : Nat → Nat} (hp : p ∈ E.parents c)
    (h : MarkFrame E p (Function.update fl p (set_flag (fl p) UNINTERESTING)) fl') :
    MarkFrame E c fl fl' := by
  obtain ⟨h1, h2, h3, h4⟩ := h
  refine ⟨?_, ?_, ?_, ?_⟩
  · intro i hi
    apply h1
    by_cases hip : i = p
    · subst hip; simp
    · simpa [Function.update_noteq hip] using hi
  · intro i hi
    rcases h2 i hi with h | h
    · by_cases hip : i = p
      · subst hip
        exact Or.inr (Relation.TransGen.single hp)
      · left
        simpa [Function.update_noteq hip] using h
    · exact Or.inr (Relation.TransGen.head hp h)
  · intro i
    rw [h3]
    by_cases hip : i = p
    · subst hip; simp
    · simp [Function.update_noteq hip]
  · intro i
    rw [h4]
    by_cases hip : i = p
    · subst hip; simp
    · simp [Function.update_noteq hip]

/-- A freshly marked commit waits for its parents. -/
theorem marked_update {E : Env} {fl : Nat → Nat} {todo : List Nat} (p : Nat)
    (h : Marked E fl todo) :
    Marked E (Function.update fl p (set_flag (fl p) UNINTERESTING)) (p :: todo) := by
  intro u hu
  by_cases hup : u = p
  · exact Or.inl (hup ▸ List.mem_cons_self _ _)
  · rw [Function.update_noteq hup] at hu
    rcases h u hu with h | h
    · exact Or.inl (List.mem_cons_of_mem _ h)
    · right
      intro q hq
      by_cases hqp : q = p
      · subst hqp; simp
      · simpa [Function.update_noteq hqp] using h q hq

/-- The Ancestor Marker from `c` marks all the parents of `c` and closes what it marks under
the parent relation. -/
theorem mark_parents_uninteresting_spec (E : Env) (htopo : ∀ c p, p ∈ E.parents c → p < c) :
    ∀ (fuel : Nat) (flags : Nat → Nat) (c : Nat) (todo : List Nat), c < fuel →
      Marked E flags (c :: todo) →
      Marked E (mark_parents_uninteresting E fuel flags c) todo ∧
        MarkFrame E c flags (mark_parents_uninteresting E fuel flags c) := by
  intro fuel
  induction fuel with
  | zero => intro flags c todo h; exact absurd h (Nat.not_lt_zero _)
  | succ fuel ih =>
    intro flags c todo hc hm
    have key : ∀ (ps : List Nat) (fl : Nat → Nat), (∀ p ∈ ps, p ∈ E.parents c) →
        Marked E fl (c :: todo) →
        Marked E (ps.foldl (fun fl p =>
            if has_flag (fl p) UNINTERESTING then fl
            else mark_parents_uninteresting E fuel
              (Function.update fl p (set_flag (fl p) UNINTERESTING)) p) fl) (c :: todo) ∧
          (∀ p ∈ ps, has_flag ((ps.foldl (fun fl p =>
            if has_flag (fl p) UNINTERESTING then fl
            else mark_parents_uninteresting E fuel
              (Function.update fl p (set_flag (fl p) UNINTERESTING)) p) fl) p) UNINTERESTING
                = true) ∧
          MarkFrame E c fl (ps.foldl (fun fl p =>
            if has_flag (fl p) UNINTERESTING then fl
            else mark_parents_uninteresting E fuel
              (Function.update fl p (set_flag (fl p) UNINTERESTING)) p) fl) := by
      intro ps
      induction ps with
      | nil =>
        intro fl _ hfl
        exact ⟨hfl, fun p hp => absurd hp (List.not_mem_nil _), markFrame_refl E c fl⟩
      | cons p ps ihps =>
        intro fl hps hfl
        rw [List.foldl_cons]
        have hpc : p ∈ E.parents c := hps p (List.mem_cons_self _ _)
        have hstep : ∃ fl1, (if has_flag (fl p) UNINTERESTING then fl
            else mark_parents_uninteresting E fuel
              (Function.update fl p (set_flag (fl p) UNINTERESTING)) p) = fl1 ∧
            Marked E fl1 (c :: todo) ∧ has_flag (fl1 p) UNINTERESTING = true ∧
            MarkFrame E c fl fl1 := by
          by_cases hp : has_flag (fl p) UNINTERESTING = true
          · exact ⟨fl, by simp [hp], hfl, hp, markFrame_refl E c fl⟩
          · have hpf : p < fuel := by have := htopo c p hpc; omega
            obtain ⟨h1, h2⟩ := ih (Function.update fl p (set_flag (fl p) UNINTERESTING)) p
              (c :: todo) hpf (marked_update p hfl)
            refine ⟨_, by simp [hp], h1, ?_, markFrame_step hpc h2⟩
            apply h2.1
            simp
        obtain ⟨fl1, he, hm1, hp1, hf1⟩ := hstep
        rw [he]
        obtain ⟨a, b, d⟩ := ihps fl1 (fun q hq => hps q (List.mem_cons_of_mem _ hq)) hm1
        refine ⟨a, ?_, markFrame_trans hf1 d⟩
        intro q hq
        rcases List.mem_cons.mp hq with rfl | hq
        · exact d.1 _ hp1
        · exact b q hq
    obtain ⟨a, b, d⟩ := key (E.parents c) flags (fun p hp => hp) hm
    rw [mark_parents_uninteresting]
    refine ⟨?_, d⟩
    intro u hu
    rcases a u hu with h | h
    · rcases List.mem_cons.mp h with rfl | h
      · exact Or.inr b
      · exact Or.inl h
    · exact Or.inr h

/-- The markings that `prepare_revision_walk` runs for the excluded entries `ex` close the
`UNINTERESTING` commits under the parent relation, within what the entries reach. -/
theorem mark_excluded_spec (E : Env) (htopo : ∀ c p, p ∈ E.parents c → p < c) :
    ∀ (ex : List Nat) (fl : Nat → Nat), Marked E fl ex →
      Marked E (ex.foldl (fun fl e => mark_parents_uninteresting E (e + 1) fl e) fl) [] ∧
      (∀ i, has_flag (fl i) UNINTERESTING = true →
        has_flag ((ex.foldl (fun fl e => mark_parents_uninteresting E (e + 1) fl e) fl) i)
          UNINTERESTING = true) ∧
      (∀ i, has_flag ((ex.foldl (fun fl e => mark_parents_uninteresting E (e + 1) fl e) fl) i)
          UNINTERESTING = true →
        has_flag (fl i) UNINTERESTING = true ∨ ∃ e ∈ ex, Reach E e i) ∧
      (∀ i, has_flag ((ex.foldl (fun fl e => mark_parents_uninteresting E (e + 1) fl e) fl) i)
          SEEN = has_flag (fl i) SEEN) ∧
      (∀ i, has_flag ((ex.foldl (fun fl e => mark_parents_uninteresting E (e + 1) fl e) fl) i)
          SHOWN = has_flag (fl i) SHOWN) := by
  intro ex
  induction ex with
  | nil =>
    intro fl h
    exact ⟨h, fun _ h => h, fun _ h => Or.inl h, fun _ => rfl, fun _ => rfl⟩
  | cons e ex ih =>
    intro fl h
    rw [List.foldl_cons]
    obtain ⟨h1, f1, f2, f3, f4⟩ :=
      mark_parents_uninteresting_spec E htopo (e + 1) fl e ex (Nat.lt_succ_self e) h
    obtain ⟨a, b, c, d, g⟩ := ih _ h1
    refine ⟨a, fun i hi => b i (f1 i hi), ?_, fun i => (d i).trans (f3 i),
      fun i => (g i).trans (f4 i)⟩
    intro i hi
    rcases c i hi with hi | ⟨x, hx, hr⟩
    · rcases f2 i hi with hi | hi
      · exact Or.inl hi
      · exact Or.inr ⟨e, List.mem_cons_self _ _, hi.to_reflTransGen⟩
    · exact Or.inr ⟨x, List.mem_cons_of_mem _ hx, hr⟩

/-- Taking the commit `c` from the queue and expanding its parents keeps the state of the
walk, whether `c` is then passed over as `UNINTERESTING` or emitted and marked `SHOWN`. -/
theorem walk_pop (E : Env) (seeds : List Nat) (flags : Nat → Nat) (c : Nat)
    (rest em new : List Nat) (fl1 : Nat → Nat) (q1 : List Nat)
    (hinv : WalkInv E seeds flags (c :: rest) em) (hperm : q1.Perm (new ++ rest))
    (hnd : new.Nodup)
    (hnew : ∀ p, p ∈ new ↔ p ∈ E.parents c ∧ has_flag (flags p) SEEN = false)
    (hfl : fl1 = fun i => if i ∈ new then set_flag (flags i) SEEN else flags i) :
    (has_flag (flags c) UNINTERESTING = true → WalkInv E seeds fl1 q1 em) ∧
    (has_flag (flags c) UNINTERESTING = false →
      WalkInv E seeds (Function.update fl1 c (set_flag (fl1 c) SHOWN)) q1 (c :: em)) := by
  have hA : ∀ i, has_flag (fl1 i) SEEN = true ↔ has_flag (flags i) SEEN = true ∨ i ∈ new := by
    intro i
    subst hfl
    by_cases hi : i ∈ new
    · simp [hi]
    · simp [hi]
  have hB : ∀ i, has_flag (fl1 i) SHOWN = has_flag (flags i) SHOWN := by
    intro i
    subst hfl
    by_cases hi : i ∈ new <;> simp [hi]
  have hU : ∀ i, has_flag (fl1 i) UNINTERESTING = has_flag (flags i) UNINTERESTING := by
    intro i
    subst hfl
    by_cases hi : i ∈ new <;> simp [hi]
  have hC : ∀ x, x ∈ q1 ↔ x ∈ new ∨ x ∈ rest := by
    intro x
    rw [hperm.mem_iff, List.mem_append]
  have hcs : has_flag (flags c) SEEN = true := (hinv.queued c (List.mem_cons_self _ _)).1
  have hcr : c ∉ rest := (List.nodup_cons.mp hinv.nodup).1
  have hcn : c ∉ new := by
    intro h
    have := ((hnew c).mp h).2
    rw [hcs] at this
    cases this
  have hcq : c ∉ q1 := by
    rw [hC]
    rintro (h | h)
    · exact hcn h
    · exact hcr h
  have hns : ∀ x, x ∈ new → has_flag (flags x) SEEN = false := fun x hx => ((hnew x).mp hx).2
  have hrs : ∀ x, x ∈ rest → has_flag (flags x) SEEN = true :=
    fun x hx => (hinv.queued x (List.mem_cons_of_mem _ hx)).1
  have hnodup : q1.Nodup := by
    rw [hperm.nodup_iff, List.nodup_append]
    refine ⟨hnd, (List.nodup_cons.mp hinv.nodup).2, ?_⟩
    intro x hx hx'
    have := hns x hx
    rw [hrs x hx'] at this
    cases this
  have hnotshown : ∀ x, x ∈ q1 → has_flag (flags x) SHOWN = false := by
    intro x hx
    rcases (hC x).mp hx with h | h
    · cases hsx : has_flag (flags x) SHOWN
      · rfl
      · have := ((hinv.emitted x).mp ((hinv.shown x).mp hsx)).1
        rw [hns x h] at this
        cases this
    · exact (hinv.queued x (List.mem_cons_of_mem _ h)).2
  have hclosed : ∀ x, has_flag (fl1 x) SEEN = true → x ∉ q1 →
      ∀ p ∈ E.parents x, has_flag (fl1 p) SEEN = true := by
    intro x hx hxq p hp
    rw [hC, not_or] at hxq
    have hxs : has_flag (flags x) SEEN = true := by
      rcases (hA x).mp hx with h | h
      · exact h
      · exact absurd h hxq.1
    rw [hA]
    by_cases hxc : x = c
    · subst hxc
      cases hps : has_flag (flags p) SEEN
      · exact Or.inr ((hnew p).mpr ⟨hp, hps⟩)
      · exact Or.inl rfl
    · left
      refine hinv.closed x hxs ?_ p hp
      rw [List.mem_cons, not_or]
      exact ⟨hxc, hxq.2⟩
  have hreached : ∀ x, has_flag (fl1 x) SEEN = true → ∃ i ∈ seeds, Reach E i x := by
    intro x hx
    rcases (hA x).mp hx with h | h
    · exact hinv.reached x h
    · obtain ⟨i, hi, hr⟩ := hinv.reached c hcs
      exact ⟨i, hi, Relation.ReflTransGen.tail hr ((hnew x).mp h).1⟩
  have hseeded : ∀ i ∈ seeds, has_flag (fl1 i) SEEN = true :=
    fun i hi => (hA i).mpr (Or.inl (hinv.seeded i hi))
  have hleft : ∀ x, has_flag (fl1 x) SEEN = true → x ∉ q1 →
      has_flag (flags x) SEEN = true ∧ x ∉ rest := by
    intro x hx hxq
    rw [hC, not_or] at hxq
    refine ⟨?_, hxq.2⟩
    rcases (hA x).mp hx with h | h
    · exact h
    · exact absurd h hxq.1
  have hem : ∀ x, x ∈ em → has_flag (fl1 x) SEEN = true ∧ x ∉ q1 ∧
      has_flag (fl1 x) UNINTERESTING = false := by
    intro x hx
    obtain ⟨h1, h2, h3⟩ := (hinv.emitted x).mp hx
    refine ⟨(hA x).mpr (Or.inl h1), ?_, by rw [hU]; exact h3⟩
    rw [hC]
    rintro (h | h)
    · have := hns x h
      rw [h1] at this
      cases this
    · exact h2 (List.mem_cons_of_mem _ h)
  constructor
  · intro hcu
    refine ⟨hnodup, ?_, hclosed, hreached, hseeded, ?_, ?_, hinv.em_nodup⟩
    · intro x hx
      refine ⟨?_, by rw [hB]; exact hnotshown x hx⟩
      rcases (hC x).mp hx with h | h
      · exact (hA x).mpr (Or.inr h)
      · exact (hA x).mpr (Or.inl (hrs x h))
    · intro x
      rw [hB]
      exact hinv.shown x
    · intro x
      constructor
      · exact hem x
      · rintro ⟨h1, h2, h3⟩
        obtain ⟨h4, h5⟩ := hleft x h1 h2
        rw [hU] at h3
        refine (hinv.emitted x).mpr ⟨h4, ?_, h3⟩
        rw [List.mem_cons, not_or]
        refine ⟨?_, h5⟩
        rintro rfl
        rw [hcu] at h3
        cases h3
  · intro hcu
    have hS : ∀ i, has_flag (Function.update fl1 c (set_flag (fl1 c) SHOWN) i) SEEN
        = has_flag (fl1 i) SEEN := by
      intro i
      by_cases hi : i = c
      · subst hi; simp
      · simp [Function.update_noteq hi]
    have hU2 : ∀ i, has_flag (Function.update fl1 c (set_flag (fl1 c) SHOWN) i) UNINTERESTING
        = has_flag (fl1 i) UNINTERESTING := by
      intro i
      by_cases hi : i = c
      · subst hi; simp
      · simp [Function.update_noteq hi]
    have hH : ∀ i, has_flag (Function.update fl1 c (set_flag (fl1 c) SHOWN) i) SHOWN = true ↔
        i = c ∨ has_flag (fl1 i) SHOWN = true := by
      intro i
      by_cases hi : i = c
      · subst hi; simp
      · simp [Function.update_noteq hi, hi]
    refine ⟨hnodup, ?_, ?_, ?_, ?_, ?_, ?_, ?_⟩
    · intro x hx
      have hxc : x ≠ c := fun h => hcq (h ▸ hx)
      refine ⟨?_, ?_⟩
      · rw [hS]
        rcases (hC x).mp hx with h | h
        · exact (hA x).mpr (Or.inr h)
        · exact (hA x).mpr (Or.inl (hrs x h))
      · rw [Function.update_noteq hxc, hB]
        exact hnotshown x hx
    · intro x hx hxq p hp
      rw [hS] at hx ⊢
      exact hclosed x hx hxq p hp
    · intro x hx
      rw [hS] at hx
      exact hreached x hx
    · intro i hi
      rw [hS]
      exact hseeded i hi
    · intro x
      rw [hH, List.mem_cons, hB, hinv.shown x]
    · intro x
      rw [hS, hU2, List.mem_cons]
      constructor
      · rintro (rfl | h)
        · exact ⟨(hA x).mpr (Or.inl hcs), hcq, by rw [hU]; exact hcu⟩
        · exact hem x h
      · rintro ⟨h1, h2, h3⟩
        obtain ⟨h4, h5⟩ := hleft x h1 h2
        rw [hU] at h3
        by_cases hxc : x = c
        · exact Or.inl hxc
        · right
          refine (hinv.emitted x).mpr ⟨h4, ?_, h3⟩
          rw [List.mem_cons, not_or]
          exact ⟨hxc, h5⟩
    · refine List.nodup_cons.mpr ⟨?_, hinv.em_nodup⟩
      intro h
      exact ((hinv.emitted c).mp h).2.1 (List.mem_cons_self _ _)

/-- With no filter active, a search for the next qualifying commit keeps the state of the walk
and adds the commit it finds to the emitted ones; it ends without one only on an empty queue;
it changes no `UNINTERESTING` flag. -/
theorem next_candidate_inv (E : Env) (seeds : List Nat)
    (hwin : ∀ c, E.in_window c = true) (hmsg : ∀ c, E.message_filter c = true)
    (hsimp : ∀ c, E.simplifier_shows c = true) :
    ∀ (fuel : Nat) (flags : Nat → Nat) (queue em : List Nat) (res : Option Nat)
      (fl' : Nat → Nat) (q' : List Nat),
      WalkInv E seeds flags queue em →
      next_candidate E false false fuel flags queue = some (res, fl', q') →
      (∀ i, has_flag (fl' i) UNINTERESTING = has_flag (flags i) UNINTERESTING) ∧
        WalkInv E seeds fl' q' (res.toList ++ em) ∧ (res = none → q' = []) := by
  intro fuel
  induction fuel with
  | zero => intro flags queue em res fl' q' _ h; simp [next_candidate] at h
  | succ fuel ih =>
    intro flags queue em res fl' q' hinv h
    cases queue with
    | nil =>
      simp only [next_candidate, Option.some.injEq, Prod.mk.injEq] at h
      obtain ⟨rfl, rfl, rfl⟩ := h
      exact ⟨fun _ => rfl, hinv, fun _ => rfl⟩
    | cons c rest =>
      obtain ⟨new, hperm, hnd, hnew, hfl⟩ := enqueue_spec E (E.parents c) flags rest
      have hsh := (hinv.queued c (List.mem_cons_self _ _)).2
      have hU : ∀ i, has_flag ((enqueue E flags rest (E.parents c)).1 i) UNINTERESTING
          = has_flag (flags i) UNINTERESTING := by
        intro i
        rw [hfl]
        by_cases hi : i ∈ new <;> simp [hi]
      have hpop := walk_pop E seeds flags c rest em new _ _ hinv hperm hnd hnew hfl
      rw [next_candidate] at h
      simp only [hsh, Bool.false_eq_true, if_false, hwin, hmsg, hsimp, Bool.not_true,
        false_and, hU] at h
      by_cases hcu : has_flag (flags c) UNINTERESTING = true
      · simp only [hcu, if_true] at h
        obtain ⟨h1, h2, h3⟩ := ih _ _ em res fl' q' (hpop.1 hcu) h
        exact ⟨fun i => (h1 i).trans (hU i), h2, h3⟩
      · have hcu' : has_flag (flags c) UNINTERESTING = false := by simpa using hcu
        simp only [hcu', Bool.false_eq_true, if_false, Option.some.injEq, Prod.mk.injEq] at h
        obtain ⟨rfl, rfl, rfl⟩ := h
        refine ⟨?_, hpop.2 hcu', fun h => by cases h⟩
        intro i
        rw [← hU i]
        by_cases hi : i = c
        · subst hi; simp
        · simp [Function.update_noteq hi]

/-- With no filter active, the sequence of the qualifying commits of a walk leaves the queue
empty and the state of the walk intact, with the sequence added to the emitted commits. -/
theorem candidates_inv (E : Env) (seeds : List Nat) (fuel : Nat)
    (hwin : ∀ c, E.in_window c = true) (hmsg : ∀ c, E.message_filter c = true)
    (hsimp : ∀ c, E.simplifier_shows c = true) :
    ∀ (calls : Nat) (w : Walk) (em out : List Nat),
      w.rev.first_parent_only = false → w.rev.no_merges = false →
      WalkInv E seeds w.flags w.rev.commits em →
      candidates E fuel calls w = some out →
      ∃ fl', WalkInv E seeds fl' [] (out.reverse ++ em) ∧
        ∀ i, has_flag (fl' i) UNINTERESTING = has_flag (w.flags i) UNINTERESTING := by
  intro calls
  induction calls with
  | zero => intro w em out _ _ _ h; simp [candidates] at h
  | succ calls ih =>
    intro w em out hfp hnm hinv h
    rw [candidates, get_revision_1, hfp, hnm] at h
    cases hn : next_candidate E false false fuel w.flags w.rev.commits with
    | none => rw [hn] at h; simp at h
    | some r =>
      obtain ⟨res, fl1, q1⟩ := r
      obtain ⟨h1, h2, h3⟩ := next_candidate_inv E seeds hwin hmsg hsimp fuel _ _ em res fl1 q1
        hinv hn
      rw [hn] at h
      cases res with
      | none =>
        simp only [Option.map_some', Option.some.injEq] at h
        subst h
        rw [h3 rfl] at h2
        exact ⟨fl1, by simpa using h2, h1⟩
      | some c =>
        simp only [Option.map_some', Option.map_eq_some'] at h
        obtain ⟨o, ho, rfl⟩ := h
        obtain ⟨fl', a, b⟩ := ih { flags := fl1, rev := { w.rev with commits := q1 } }
          (c :: em) o hfp hnm h2 ho
        refine ⟨fl', ?_, fun i => (b i).trans (h1 i)⟩
        simpa using a

/-- A walk whose pagination is off is the walk paginated with `skip_count = 0` and its own
negative `max_count`. -/
theorem paginate_self (w : Walk) (hskip : w.rev.skip_count = 0) :
    paginate w 0 w.rev.max_count = w := by
  obtain ⟨flags, rev⟩ := w
  obtain ⟨a, b, c, d, e, f⟩ := rev
  simp only at hskip
  subst hskip
  rfl

/-- More fuel does not change the result of a search that has ended. -/
theorem next_candidate_mono (E : Env) (fpo nm : Bool) :
    ∀ (fuel : Nat) (flags : Nat → Nat) (queue : List Nat)
      (r : Option Nat × (Nat → Nat) × List Nat),
      next_candidate E fpo nm fuel flags queue = some r →
      next_candidate E fpo nm (fuel + 1) flags queue = some r := by
  intro fuel
  induction fuel with
  | zero => intro flags queue r h; simp [next_candidate] at h
  | succ fuel ih =>
    intro flags queue r h
    cases queue with
    | nil =>
      rw [next_candidate] at h ⊢
      exact h
    | cons c rest =>
      rw [next_candidate] at h
      rw [next_candidate]
      simp only at h ⊢
      split_ifs at h ⊢
      all_goals first
        | exact ih _ _ _ h
        | exact h

/-- More fuel and more calls do not change the sequence of the qualifying commits. -/
theorem candidates_mono_fuel (E : Env) (fuel : Nat) :
    ∀ (calls : Nat) (w : Walk) (out : List Nat),
      candidates E fuel calls w = some out → candidates E (fuel + 1) calls w = some out := by
  intro calls
  induction calls with
  | zero => intro w out h; simp [candidates] at h
  | succ calls ih =>
    intro w out h
    rw [candidates, get_revision_1] at h ⊢
    cases hn : next_candidate E w.rev.first_parent_only w.rev.no_merges fuel w.flags
        w.rev.commits with
    | none => rw [hn] at h; simp at h
    | some r =>
      rw [next_candidate_mono E _ _ fuel _ _ r hn]
      rw [hn] at h
      obtain ⟨res, fl1, q1⟩ := r
      cases res with
      | none => exact h
      | some c =>
        simp only [Option.map_some', Option.map_eq_some'] at h ⊢
        obtain ⟨o, ho, rfl⟩ := h
        exact ⟨o, ih _ o ho, rfl⟩

theorem candidates_mono_le (E : Env) (w : Walk) (out : List Nat) (fuel calls : Nat)
    (h : candidates E fuel calls w = some out) :
    ∀ (fuel' calls' : Nat), fuel ≤ fuel' → calls ≤ calls' →
      candidates E fuel' calls' w = some out := by
  intro fuel' calls' hf hc
  obtain ⟨a, rfl⟩ := Nat.exists_eq_add_of_le hf
  obtain ⟨b, rfl⟩ := Nat.exists_eq_add_of_le hc
  have h1 : candidates E (fuel + a) calls w = some out := by
    induction a with
    | zero => exact h
    | succ a ih => exact candidates_mono_fuel E _ calls w out (ih (Nat.le_add_right _ _))
  induction b with
  | zero => exact h1
  | succ b ih => exact candidates_mono E _ _ w out (ih (Nat.le_add_right _ _))

/-- What `prepare_revision_walk` sets up on a fresh walk: the `UNINTERESTING` commits are
the commits reached from an excluded entry, and the included entries are queued, `SEEN`, with
nothing emitted. -/
theorem prepare_revision_walk_spec (E : Env) (w : Walk)
    (htopo : ∀ c p, p ∈ E.parents c → p < c)
    (hseen : ∀ c, has_flag (w.flags c) SEEN = false)
    (hshown : ∀ c, has_flag (w.flags c) SHOWN = false)
    (hun : ∀ c, has_flag (w.flags c) UNINTERESTING = true → c ∈ w.rev.pending.map Prod.fst) :
    WalkInv E ((w.rev.pending.map Prod.fst).filter fun e => !has_flag (w.flags e) UNINTERESTING)
      (prepare_revision_walk E w).2.flags (prepare_revision_walk E w).2.rev.commits [] ∧
    ∀ i, has_flag ((prepare_revision_walk E w).2.flags i) UNINTERESTING = true ↔
      ∃ e ∈ w.rev.pending.map Prod.fst,
        has_flag (w.flags e) UNINTERESTING = true ∧ Reach E e i := by
  have hm0 : Marked E w.flags
      ((w.rev.pending.map Prod.fst).filter fun e => has_flag (w.flags e) UNINTERESTING) := by
    intro u hu
    exact Or.inl (List.mem_filter.mpr ⟨hun u hu, hu⟩)
  obtain ⟨m1, m2, m3, m4, m5⟩ := mark_excluded_spec E htopo _ w.flags hm0
  obtain ⟨new, hperm, hnd, hnew, hfl⟩ := enqueue_spec E
    ((w.rev.pending.map Prod.fst).filter fun e => !has_flag (w.flags e) UNINTERESTING)
    (((w.rev.pending.map Prod.fst).filter fun e => has_flag (w.flags e) UNINTERESTING).foldl
      (fun fl e => mark_parents_uninteresting E (e + 1) fl e) w.flags) []
  have hf : (prepare_revision_walk E w).2.flags = (enqueue E
    (((w.rev.pending.map Prod.fst).filter fun e => has_flag (w.flags e) UNINTERESTING).foldl
      (fun fl e => mark_parents_uninteresting E (e + 1) fl e) w.flags) []
    ((w.rev.pending.map Prod.fst).filter fun e => !has_flag (w.flags e) UNINTERESTING)).1 := rfl
  have hq : (prepare_revision_walk E w).2.rev.commits = (enqueue E
    (((w.rev.pending.map Prod.fst).filter fun e => has_flag (w.flags e) UNINTERESTING).foldl
      (fun fl e => mark_parents_uninteresting E (e + 1) fl e) w.flags) []
    ((w.rev.pending.map Prod.fst).filter fun e => !has_flag (w.flags e) UNINTERESTING)).2 := rfl
  rw [hf, hq]
  rw [List.append_nil] at hperm
  have hnew' : ∀ p, p ∈ new ↔
      p ∈ (w.rev.pending.map Prod.fst).filter fun e => !has_flag (w.flags e) UNINTERESTING := by
    intro p
    rw [hnew p, m4, hseen]
    simp
  have hS : ∀ i, has_flag ((enqueue E
    (((w.rev.pending.map Prod.fst).filter fun e => has_flag (w.flags e) UNINTERESTING).foldl
      (fun fl e => mark_parents_uninteresting E (e + 1) fl e) w.flags) []
    ((w.rev.pending.map Prod.fst).filter fun e => !has_flag (w.flags e) UNINTERESTING)).1 i) SEEN
      = true ↔ i ∈ new := by
    intro i
    rw [hfl]
    by_cases hi : i ∈ new
    · simp [hi]
    · simp [hi, m4, hseen]
  have hH : ∀ i, has_flag ((enqueue E
    (((w.rev.pending.map Prod.fst).filter fun e => has_flag (w.flags e) UNINTERESTING).foldl
      (fun fl e => mark_parents_uninteresting E (e + 1) fl e) w.flags) []
    ((w.rev.pending.map Prod.fst).filter fun e => !has_flag (w.flags e) UNINTERESTING)).1 i) SHOWN
      = false := by
    intro i
    rw [hfl]
    by_cases hi : i ∈ new
    · simp [hi, m5, hshown]
    · simp [hi, m5, hshown]
  have hU : ∀ i, has_flag ((enqueue E
    (((w.rev.pending.map Prod.fst).filter fun e => has_flag (w.flags e) UNINTERESTING).foldl
      (fun fl e => mark_parents_uninteresting E (e + 1) fl e) w.flags) []
    ((w.rev.pending.map Prod.fst).filter fun e => !has_flag (w.flags e) UNINTERESTING)).1 i)
      UNINTERESTING = has_flag
    ((((w.rev.pending.map Prod.fst).filter fun e => has_flag (w.flags e) UNINTERESTING).foldl
      (fun fl e => mark_parents_uninteresting E (e + 1) fl e) w.flags) i) UNINTERESTING := by
    intro i
    rw [hfl]
    by_cases hi : i ∈ new <;> simp [hi]
  constructor
  · refine ⟨hperm.nodup_iff.mpr hnd, ?_, ?_, ?_, ?_, ?_, ?_, List.nodup_nil⟩
    · intro c hc
      exact ⟨(hS c).mpr (hperm.mem_iff.mp hc), hH c⟩
    · intro c hc hcq
      exact absurd (hperm.mem_iff.mpr ((hS c).mp hc)) hcq
    · intro c hc
      exact ⟨c, (hnew' c).mp ((hS c).mp hc), Relation.ReflTransGen.refl⟩
    · intro i hi
      exact (hS i).mpr ((hnew' i).mpr hi)
    · intro c
      rw [hH c]
      simp
    · intro c
      constructor
      · intro h
        cases h
      · rintro ⟨h1, h2, -⟩
        exact absurd (hperm.mem_iff.mpr ((hS c).mp h1)) h2
  · intro i
    rw [hU]
    constructor
    · intro h
      rcases m3 i h with h | ⟨e, he, hr⟩
      · exact ⟨i, hun i h, h, Relation.ReflTransGen.refl⟩
      · obtain ⟨he1, he2⟩ := List.mem_filter.mp he
        exact ⟨e, he1, he2, hr⟩
    · rintro ⟨e, -, he2, hr⟩
      induction hr with
      | refl => exact m2 e he2
      | tail _ hp ih =>
        rcases m1 _ ih with h | h
        · cases h
        · exact h _ hp

/-- C14: on a fresh walk (no commit `SEEN` or `SHOWN`, `UNINTERESTING` only on pending
entries, which is the sign of the excluded ones), with no filter and no pagination active and
the commits numbered so that a parent has a smaller number than its child,
`prepare_revision_walk` succeeds and the walk of `get_revision` emits, each once, exactly the
commits reached from an included pending entry and not reached from an excluded one; it ends
with this output whenever the fuel and the calls exceed the weight of the seeded queue. On the
linear history `root -> A -> B -> C` with `C` included and `A` excluded the output is
`[C, B]`. -/
theorem get_revision_range (E : Env) (w : Walk)
    (htopo : ∀ c p, p ∈ E.parents c → p < c)
    (hwin : ∀ c, E.in_window c = true) (hmsg : ∀ c, E.message_filter c = true)
    (hsimp : ∀ c, E.simplifier_shows c = true)
    (hnm : w.rev.no_merges = false) (hfp : w.rev.first_parent_only = false)
    (hskip : w.rev.skip_count = 0) (hmax : w.rev.max_count < 0)
    (hseen : ∀ c, has_flag (w.flags c) SEEN = false)
    (hshown : ∀ c, has_flag (w.flags c) SHOWN = false)
    (hun : ∀ c, has_flag (w.flags c) UNINTERESTING = true → c ∈ w.rev.pending.map Prod.fst) :
    (prepare_revision_walk E w).1 = 0 ∧
    (∃ out : List Nat, out.Nodup ∧
      (∀ c, c ∈ out ↔
        (∃ i ∈ w.rev.pending.map Prod.fst,
          has_flag (w.flags i) UNINTERESTING = false ∧ Reach E i c) ∧
        ¬ ∃ e ∈ w.rev.pending.map Prod.fst,
          has_flag (w.flags e) UNINTERESTING = true ∧ Reach E e c) ∧
      ∀ fuel calls, weight (prepare_revision_walk E w).2.rev.commits < fuel →
        weight (prepare_revision_walk E w).2.rev.commits < calls →
        emitted E fuel calls (prepare_revision_walk E w).2 = some out) ∧
    emitted linear_history 10 10 (prepare_revision_walk linear_history range_walk).2
      = some [3, 2] := by
  refine ⟨rfl, ?_, by decide⟩
  obtain ⟨hinv, hU⟩ := prepare_revision_walk_spec E w htopo hseen hshown hun
  have hs1 : (prepare_revision_walk E w).2.rev.skip_count = 0 := hskip
  have hm1 : (prepare_revision_walk E w).2.rev.max_count < 0 := hmax
  obtain ⟨out, hout⟩ := candidates_total E htopo
    (weight (prepare_revision_walk E w).2.rev.commits + 1)
    (weight (prepare_revision_walk E w).2.rev.commits + 1) _
    (Nat.lt_succ_self _) (Nat.lt_succ_self _)
  obtain ⟨fl', hfin, hU'⟩ := candidates_inv E _ _ hwin hmsg hsimp _
    (prepare_revision_walk E w).2 [] out hfp hnm hinv hout
  rw [List.append_nil] at hfin
  refine ⟨out, List.nodup_reverse.mp hfin.em_nodup, ?_, ?_⟩
  · intro c
    rw [← List.mem_reverse, hfin.emitted c]
    have hseen_iff : has_flag (fl' c) SEEN = true ↔
        ∃ i ∈ w.rev.pending.map Prod.fst,
          has_flag (w.flags i) UNINTERESTING = false ∧ Reach E i c := by
      constructor
      · intro h
        obtain ⟨i, hi, hr⟩ := hfin.reached c h
        obtain ⟨h1, h2⟩ := List.mem_filter.mp hi
        exact ⟨i, h1, by simpa using h2, hr⟩
      · rintro ⟨i, h1, h2, hr⟩
        induction hr with
        | refl => exact hfin.seeded i (List.mem_filter.mpr ⟨h1, by simpa using h2⟩)
        | tail _ hp ih => exact hfin.closed _ ih (List.not_mem_nil _) _ hp
    have hun_iff : has_flag (fl' c) UNINTERESTING = false ↔
        ¬ ∃ e ∈ w.rev.pending.map Prod.fst,
          has_flag (w.flags e) UNINTERESTING = true ∧ Reach E e c := by
      rw [← hU c, ← hU' c]
      simp
    rw [hseen_iff, hun_iff]
    simp
  · intro fuel calls hfuel hcalls
    rw [← paginate_self (prepare_revision_walk E w).2 hs1, emitted_unpaginated E fuel _ hm1]
    exact candidates_mono_le E _ out _ _ hout fuel calls hfuel hcalls

theorem linear_history_topo : ∀ c p, p ∈ linear_history.parents c → p < c := by
  intro c p h
  cases c with
  | zero => simp [linear_history] at h
  | succ n =>
    simp only [linear_history] at h
    split at h
    · rw [List.mem_singleton.mp h]; exact Nat.lt_succ_self n
    · cases h

theorem range_walk_sign : ∀ c, has_flag (range_walk.flags c) UNINTERESTING = true →
    c ∈ range_walk.rev.pending.map Prod.fst := by
  intro c h
  by_cases hc : c = 1
  · subst hc; decide
  · simp [range_walk, hc, has_flag] at h

theorem range_walk_fresh (m : Nat) (hm : m = SEEN ∨ m = SHOWN) :
    ∀ c, has_flag (range_walk.flags c) m = false := by
  intro c
  by_cases hc : c = 1
  · subst hc
    rcases hm with rfl | rfl <;> decide
  · simp [range_walk, hc, has_flag]

/-- C14 on the linear history `root -> A -> B -> C` with `C` included and `A` excluded: the
walk emits `C` and `B`, the commits reached from `C` and not from `A`. -/
theorem get_revision_range_witness :
    (∀ c p, p ∈ linear_history.parents c → p < c) ∧
    range_walk.rev.skip_count = 0 ∧ range_walk.rev.max_count < 0 ∧
    (∀ c, has_flag (range_walk.flags c) UNINTERESTING = true →
      c ∈ range_walk.rev.pending.map Prod.fst) ∧
    (∃ out : List Nat, out.Nodup ∧
      (∀ c, c ∈ out ↔
        (∃ i ∈ range_walk.rev.pending.map Prod.fst,
          has_flag (range_walk.flags i) UNINTERESTING = false ∧ Reach linear_history i c) ∧
        ¬ ∃ e ∈ range_walk.rev.pending.map Prod.fst,
          has_flag (range_walk.flags e) UNINTERESTING = true ∧ Reach linear_history e c) ∧
      ∀ fuel calls,
        weight (prepare_revision_walk linear_history range_walk).2.rev.commits < fuel →
        weight (prepare_revision_walk linear_history range_walk).2.rev.commits < calls →
        emitted linear_history fuel calls (prepare_revision_walk linear_history range_walk).2
          = some out) ∧
    emitted linear_history 10 10 (prepare_revision_walk linear_history range_walk).2
      = some [3, 2] :=
  have h := get_revision_range linear_history range_walk linear_history_topo (fun _ => rfl)
    (fun _ => rfl) (fun _ => rfl) rfl rfl rfl (by decide)
    (range_walk_fresh SEEN (Or.inl rfl)) (range_walk_fresh SHOWN (Or.inr rfl)) range_walk_sign
  ⟨linear_history_topo, rfl, by decide, range_walk_sign, h.2.1, h.2.2⟩

end Walker
